import Mathlib

/-!
Verification development for the ClestiqShield-AgentCore request pipeline:
the Sentinel input-security stage, the Guardian output-validation stage and
the Gateway chat endpoint.  Python source functions are embedded shallowly:
strings become `List Char`, Python floats used for confidence scores become
`ℚ`, regex scanning is embedded by a small backtracking engine with the
leftmost/greedy semantics of `re.findall`, and fallible remote calls become
`Except` parameters.
-/

set_option maxRecDepth 4000

abbrev Chars := List Char

def strChars (s : String) : Chars := s.data

/-- Python `\w` / identifier characters: letters, digits and underscore
(the embedding covers the ASCII fragment of the source strings). -/
def isWordChar (c : Char) : Bool :=
  (('a' ≤ c && c ≤ 'z') || ('A' ≤ c && c ≤ 'Z') || ('0' ≤ c && c ≤ '9') || c = '_')

def isAsciiLetter (c : Char) : Bool :=
  ('a' ≤ c && c ≤ 'z') || ('A' ≤ c && c ≤ 'Z')

def isDigitChar (c : Char) : Bool :=
  '0' ≤ c && c ≤ '9'

/-- Python `str.split()` / `\s` whitespace set. -/
def isPySpace (c : Char) : Bool :=
  c = ' ' || c = '\t' || c = '\n' || c = '\r' || c = '\x0b' || c = '\x0c'

def lowerChar (c : Char) : Char :=
  if 'A' ≤ c && c ≤ 'Z' then Char.ofNat (c.toNat + 32) else c

/-- Characters written by code point to keep the development free of
delimiter literals. -/
def lbrC : Char := Char.ofNat 123
def rbrC : Char := Char.ofNat 125
def btkC : Char := Char.ofNat 96
def apoC : Char := Char.ofNat 39
def dqC  : Char := Char.ofNat 34
def bslC : Char := Char.ofNat 92

/-- `pfx pat s`: `pat` is a prefix of `s` (Python `str.startswith`). -/
def pfx : Chars → Chars → Bool
  | [], _ => true
  | _ :: _, [] => false
  | p :: ps, c :: cs => p = c && pfx ps cs

/-- Python `str.replace(pat, rep)` on char lists: scan left to right,
replace each non-overlapping occurrence of `pat` (assumed nonempty).
Structural recursion on a fuel that the wrapper sets to the input length,
which is always sufficient because every step consumes at least one
character. -/
def replaceAllF : Nat → Chars → Chars → Chars → Chars
  | 0, s, _, _ => s
  | fuel + 1, s, pat, rep =>
    match s with
    | [] => []
    | c :: cs =>
      if pfx pat (c :: cs) && pat ≠ [] then
        rep ++ replaceAllF fuel ((c :: cs).drop pat.length) pat rep
      else
        c :: replaceAllF fuel cs pat rep

def replaceAll (s pat rep : Chars) : Chars :=
  replaceAllF s.length s pat rep

/-- `containsSub s pat`: `pat` occurs somewhere in `s` (Python `in`). -/
def containsSub : Chars → Chars → Bool
  | s, pat =>
    match s with
    | [] => pat = []
    | _ :: cs => pfx pat s || containsSub cs pat

/-! ## Regex engine

A small backtracking matcher with Python `re` semantics on the fragment the
source patterns use: literal characters (optionally case-insensitive),
character classes, `.`, greedy `*` `+` `?` `{n}` `{n,}` `{m,n}`, alternation
with left-first priority, and the zero-width word boundary `\b`.  The
matcher returns candidate continuations in Python's backtracking priority
order; the head is the match Python's engine reports. -/

inductive RE where
  | eps : RE
  | sym (p : Char → Bool) : RE
  | seq (a b : RE) : RE
  | alt (a b : RE) : RE
  | star (r : RE) : RE
  | wb : RE

/-- Structure size, used to compute a sufficient matcher fuel. -/
def reSize : RE → Nat
  | .eps => 1
  | .sym _ => 1
  | .seq a b => reSize a + reSize b + 1
  | .alt a b => reSize a + reSize b + 1
  | .star r => reSize r + 1
  | .wb => 1

def isWordOpt : Option Char → Bool
  | none => false
  | some c => isWordChar c

/-- Word-boundary test between the previous character and the head of the
remaining input (`\b`). -/
def atWb (prev : Option Char) (s : Chars) : Bool :=
  match s with
  | [] => isWordOpt prev
  | c :: _ => isWordOpt prev ≠ isWordChar c

/-- All candidate continuations of matching `r` against `s` (with `prev` the
character just before `s`), in Python's priority order: each element is the
pair (last consumed character, remaining suffix). -/
def mrun : Nat → RE → Option Char → Chars → List (Option Char × Chars)
  | 0, _, _, _ => []
  | _ + 1, .eps, prev, s => [(prev, s)]
  | _ + 1, .sym p, _, s =>
    match s with
    | [] => []
    | c :: cs => if p c then [(some c, cs)] else []
  | fuel + 1, .seq a b, prev, s =>
    (mrun fuel a prev s).flatMap fun pr => mrun fuel b pr.1 pr.2
  | fuel + 1, .alt a b, prev, s =>
    mrun fuel a prev s ++ mrun fuel b prev s
  | fuel + 1, .star r, prev, s =>
    ((mrun fuel r prev s).filter fun pr => pr.2.length < s.length).flatMap
      (fun pr => mrun fuel (.star r) pr.1 pr.2) ++ [(prev, s)]
  | _ + 1, .wb, prev, s => if atWb prev s then [(prev, s)] else []

def reFuel (r : RE) (s : Chars) : Nat :=
  (reSize r + 2) * (s.length + 2)

/-- Leftmost match attempt at the current position: the number of characters
the (first, Python-reported) match consumes. -/
def matchHere (r : RE) (prev : Option Char) (s : Chars) : Option Nat :=
  match mrun (reFuel r s) r prev s with
  | [] => none
  | pr :: _ => some (s.length - pr.2.length)

/-- `re.findall` embedding: scan left to right, taking the leftmost
non-overlapping matches and returning the matched substrings (the source
patterns wrap either the whole pattern in one group or none, so the matched
text is what Python returns). -/
def findAllFrom : Nat → RE → Option Char → Chars → List Chars
  | 0, _, _, _ => []
  | fuel + 1, r, prev, s =>
    match matchHere r prev s with
    | some k =>
      if k = 0 then
        match s with
        | [] => [[]]
        | c :: cs => [] :: findAllFrom fuel r (some c) cs
      else
        s.take k :: findAllFrom fuel r (s.take k).getLast? (s.drop k)
    | none =>
      match s with
      | [] => []
      | c :: cs => findAllFrom fuel r (some c) cs

def findAll (r : RE) (s : Chars) : List Chars :=
  findAllFrom (s.length + 1) r none s

/-- `re.search` embedding: does the pattern match anywhere? -/
def reSearch (r : RE) (s : Chars) : Bool :=
  findAll r s ≠ []

/-! ### Pattern construction helpers -/

def reChar (c : Char) : RE := .sym fun d => d = c

/-- Case-insensitive single character (for `re.IGNORECASE` patterns). -/
def reCharI (c : Char) : RE := .sym fun d => lowerChar d = lowerChar c

def reLit (s : String) : RE :=
  s.data.foldr (fun c acc => .seq (reChar c) acc) .eps

def reLitI (s : String) : RE :=
  s.data.foldr (fun c acc => .seq (reCharI c) acc) .eps

def reCat (rs : List RE) : RE := rs.foldr .seq .eps

def reAlts : List RE → RE
  | [] => .eps
  | [r] => r
  | r :: rs => .alt r (reAlts rs)

/-- `.` : any character except newline. -/
def reDot : RE := .sym fun c => c ≠ '\n'

def reDigit : RE := .sym isDigitChar
def reWordC : RE := .sym isWordChar
def reSpace : RE := .sym isPySpace

def rePlus (r : RE) : RE := .seq r (.star r)

/-- Greedy `?`. -/
def reOpt (r : RE) : RE := .alt r .eps

/-- `r{n}`. -/
def reRep (r : RE) : Nat → RE
  | 0 => .eps
  | n + 1 => .seq r (reRep r n)

/-- `r{n,}` (greedy). -/
def reAtLeast (r : RE) (n : Nat) : RE := .seq (reRep r n) (.star r)

/-- Greedy `r{0,n}`. -/
def reUpTo (r : RE) : Nat → RE
  | 0 => .eps
  | n + 1 => .alt (.seq r (reUpTo r n)) .eps

/-- `r{m,n}` (greedy). -/
def reRange (r : RE) (m n : Nat) : RE := .seq (reRep r m) (reUpTo r (n - m))

def reOneOf (cs : List Char) : RE := .sym fun c => cs.contains c

/-! ### Kernel-computable order operations on `ℚ`

Mathlib's `min`/`max` on `ℚ` go through the `LinearOrder` structure and do
not reduce inside the kernel, so the embeddings use these equivalents. -/

def qmin (a b : ℚ) : ℚ := if Rat.blt b a then b else a

def qmax (a b : ℚ) : ℚ := if Rat.blt a b then b else a

/-- Kernel-computable `(n : ℚ) * q` (Batteries marks `Rat.mul` irreducible,
which blocks `decide`). -/
def qmulNat (n : ℕ) (q : ℚ) : ℚ := mkRat (n * q.num) q.den

theorem rat_blt_iff (a b : ℚ) : Rat.blt a b = true ↔ a < b := Iff.rfl

theorem qmin_eq_min (a b : ℚ) : qmin a b = min a b := by
  unfold qmin
  rcases le_or_lt a b with h | h
  · rw [min_eq_left h, if_neg]
    simp only [rat_blt_iff, not_lt]
    exact h
  · rw [min_eq_right h.le, if_pos ((rat_blt_iff b a).mpr h)]

theorem qmax_eq_max (a b : ℚ) : qmax a b = max a b := by
  unfold qmax
  rcases lt_or_le a b with h | h
  · rw [max_eq_right h.le, if_pos ((rat_blt_iff a b).mpr h)]
  · rw [max_eq_left h, if_neg]
    simp only [rat_blt_iff, not_lt]
    exact h

theorem qmulNat_eq (n : ℕ) (q : ℚ) : qmulNat n q = n * q := by
  unfold qmulNat
  rw [Rat.mkRat_eq_div]
  push_cast
  rw [mul_div_assoc, Rat.num_div_den]

/-! ## Decimal rendering

A structural decimal printer (used for pseudonymization token names, the
`X-Security-Score` header and JSON number serialization), with enough
correctness theory to prove injectivity and parser round trips. -/

def digitChar (d : Nat) : Char := Char.ofNat (48 + d)

def natToCharsF : Nat → Nat → Chars
  | 0, _ => []
  | fuel + 1, n =>
    if n < 10 then [digitChar n]
    else natToCharsF fuel (n / 10) ++ [digitChar (n % 10)]

/-- Decimal digits of `n`, most significant first (Python `str(int)` on a
non-negative value). -/
def natToChars (n : Nat) : Chars := natToCharsF (n + 1) n

/-- Reads a digit string back (most significant first). -/
def charsToNat (ds : Chars) : Nat :=
  ds.foldl (fun a c => 10 * a + (c.toNat - 48)) 0

/-! ## PII patterns (`sanitizers.PIIRedactor`, `pii_scanner.OutputPIIScanner`) -/

def dashOrSpace : RE := .sym fun c => c = '-' || isPySpace c
def dotDashSpace : RE := .sym fun c => c = '-' || c = '.' || isPySpace c

/-- `\b\d{3}-\d{2}-\d{4}\b` -/
def SSN_PATTERN : RE :=
  reCat [.wb, reRep reDigit 3, reChar '-', reRep reDigit 2, reChar '-',
    reRep reDigit 4, .wb]

/-- `\b(?:\d{4}[-\s]?){3}\d{4}\b` -/
def CC_PATTERN : RE :=
  reCat [.wb, reRep (reCat [reRep reDigit 4, reOpt dashOrSpace]) 3,
    reRep reDigit 4, .wb]

def emailLocalChar : RE := .sym fun c =>
  isAsciiLetter c || isDigitChar c || c = '.' || c = '_' || c = '%' || c = '+' || c = '-'

def emailDomChar : RE := .sym fun c =>
  isAsciiLetter c || isDigitChar c || c = '.' || c = '-'

def emailTldChar : RE := .sym fun c => isAsciiLetter c || c = '|'

/-- `\b[A-Za-z0-9._%+-]+@[A-Za-z0-9.-]+\.[A-Z|a-z]{2,}\b` -/
def EMAIL_PATTERN : RE :=
  reCat [.wb, rePlus emailLocalChar, reChar '@', rePlus emailDomChar,
    reChar '.', reAtLeast emailTldChar 2, .wb]

/-- `\b(?:\+?1[-.\s]?)?\(?([0-9]{3})\)?[-.\s]?([0-9]{3})[-.\s]?([0-9]{4})\b` -/
def PHONE_PATTERN : RE :=
  reCat [.wb,
    reOpt (reCat [reOpt (reChar '+'), reChar '1', reOpt dotDashSpace]),
    reOpt (reChar '('), reRep reDigit 3, reOpt (reChar ')'), reOpt dotDashSpace,
    reRep reDigit 3, reOpt dotDashSpace, reRep reDigit 4, .wb]

def apiKeyChar : RE := .sym fun c =>
  isAsciiLetter c || isDigitChar c || c = '_' || c = '-'

/-- `\b[A-Za-z0-9_-]{32,}\b` -/
def API_KEY_PATTERN : RE := reCat [.wb, reAtLeast apiKeyChar 32, .wb]

/-- `\b\d{1,3}\.\d{1,3}\.\d{1,3}\.\d{1,3}\b` -/
def IP_ADDRESS_PATTERN : RE :=
  reCat [.wb, reRange reDigit 1 3, reChar '.', reRange reDigit 1 3, reChar '.',
    reRange reDigit 1 3, reChar '.', reRange reDigit 1 3, .wb]

def SECRET_KEYWORDS : List String :=
  ["password", "secret", "api_key", "token", "private_key", "credential"]

/-! ## Threat patterns (`threat_detectors.ThreatDetector`) -/

def SQL_PATTERNS : List RE :=
  [ reCat [.wb, reLitI "union", .wb, .star reDot, .wb, reLitI "select", .wb],
    reCat [.wb, reLitI "select", .wb, .star reDot, .wb, reLitI "from", .wb],
    reCat [.wb, reLitI "insert", .wb, .star reDot, .wb, reLitI "into", .wb],
    reCat [.wb, reLitI "update", .wb, .star reDot, .wb, reLitI "set", .wb],
    reCat [.wb, reLitI "delete", .wb, .star reDot, .wb, reLitI "from", .wb],
    reCat [.wb, reLitI "drop", .wb, .star reDot, .wb, reLitI "table", .wb],
    reCat [.wb, reLitI "exec", .wb, .star reDot, reChar '('],
    reCat [.wb, reLitI "execute", .wb, .star reDot, reChar '('],
    reAlts [reLit "--", reLit "#", reLit "/*"],
    reCat [.wb, reLitI "or", .wb, .star reDot, reChar '=', .star reDot],
    reCat [.wb, reLitI "and", .wb, .star reDot, reChar '=', .star reDot],
    reCat [reChar apoC, .star reDot, .wb, reLitI "or", .wb, .star reDot,
      reChar apoC, .star reDot, reChar '=', .star reDot, reChar apoC],
    reCat [reChar '1', .star reSpace, reChar '=', .star reSpace, reChar '1'],
    reAlts [reLitI "sleep(", reLitI "benchmark(",
      reCat [reLitI "waitfor", rePlus reSpace, reLitI "delay"]] ]

def notGt : RE := .sym fun c => c ≠ '>'

def XSS_PATTERNS : List RE :=
  [ reCat [reChar '<', reLitI "script", .star notGt, reChar '>'],
    reLitI "</script>",
    reLitI "javascript:",
    reCat [reLitI "on", rePlus reWordC, .star reSpace, reChar '='],
    reCat [reChar '<', reLitI "iframe", .star notGt, reChar '>'],
    reCat [reChar '<', reLitI "object", .star notGt, reChar '>'],
    reCat [reChar '<', reLitI "embed", .star notGt, reChar '>'],
    reCat [reChar '<', reLitI "img", .star notGt, reLitI "src"],
    reCat [reLitI "eval", .star reSpace, reChar '('],
    reCat [reLitI "expression", .star reSpace, reChar '('],
    reLitI "vbscript:",
    reLitI "data:text/html" ]

def COMMAND_INJECTION_PATTERNS : List RE :=
  [ reOneOf [';', '&', '|', btkC, '$'],
    reCat [reChar '$', reChar '(', .star reDot, reChar ')'],
    reCat [reChar btkC, .star reDot, reChar btkC],
    reAlts [reLit "&&", reLit "||"],
    reAlts [reCat [reChar '>', .star reSpace, reChar '/'],
      reCat [reChar '<', .star reSpace, reChar '/']],
    reAlts [reCat [.wb, reLitI "cat", .wb], reCat [.wb, reLitI "ls", .wb],
      reCat [.wb, reLitI "whoami", .wb], reCat [.wb, reLitI "pwd", .wb]],
    reAlts [reCat [.wb, reLitI "curl", .wb], reCat [.wb, reLitI "wget", .wb],
      reCat [.wb, reLitI "nc", .wb], reCat [.wb, reLitI "netcat", .wb]],
    reAlts [reCat [.wb, reLitI "chmod", .wb], reCat [.wb, reLitI "chown", .wb],
      reCat [.wb, reLitI "rm", .wb]] ]

def PATH_TRAVERSAL_PATTERNS : List RE :=
  [ reCat [reChar '.', reChar '.', reChar '/'],
    reCat [reChar '.', reChar '.', reChar bslC],
    reLitI "%2e%2e%2f",
    reLitI "%2e%2e/",
    reCat [reChar '.', reChar '.', reLitI "%2f"] ]

/-! ## Threat detectors (`ThreatDetector.detect_*`) -/

structure Detection where
  detected : Bool
  threat_type : String
  confidence : ℚ
  -- the `matches` field of the Python dict (`matches` is reserved in Lean)
  matchList : List Chars
deriving DecidableEq

/-- Shared body of the four detectors: collect `findall` results over the
pattern list, with confidence `min(factor · number_of_matches, 1.0)` and the
first five matches reported. -/
def runDetect (patterns : List RE) (ttype : String) (factor : ℚ)
    (text : Chars) : Detection :=
  let ms := patterns.flatMap fun p => findAll p text
  { detected := decide (0 < ms.length)
    threat_type := ttype
    confidence := qmin (qmulNat ms.length factor) 1
    matchList := ms.take 5 }

def detect_sql_injection (text : Chars) : Detection :=
  runDetect SQL_PATTERNS "sql_injection" (mkRat 3 10) text

def detect_xss (text : Chars) : Detection :=
  runDetect XSS_PATTERNS "xss" (mkRat 3 10) text

def detect_command_injection (text : Chars) : Detection :=
  runDetect COMMAND_INJECTION_PATTERNS "command_injection" (mkRat 3 10) text

def detect_path_traversal (text : Chars) : Detection :=
  runDetect PATH_TRAVERSAL_PATTERNS "path_traversal" (mkRat 4 10) text

/-! ## Input sanitizer (`sanitizers.InputSanitizer.sanitize_input`) -/

/-- `unicodedata.normalize('NFKC', ·)`: the identity on the ASCII fragment
this embedding covers (NFKC only rewrites compatibility characters, none of
which are ASCII). -/
def nfkcNormalize (t : Chars) : Chars := t

/-- `\.\.[/\\]` (the sanitizer's path-traversal flag pattern). -/
def SAN_PATH_PATTERN : RE :=
  reCat [reChar '.', reChar '.', .sym fun c => c = '/' || c = bslC]

/-- `html.escape` with `quote=True`: the five sequential replacements are
equivalent to this character-wise expansion because the replacement texts
are never rescanned by the later replacements. -/
def htmlEscapeChar (c : Char) : Chars :=
  if c = '&' then strChars "&amp;"
  else if c = '<' then strChars "&lt;"
  else if c = '>' then strChars "&gt;"
  else if c = dqC then strChars "&quot;"
  else if c = apoC then strChars "&#x27;"
  else [c]

def htmlEscape (t : Chars) : Chars := t.flatMap htmlEscapeChar

/-- Tokens of Python `str.split()` (maximal runs of non-whitespace). -/
def wsTokensF : Nat → Chars → List Chars
  | 0, _ => []
  | fuel + 1, s =>
    match s.dropWhile isPySpace with
    | [] => []
    | c :: cs =>
      ((c :: cs).takeWhile fun d => !isPySpace d) ::
        wsTokensF fuel ((c :: cs).dropWhile fun d => !isPySpace d)

def joinSpace : List Chars → Chars
  | [] => []
  | [w] => w
  | w :: ws => w ++ ' ' :: joinSpace ws

/-- `' '.join(text.split())`. -/
def wsCollapse (t : Chars) : Chars := joinSpace (wsTokensF (t.length + 1) t)

def truncWarning (n : Nat) : String :=
  String.mk (strChars "Input truncated from " ++ natToChars n ++
    strChars " to 10000 characters")

def sanitize_input (text : Chars) : Chars × List String :=
  let t1 := nfkcNormalize text
  let nullWarn : List String :=
    if t1.contains '\x00' then ["Null bytes detected and removed"] else []
  let t2 := if t1.contains '\x00' then t1.filter (fun c => c ≠ '\x00') else t1
  let pathWarn : List String :=
    if reSearch SAN_PATH_PATTERN t2 then ["Path traversal pattern detected"] else []
  let t3 := wsCollapse (htmlEscape t2)
  let truncWarn : List String :=
    if 10000 < t3.length then [truncWarning t3.length] else []
  let t4 := if 10000 < t3.length then t3.take 10000 else t3
  (t4, nullWarn ++ pathWarn ++ truncWarn)

/-! ## PII pseudonymization

`PIIRedactor.pseudonymize_pii` is called by `security_check` but its body is
not part of the sources; it is modelled from the spec below.  The working
text is represented during substitution as a list of segments — plain text
runs and inserted opaque tokens — whose flattening is the working string;
substituting a literal inside the plain runs is exactly the string-level
substitution because no detected literal contains a bracket, so no
occurrence can touch an inserted token. -/

inductive Seg where
  | s (cs : Chars) : Seg
  | tk (t : Chars) : Seg
deriving DecidableEq

def flattenSegs (segs : List Seg) : Chars :=
  segs.flatMap fun sg =>
    match sg with
    | .s cs => cs
    | .tk t => t

def consCh (c : Char) : List Seg → List Seg
  | .s cs :: rest => .s (c :: cs) :: rest
  | segs => .s [c] :: segs

/-- Replace each left-to-right non-overlapping occurrence of the literal `l`
in a plain text run by the token `t` (the scan of `replaceAll`). -/
def splitTokF : Nat → Chars → Chars → Chars → List Seg
  | 0, s, _, _ => if s = [] then [] else [.s s]
  | fuel + 1, s, l, t =>
    match s with
    | [] => []
    | c :: cs =>
      if pfx l (c :: cs) && l ≠ [] then
        .tk t :: splitTokF fuel ((c :: cs).drop l.length) l t
      else
        consCh c (splitTokF fuel cs l t)

def splitTok (s l t : Chars) : List Seg := splitTokF s.length s l t

def substSegs (segs : List Seg) (l t : Chars) : List Seg :=
  segs.flatMap fun sg =>
    match sg with
    | .s cs => splitTok cs l t
    | .tk u => [.tk u]

def segFind (pat : RE) (segs : List Seg) : List Chars :=
  segs.flatMap fun sg =>
    match sg with
    | .s cs => findAll pat cs
    | .tk _ => []

def dedupGo {α : Type} [DecidableEq α] (seen : List α) : List α → List α
  | [] => []
  | x :: xs =>
    if seen.contains x then dedupGo seen xs else x :: dedupGo (x :: seen) xs

/-- Distinct elements, first occurrences first. -/
def dedupFirst {α : Type} [DecidableEq α] (xs : List α) : List α := dedupGo [] xs

/-- The opaque token `[<TYPE>_<n>]`. -/
def tokenChars (tname : Chars) (n : Nat) : Chars :=
  '[' :: (tname ++ '_' :: natToChars n) ++ [']']

/-- Substitute each distinct literal of one PII type, numbering tokens from
`n`, and return the updated segments plus the `pii_map` entries in
allocation order. -/
def substLits (tname : Chars) : Nat → List Chars → List Seg →
    List Seg × List (Chars × Chars)
  | _, [], segs => (segs, [])
  | n, l :: ls, segs =>
    let t := tokenChars tname n
    let rest := substLits tname (n + 1) ls (substSegs segs l t)
    (rest.1, (t, l) :: rest.2)

structure PiiDetection where
  ptype : String
  count : Option Nat
  keyword : Option String
deriving DecidableEq

def PII_TYPE_SPECS : List (RE × String) :=
  [(SSN_PATTERN, "SSN"), (CC_PATTERN, "CREDIT_CARD"), (EMAIL_PATTERN, "EMAIL"),
   (PHONE_PATTERN, "PHONE"), (API_KEY_PATTERN, "API_KEY"),
   (IP_ADDRESS_PATTERN, "IP")]

def pseudoStep (st : List Seg × List PiiDetection × List (Chars × Chars))
    (tspec : RE × String) :
    List Seg × List PiiDetection × List (Chars × Chars) :=
  let found := segFind tspec.1 st.1
  let subst := substLits (strChars tspec.2) 1 (dedupFirst found) st.1
  (subst.1,
   st.2.1 ++ (if found = [] then [] else [⟨tspec.2, some found.length, none⟩]),
   st.2.2 ++ subst.2)

/-- Modelled from the spec: `PIIRedactor.pseudonymize_pii` is referenced by
`security_check` but missing from the sources.  Per spec §4.2.2 it detects
the six fixed PII patterns, allocates a stable opaque token `[<TYPE>_<n>]`
per distinct literal (`n` incrementing per type), substitutes each literal
occurrence in the working text, records `pii_map[token] → literal`, and also
emits `SENSITIVE_KEYWORD` detections for the fixed lexicon without modifying
the text.  Returns (pseudonymized text, detections, pii map). -/
def pseudonymize_pii (text : Chars) :
    Chars × List PiiDetection × List (Chars × Chars) :=
  let st := PII_TYPE_SPECS.foldl pseudoStep ([Seg.s text], [], [])
  let lower := text.map lowerChar
  let kws := SECRET_KEYWORDS.filterMap fun k =>
    if containsSub lower (strChars k) then
      some (⟨"SENSITIVE_KEYWORD", none, some k⟩ : PiiDetection)
    else none
  (flattenSegs st.1, st.2.1 ++ kws, st.2.2)

/-- De-pseudonymization (`parallel_llm.py`, lines 307–314): replace each
token of the map by its original value, in insertion order. -/
def depseudonymize (text : Chars) (mapping : List (Chars × Chars)) : Chars :=
  mapping.foldl (fun acc p => replaceAll acc p.1 p.2) text

/-! ## Numeric formatting (`f"{x:.3f}"`, `f"{x:.2f}"`) -/

def intToChars (i : ℤ) : Chars :=
  if i < 0 then '-' :: natToChars i.natAbs else natToChars i.natAbs

/-- Rounding to the nearest integer, ties to even (the IEEE rule Python's
`format` applies).  Computed on the reduced numerator/denominator so the
kernel can evaluate it. -/
def roundHalfEven (x : ℚ) : ℤ :=
  let d : ℤ := (x.den : ℤ)
  let f := Int.ediv x.num d
  let r := Int.emod x.num d
  if 2 * r < d then f
  else if d < 2 * r then f + 1
  else if Int.emod f 2 = 0 then f else f + 1

def padZeros (n : Nat) (ds : Chars) : Chars :=
  List.replicate (n - ds.length) '0' ++ ds

/-- Fixed-point rendering with `d` decimals. -/
def formatQFixed (d : Nat) (q : ℚ) : String :=
  let scaled := roundHalfEven (qmulNat (10 ^ d) q)
  let sign : Chars := if scaled < 0 then ['-'] else []
  let m := scaled.natAbs
  String.mk (sign ++ natToChars (m / 10 ^ d) ++ '.' ::
    padZeros d (natToChars (m % 10 ^ d)))

/-! ## Sentinel `security_check` (`security.py`)

The service settings consulted by the node become a record, and the only
fallible stage — the LLM security analysis of step 4, whose failure the
`except` clause converts into the fail-safe verdict — becomes an `Except`
parameter. -/

structure SentinelSettings where
  sanitization_enabled : Bool
  pii_redaction_enabled : Bool
  sql_injection_detection_enabled : Bool
  xss_protection_enabled : Bool
  command_injection_detection_enabled : Bool
  llm_check_threshold : ℚ
deriving DecidableEq

structure LlmSecVerdict where
  security_score : ℚ
  is_blocked : Bool
  reason : Option String
deriving DecidableEq

structure SecurityResult where
  security_score : ℚ
  is_blocked : Bool
  block_reason : Option String
  sanitized_input : Option Chars
  sanitization_warnings : List String
  pii_detections : List PiiDetection
  redacted_input : Option Chars
  pii_mapping : Option (List (Chars × Chars))
  detected_threats : List Detection
deriving DecidableEq

/-- Python `max(...)` over the confidences of a nonempty threat list. -/
def maxConfD : List Detection → ℚ
  | [] => 0
  | t :: ts => ts.foldl (fun a d => qmax a d.confidence) t.confidence

def joinCommaSp : List String → String
  | [] => ""
  | [x] => x
  | x :: xs => x ++ ", " ++ joinCommaSp xs

/-- Step 3 of `security_check`: the three settings-gated detectors followed
by path traversal, which the code runs unconditionally ("always enabled"). -/
def threatStage (settings : SentinelSettings) (t : Chars) : List Detection :=
  (if settings.sql_injection_detection_enabled then
    (let d := detect_sql_injection t; if d.detected then [d] else []) else []) ++
  (if settings.xss_protection_enabled then
    (let d := detect_xss t; if d.detected then [d] else []) else []) ++
  (if settings.command_injection_detection_enabled then
    (let d := detect_command_injection t; if d.detected then [d] else []) else []) ++
  (let d := detect_path_traversal t; if d.detected then [d] else [])

/-- The working text entering step 3: the prompt after the enabled
sanitization and pseudonymization stages. -/
def workingText (settings : SentinelSettings) (prompt : Chars) : Chars :=
  let t1 := if settings.sanitization_enabled then (sanitize_input prompt).1 else prompt
  if settings.pii_redaction_enabled then (pseudonymize_pii t1).1 else t1

def security_check (settings : SentinelSettings) (promptIn : Option Chars)
    (llm : Except Unit LlmSecVerdict) : SecurityResult :=
  let prompt := promptIn.getD []
  if prompt = [] then
    { security_score := 0, is_blocked := false, block_reason := none,
      sanitized_input := some [], sanitization_warnings := [],
      pii_detections := [], redacted_input := some [], pii_mapping := none,
      detected_threats := [] }
  else
    let sanPair := sanitize_input prompt
    let t1 := if settings.sanitization_enabled then sanPair.1 else prompt
    let warns := if settings.sanitization_enabled then sanPair.2 else []
    let san : Option Chars :=
      if settings.sanitization_enabled then some sanPair.1 else none
    let piiTriple := pseudonymize_pii t1
    let t2 := if settings.pii_redaction_enabled then piiTriple.1 else t1
    let piiDets := if settings.pii_redaction_enabled then piiTriple.2.1 else []
    let red : Option Chars :=
      if settings.pii_redaction_enabled then some piiTriple.1 else none
    let mapping : Option (List (Chars × Chars)) :=
      if settings.pii_redaction_enabled then some piiTriple.2.2 else none
    let threats := threatStage settings t2
    let base : SecurityResult :=
      { security_score := 0, is_blocked := false, block_reason := none,
        sanitized_input := san, sanitization_warnings := warns,
        pii_detections := piiDets, redacted_input := red,
        pii_mapping := mapping, detected_threats := threats }
    if threats ≠ [] ∧ ¬ Rat.blt (maxConfD threats) (mkRat 7 10) then  -- max_confidence >= 0.7
      { base with
        security_score := maxConfD threats
        is_blocked := true
        block_reason := some ("Security threats detected: " ++
          joinCommaSp (threats.map (·.threat_type))) }
    else
      match llm with
      | .error _ =>
        { base with
          security_score := 1
          is_blocked := true
          block_reason := some "Security verification failed" }
      | .ok v =>
        let score :=
          if threats ≠ [] then qmax v.security_score (maxConfD threats)
          else v.security_score
        let finalBlocked := v.is_blocked || settings.llm_check_threshold < score
        { base with
          security_score := score
          is_blocked := finalBlocked
          block_reason :=
            if v.is_blocked then v.reason
            else if finalBlocked then
              some ("Combined security score too high: " ++ formatQFixed 2 score)
            else none }

/-! ## Guardian output PII scan (`pii_scanner.OutputPIIScanner`) -/

structure PiiLeak where
  ltype : String
  count : Option Nat
  severity : String
deriving DecidableEq

/-- `OutputPIIScanner.scan`. -/
def outputScan (text : Chars) : List PiiLeak :=
  if text = [] then []
  else
    (if reSearch SSN_PATTERN text then [⟨"SSN", none, "high"⟩] else []) ++
    (if reSearch CC_PATTERN text then [⟨"CREDIT_CARD", none, "high"⟩] else []) ++
    (let es := findAll EMAIL_PATTERN text
     if es ≠ [] then [⟨"EMAIL", some es.length, "medium"⟩] else []) ++
    (let ps := findAll PHONE_PATTERN text
     if ps ≠ [] then [⟨"PHONE", some ps.length, "medium"⟩] else []) ++
    (if reSearch API_KEY_PATTERN text then [⟨"API_KEY", none, "high"⟩] else []) ++
    (let ips := findAll IP_ADDRESS_PATTERN text
     if ips ≠ [] then [⟨"IP_ADDRESS", some ips.length, "low"⟩] else [])

/-- Scan mirroring `findAllFrom`, substituting the marker for each match
instead of collecting matches. -/
def reSubAllF : Nat → RE → Chars → Option Char → Chars → Chars
  | 0, _, _, _, s => s
  | fuel + 1, r, m, prev, s =>
    match matchHere r prev s with
    | some k =>
      if k = 0 then
        match s with
        | [] => m
        | c :: cs => m ++ c :: reSubAllF fuel r m (some c) cs
      else
        m ++ reSubAllF fuel r m (s.take k).getLast? (s.drop k)
    | none =>
      match s with
      | [] => []
      | c :: cs => c :: reSubAllF fuel r m (some c) cs

/-- One `PATTERN.sub(marker, text)` step: replace every regex match by the
marker. -/
def reSubAll (pat : RE) (marker : Chars) (text : Chars) : Chars :=
  reSubAllF (text.length + 1) pat marker none text

/-- `OutputPIIScanner.redact`. -/
def outputRedact (text : Chars) : Chars :=
  if text = [] then text
  else
    reSubAll API_KEY_PATTERN (strChars "[API_KEY_REDACTED]")
      (reSubAll PHONE_PATTERN (strChars "[PHONE_REDACTED]")
        (reSubAll EMAIL_PATTERN (strChars "[EMAIL_REDACTED]")
          (reSubAll CC_PATTERN (strChars "[CC_REDACTED]")
            (reSubAll SSN_PATTERN (strChars "[SSN_REDACTED]") text))))

structure PiiScanOutcome where
  llm_response : Chars
  output_pii_leaks : List PiiLeak
  output_redacted : Bool
deriving DecidableEq

/-- `pii_scanner_node`: scan the completion, and redact only when a
high-severity leak was found. -/
def pii_scanner_node (llm_response : Chars) : PiiScanOutcome :=
  if llm_response = [] then
    { llm_response := llm_response, output_pii_leaks := [], output_redacted := false }
  else
    let leaks := outputScan llm_response
    let high := leaks.any fun l => l.severity = "high"
    if high then
      { llm_response := outputRedact llm_response
        output_pii_leaks := leaks
        output_redacted := true }
    else
      { llm_response := llm_response
        output_pii_leaks := leaks
        output_redacted := false }

/-! ## Guardian validation graph (`guardian/app/agents/graph.py`)

`create_guardian_graph` builds a `StateGraph`; the embedding records the
nodes added by `add_node`, the unconditional `add_edge` pairs, and the
source of the single conditional edge.  `START`/`END` are the sentinel
names. -/

structure GuardianGraph where
  nodes : List String
  edges : List (String × String)
  conditionalFrom : List String
deriving DecidableEq

def create_guardian_graph : GuardianGraph :=
  { nodes := ["content_filter", "pii_scanner", "toon_decoder",
      "hallucination_detector", "citation_verifier", "tone_checker",
      "refusal_detector", "disclaimer_injector"]
    edges := [("START", "content_filter"),
      ("pii_scanner", "toon_decoder"),
      ("toon_decoder", "hallucination_detector"),
      ("hallucination_detector", "citation_verifier"),
      ("citation_verifier", "tone_checker"),
      ("tone_checker", "refusal_detector"),
      ("refusal_detector", "disclaimer_injector"),
      ("disclaimer_injector", "END")]
    conditionalFrom := ["content_filter"] }

/-! ## Gateway `/chat` endpoint (`gateway/app/api/v1/endpoints/chat.py`)

The Sentinel call becomes an `Except` parameter (`transport` for
`httpx.HTTPError`, `other` for any other exception), and the api-key row
mutations become a state-passing function on the usage fields the endpoint
touches. -/

inductive GatewayErr where
  | transport : GatewayErr
  | other : GatewayErr
deriving DecidableEq

structure SentinelReply where
  is_blocked : Bool
  block_reason : Option String
  security_score : ℚ
  llm_response : Option String
  llm_tokens : Option (Nat × Nat × Nat)
  model_used : Option String
deriving DecidableEq

structure ApiKeyRow where
  request_count : Nat
  usage_data : List (String × Nat × Nat)
  last_used_at : Option Nat
deriving DecidableEq

structure HttpReply where
  status : Nat
  errorBody : Option (String × String)
  okResponse : Option (Option String)
  headers : List (String × String)
deriving DecidableEq

def bumpUsage (usage : List (String × Nat × Nat)) (model : String)
    (inTok outTok : Nat) : List (String × Nat × Nat) :=
  if usage.any fun e => e.1 = model then
    usage.map fun e =>
      if e.1 = model then (e.1, e.2.1 + inTok, e.2.2 + outTok) else e
  else
    usage ++ [(model, inTok, outTok)]

/-- The `/chat` handler from authentication success onward: translate the
Sentinel outcome into status, body, explainability headers and the api-key
row update.  `now` stands for the `func.now()` timestamp. -/
def chat_request (bodyModel : String) (key : ApiKeyRow) (now : Nat)
    (sentinel : Except GatewayErr SentinelReply) : HttpReply × ApiKeyRow :=
  match sentinel with
  | .error .transport =>
    (⟨503, some ("detail", "Sentinel service unavailable"), none, []⟩, key)
  | .error .other =>
    (⟨500, some ("detail", "Internal server error"), none, []⟩, key)
  | .ok r =>
    let reasonStr := (r.block_reason).getD ""
    let headers :=
      [("X-Security-Score", (formatQFixed 3 r.security_score)),
       ("X-Security-Decision",
         if r.is_blocked then "blocked: " ++ reasonStr else "passed")]
    if r.is_blocked then
      (⟨400, some ("Request blocked", reasonStr), none, headers⟩, key)
    else
      let modelUsed := (r.model_used).getD bodyModel
      let inTok := (r.llm_tokens.map fun t => t.1).getD 0
      let outTok := (r.llm_tokens.map fun t => t.2.1).getD 0
      let key2 : ApiKeyRow :=
        { request_count := key.request_count + 1
          usage_data := bumpUsage key.usage_data modelUsed inTok outTok
          last_used_at := some now }
      (⟨200, none, some r.llm_response, headers⟩, key2)

/-! ## JSON values and the TOON compact encoding
(`toon_converter.ToonConverter`, `toon_decoder.ToonDecoder`)

Python values handled by the converter are modelled by `Json` (numbers cover
the integer fragment; floats are outside the embedding).  Object fields keep
their order; Python dicts never hold a key twice, which the safety predicate
used by the round-trip theorem reflects. -/

inductive Json where
  | null : Json
  | bool (b : Bool) : Json
  | num (n : ℤ) : Json
  | str (s : Chars) : Json
  | arr (items : List Json) : Json
  | obj (fields : List (Chars × Json)) : Json

mutual

def jsonBeq : Json → Json → Bool
  | .null, .null => true
  | .bool a, .bool b => a = b
  | .num a, .num b => a = b
  | .str a, .str b => a = b
  | .arr a, .arr b => jsonBeqList a b
  | .obj a, .obj b => jsonBeqFields a b
  | _, _ => false

def jsonBeqList : List Json → List Json → Bool
  | [], [] => true
  | a :: as, b :: bs => jsonBeq a b && jsonBeqList as bs
  | _, _ => false

def jsonBeqFields : List (Chars × Json) → List (Chars × Json) → Bool
  | [], [] => true
  | a :: as, b :: bs => a.1 = b.1 && jsonBeq a.2 b.2 && jsonBeqFields as bs
  | _, _ => false

end

mutual

theorem jsonBeq_iff : ∀ a b : Json, jsonBeq a b = true ↔ a = b
  | .null, .null => by simp [jsonBeq]
  | .bool _, .bool _ => by simp [jsonBeq]
  | .num _, .num _ => by simp [jsonBeq]
  | .str _, .str _ => by simp [jsonBeq]
  | .arr a, .arr b => by simp [jsonBeq, jsonBeqList_iff a b]
  | .obj a, .obj b => by simp [jsonBeq, jsonBeqFields_iff a b]
  | .null, .bool _ | .null, .num _ | .null, .str _ | .null, .arr _ | .null, .obj _
  | .bool _, .null | .bool _, .num _ | .bool _, .str _ | .bool _, .arr _
  | .bool _, .obj _
  | .num _, .null | .num _, .bool _ | .num _, .str _ | .num _, .arr _
  | .num _, .obj _
  | .str _, .null | .str _, .bool _ | .str _, .num _ | .str _, .arr _
  | .str _, .obj _
  | .arr _, .null | .arr _, .bool _ | .arr _, .num _ | .arr _, .str _
  | .arr _, .obj _
  | .obj _, .null | .obj _, .bool _ | .obj _, .num _ | .obj _, .str _
  | .obj _, .arr _ => by simp [jsonBeq]

theorem jsonBeqList_iff : ∀ a b : List Json, jsonBeqList a b = true ↔ a = b
  | [], [] => by simp [jsonBeqList]
  | a :: as, b :: bs => by
    simp [jsonBeqList, jsonBeq_iff a b, jsonBeqList_iff as bs]
  | [], _ :: _ => by simp [jsonBeqList]
  | _ :: _, [] => by simp [jsonBeqList]

theorem jsonBeqFields_iff :
    ∀ a b : List (Chars × Json), jsonBeqFields a b = true ↔ a = b
  | [], [] => by simp [jsonBeqFields]
  | a :: as, b :: bs => by
    rw [jsonBeqFields]
    simp only [Bool.and_eq_true, decide_eq_true_eq, jsonBeq_iff a.2 b.2,
      jsonBeqFields_iff as bs, List.cons.injEq]
    constructor
    · rintro ⟨⟨h1, h2⟩, h3⟩
      exact ⟨Prod.ext h1 h2, h3⟩
    · rintro ⟨h1, h3⟩
      exact ⟨⟨congrArg Prod.fst h1, congrArg Prod.snd h1⟩, h3⟩
  | [], _ :: _ => by simp [jsonBeqFields]
  | _ :: _, [] => by simp [jsonBeqFields]

end

instance : DecidableEq Json := fun a b =>
  decidable_of_iff (jsonBeq a b = true) (jsonBeq_iff a b)

def KEY_ABBREVIATIONS : List (Chars × Chars) :=
  [(strChars "prompt", strChars "p"), (strChars "message", strChars "m"),
   (strChars "content", strChars "c"), (strChars "role", strChars "r"),
   (strChars "system", strChars "s"), (strChars "user", strChars "u"),
   (strChars "assistant", strChars "a"), (strChars "temperature", strChars "t"),
   (strChars "max_tokens", strChars "mt"), (strChars "messages", strChars "ms"),
   (strChars "context", strChars "ctx"), (strChars "history", strChars "h"),
   (strChars "response", strChars "res"), (strChars "request", strChars "req")]

/-- `KEY_EXPANSIONS = {v: k for k, v in KEY_ABBREVIATIONS.items()}` (and the
identical literal table in `ToonDecoder`). -/
def KEY_EXPANSIONS : List (Chars × Chars) :=
  KEY_ABBREVIATIONS.map fun kv => (kv.2, kv.1)

def lookupAssoc (table : List (Chars × Chars)) (k : Chars) : Option Chars :=
  match table with
  | [] => none
  | kv :: rest => if kv.1 = k then some kv.2 else lookupAssoc rest k

def abbrevKey (k : Chars) : Chars := (lookupAssoc KEY_ABBREVIATIONS k).getD k

def expandKey (k : Chars) : Chars := (lookupAssoc KEY_EXPANSIONS k).getD k

/-- `v.replace("\\", "\\\\").replace('"', '\\"')` (character-wise form; the
two passes never rescan inserted text). -/
def toonEscape (s : Chars) : Chars :=
  s.flatMap fun c =>
    if c = bslC then [bslC, bslC]
    else if c = dqC then [bslC, dqC]
    else [c]

def joinComma : List Chars → Chars
  | [] => []
  | [x] => x
  | x :: xs => x ++ ',' :: joinComma xs

mutual

/-- `ToonConverter.to_toon`'s `compact_value` (with `use_abbreviations`). -/
def compactValue : Json → Chars
  | .null => ['~']
  | .bool true => ['T']
  | .bool false => ['F']
  | .num n => intToChars n
  | .str s => dqC :: toonEscape s ++ [dqC]
  | .arr xs => '[' :: joinComma (compactList xs) ++ [']']
  | .obj fs => lbrC :: joinComma (compactFields fs) ++ [rbrC]

def compactList : List Json → List Chars
  | [] => []
  | x :: xs => compactValue x :: compactList xs

def compactFields : List (Chars × Json) → List Chars
  | [] => []
  | kv :: fs => (abbrevKey kv.1 ++ ':' :: compactValue kv.2) :: compactFields fs

end

mutual

/-- `json.dumps(data, separators=(',', ':'))` on the modelled fragment. -/
def dumpsValue : Json → Chars
  | .null => strChars "null"
  | .bool true => strChars "true"
  | .bool false => strChars "false"
  | .num n => intToChars n
  | .str s => dqC :: toonEscape s ++ [dqC]
  | .arr xs => '[' :: joinComma (dumpsList xs) ++ [']']
  | .obj fs => lbrC :: joinComma (dumpsFields fs) ++ [rbrC]

def dumpsList : List Json → List Chars
  | [] => []
  | x :: xs => dumpsValue x :: dumpsList xs

def dumpsFields : List (Chars × Json) → List Chars
  | [] => []
  | kv :: fs =>
    (dqC :: toonEscape kv.1 ++ dqC :: ':' :: dumpsValue kv.2) :: dumpsFields fs

end

mutual

/-- `_expand_keys` (identical in `ToonConverter` and `ToonDecoder`). -/
def expandKeysJson : Json → Json
  | .null => .null
  | .bool b => .bool b
  | .num n => .num n
  | .str s => .str s
  | .arr xs => .arr (expandKeysList xs)
  | .obj fs => .obj (expandKeysFields fs)

def expandKeysList : List Json → List Json
  | [] => []
  | x :: xs => expandKeysJson x :: expandKeysList xs

def expandKeysFields : List (Chars × Json) → List (Chars × Json)
  | [] => []
  | kv :: fs => (expandKey kv.1, expandKeysJson kv.2) :: expandKeysFields fs

end

/-! ### The decoder's textual pre-passes

`from_toon` and `ToonDecoder.decode` run three `re.sub` passes before
`json.loads`.  Each is a one-character-lookaround transducer, written here
with the previous original character threaded through (`re.sub` examines the
original text for lookarounds and never rescans replacements). -/

/-- `re.sub(r'(?<![\\])~', 'null', ·)`. -/
def fixNull (prev : Option Char) : Chars → Chars
  | [] => []
  | c :: rest =>
    if c = '~' && prev ≠ some bslC then
      strChars "null" ++ fixNull (some '~') rest
    else
      c :: fixNull (some c) rest

/-- `re.sub(r'(?<![a-zA-Z])T(?![a-zA-Z])', 'true', ·)` followed by the same
for `F`/`false`, fused into one pass: a `T` replacement can never change the
neighbourhood of a later lone `F` (it only fires when its successor is not a
letter, and its replacement ends in a letter exactly where a letter stood). -/
def fixTF (prev : Option Char) : Chars → Chars
  | [] => []
  | c :: rest =>
    let loneOk : Bool :=
      !(match prev with | some p => isAsciiLetter p | none => false) &&
      !(match rest with | r :: _ => isAsciiLetter r | [] => false)
    if c = 'T' && loneOk then strChars "true" ++ fixTF (some 'T') rest
    else if c = 'F' && loneOk then strChars "false" ++ fixTF (some 'F') rest
    else c :: fixTF (some c) rest

/-- `re.sub(r'([{,])(\w+):', r'\1"\2":', ·)`: quote a word run that sits
between `{`/`,` and `:`.  Only the maximal `\w+` run can be followed by the
required `:`, so the greedy scan needs no backtracking. -/
def requoteF : Nat → Chars → Chars
  | 0, s => s
  | fuel + 1, s =>
    match s with
    | [] => []
    | c :: rest =>
      if c = lbrC || c = ',' then
        let w := rest.takeWhile isWordChar
        if w ≠ [] && (rest.drop w.length).head? = some ':' then
          c :: dqC :: (w ++ dqC :: ':' :: requoteF fuel (rest.drop (w.length + 1)))
        else
          c :: requoteF fuel rest
      else
        c :: requoteF fuel rest

def requote (s : Chars) : Chars := requoteF s.length s

/-! ### `json.loads` on the canonical fragment

A recursive-descent parser for the JSON text the decoder feeds it: the
integer-number fragment, strings with the standard escapes, arrays and
objects without duplicate keys (a Python dict would keep the last
occurrence; the encoder never produces duplicates under the round-trip
safety predicate). -/

def skipWs (s : Chars) : Chars := s.dropWhile isPySpace

def unescapeChar (c : Char) : Option Char :=
  if c = dqC then some dqC
  else if c = bslC then some bslC
  else if c = '/' then some '/'
  else if c = 'n' then some '\n'
  else if c = 't' then some '\t'
  else if c = 'r' then some '\r'
  else if c = 'b' then some '\x08'
  else if c = 'f' then some '\x0c'
  else none

def parseStrBody : Nat → Chars → Option (Chars × Chars)
  | 0, _ => none
  | fuel + 1, s =>
    match s with
    | [] => none
    | c :: rest =>
      if c = dqC then some ([], rest)
      else if c = bslC then
        match rest with
        | [] => none
        | e :: rest2 =>
          match unescapeChar e with
          | none => none
          | some u =>
            match parseStrBody fuel rest2 with
            | none => none
            | some pr => some (u :: pr.1, pr.2)
      else
        match parseStrBody fuel rest with
        | none => none
        | some pr => some (c :: pr.1, pr.2)

def parseNatBody (ds : Chars) : Option (Nat × Chars) :=
  let run := ds.takeWhile isDigitChar
  if run = [] then none else some (charsToNat run, ds.drop run.length)

mutual

def parseVal : Nat → Chars → Option (Json × Chars)
  | 0, _ => none
  | fuel + 1, s0 =>
    let s := skipWs s0
    match s with
    | [] => none
    | c :: rest =>
      if c = dqC then
        match parseStrBody (rest.length + 1) rest with
        | none => none
        | some pr => some (.str pr.1, pr.2)
      else if c = '[' then
        match skipWs rest with
        | ']' :: rest2 => some (.arr [], rest2)
        | _ => match parseItems fuel rest with
          | none => none
          | some pr => some (.arr pr.1, pr.2)
      else if c = lbrC then
        match skipWs rest with
        | r :: rest2 =>
          if r = rbrC then some (.obj [], rest2)
          else match parseMembers fuel (r :: rest2) with
            | none => none
            | some pr => some (.obj pr.1, pr.2)
        | [] => none
      else if c = '-' then
        match parseNatBody rest with
        | none => none
        | some pr => some (.num (-(pr.1 : ℤ)), pr.2)
      else if isDigitChar c then
        match parseNatBody (c :: rest) with
        | none => none
        | some pr => some (.num (pr.1 : ℤ), pr.2)
      else if pfx (strChars "null") s then some (.null, s.drop 4)
      else if pfx (strChars "true") s then some (.bool true, s.drop 4)
      else if pfx (strChars "false") s then some (.bool false, s.drop 5)
      else none

def parseItems : Nat → Chars → Option (List Json × Chars)
  | 0, _ => none
  | fuel + 1, s =>
    match parseVal fuel s with
    | none => none
    | some (v, rest) =>
      match skipWs rest with
      | ',' :: rest2 =>
        (match parseItems fuel rest2 with
         | none => none
         | some pr => some (v :: pr.1, pr.2))
      | ']' :: rest2 => some ([v], rest2)
      | _ => none

def parseMembers : Nat → Chars → Option (List (Chars × Json) × Chars)
  | 0, _ => none
  | fuel + 1, s =>
    match skipWs s with
    | c :: rest =>
      if c = dqC then
        match parseStrBody (rest.length + 1) rest with
        | none => none
        | some (k, rest2) =>
          match skipWs rest2 with
          | ':' :: rest3 =>
            (match parseVal fuel rest3 with
             | none => none
             | some (v, rest4) =>
               match skipWs rest4 with
               | ',' :: rest5 =>
                 (match parseMembers fuel rest5 with
                  | none => none
                  | some pr => some ((k, v) :: pr.1, pr.2))
               | r :: rest5 =>
                 if r = rbrC then some ([(k, v)], rest5) else none
               | [] => none)
          | _ => none
      else none
    | [] => none

end

/-- `json.loads`: the whole input must be one value (plus whitespace). -/
def pyJsonParse (s : Chars) : Option Json :=
  match parseVal (s.length + 1) s with
  | none => none
  | some (v, rest) => if skipWs rest = [] then some v else none

/-! ### The converter entry points -/

/-- Python values reaching `to_toon`: a string, or a JSON-like structure. -/
inductive ToonInput where
  | strIn (s : Chars) : ToonInput
  | jsIn (v : Json) : ToonInput
deriving DecidableEq

/-- Result of `from_toon` / payloads flowing back: parsed data or the raw
string on decode failure. -/
inductive PyVal where
  | js (v : Json) : PyVal
  | raw (s : Chars) : PyVal
deriving DecidableEq

def trimChars (s : Chars) : Chars :=
  ((s.dropWhile isPySpace).reverse.dropWhile isPySpace).reverse

/-- `ToonConverter.to_toon`: a string input is first tried as JSON (returned
trimmed when it is not), then the value is compacted. -/
def to_toon : ToonInput → Chars
  | .strIn s =>
    match pyJsonParse s with
    | some v => compactValue v
    | none => trimChars s
  | .jsIn v => compactValue v

/-- `ToonConverter.from_toon` (`expand_abbreviations=True`): the three
textual passes, `json.loads`, and key expansion — applied only when the
parsed top level is a dict.  Parse failure returns the raw input. -/
def from_toon (t : Chars) : PyVal :=
  match pyJsonParse (requote (fixTF none (fixNull none t))) with
  | some v =>
    .js (match v with
      | .obj fs => expandKeysJson (.obj fs)
      | other => other)
  | none => .raw t

/-- `ToonDecoder.decode`: same passes, but key expansion is unconditional
and the result carries the success flag. -/
def toonDecode (t : Chars) : PyVal × Bool :=
  if t = [] then (.raw t, false)
  else
    match pyJsonParse (requote (fixTF none (fixNull none t))) with
    | some v => (.js (expandKeysJson v), true)
    | none => (.raw t, false)

/-- Kernel-computable `max` on `ℤ`. -/
def imax (a b : ℤ) : ℤ := if a < b then b else a

theorem imax_eq_max (a b : ℤ) : imax a b = max a b := by
  unfold imax
  rcases lt_or_le a b with h | h
  · rw [if_pos h, max_eq_right h.le]
  · rw [if_neg (not_lt.mpr h), max_eq_left h]

structure ToonMetrics where
  original_chars : Nat
  toon_chars : Nat
  chars_saved : ℤ
  original_tokens_est : Nat
  toon_tokens_est : Nat
  tokens_saved : ℤ
deriving DecidableEq

/-- `ToonConverter.convert_with_metrics` (CHARS_PER_TOKEN = 4). -/
def convert_with_metrics (data : ToonInput) : Chars × ℤ × ToonMetrics :=
  let original_str := match data with | .strIn s => s | .jsIn v => dumpsValue v
  let original_chars := original_str.length
  let original_tokens : Nat := original_chars / 4
  let toon_str := to_toon data
  let toon_chars := toon_str.length
  let toon_tokens : Nat := toon_chars / 4
  let tokens_saved := imax 0 ((original_tokens : ℤ) - (toon_tokens : ℤ))
  (toon_str, tokens_saved,
   { original_chars := original_chars
     toon_chars := toon_chars
     chars_saved := (original_chars : ℤ) - (toon_chars : ℤ)
     original_tokens_est := original_tokens
     toon_tokens_est := toon_tokens
     tokens_saved := tokens_saved })

/-! ## Bridging lemmas for rational literals -/

theorem mkRat_seven_tenths : mkRat 7 10 = (7 : ℚ) / 10 := by
  rw [Rat.mkRat_eq_div]
  norm_num

theorem mkRat_three_tenths : mkRat 3 10 = (3 : ℚ) / 10 := by
  rw [Rat.mkRat_eq_div]
  norm_num

theorem mkRat_four_tenths : mkRat 4 10 = (4 : ℚ) / 10 := by
  rw [Rat.mkRat_eq_div]
  norm_num

/-! ## Claim theorems -/

def emptySecurityResult : SecurityResult :=
  { security_score := 0, is_blocked := false, block_reason := none,
    sanitized_input := some [], sanitization_warnings := [],
    pii_detections := [], redacted_input := some [], pii_mapping := none,
    detected_threats := [] }

/-- C10: for a request whose prompt is missing or empty, `security_check`
returns immediately with `is_blocked = false`, `security_score = 0`, no
block reason, empty sanitization warnings, empty PII detections and an empty
threat list; the result does not depend on the settings or on the LLM stage,
so no downstream stage runs. -/
theorem c10_empty_prompt_short_circuits (settings : SentinelSettings)
    (llm : Except Unit LlmSecVerdict) :
    security_check settings none llm = emptySecurityResult ∧
    security_check settings (some []) llm = emptySecurityResult := by
  constructor <;> rfl

/-- C4: if the Sentinel pipeline itself raises (here: the only fallible
stage, the LLM analysis call, errors after the threat stage declined to
block), `security_check` returns the fail-safe verdict: blocked, score 1.0,
reason "Security verification failed". -/
theorem c4_fail_safe_block (settings : SentinelSettings) (prompt : Chars)
    (hne : prompt ≠ [])
    (hnb : threatStage settings (workingText settings prompt) = [] ∨
      maxConfD (threatStage settings (workingText settings prompt)) < mkRat 7 10) :
    (security_check settings (some prompt) (.error ())).is_blocked = true ∧
    (security_check settings (some prompt) (.error ())).security_score = 1 ∧
    (security_check settings (some prompt) (.error ())).block_reason =
      some "Security verification failed" := by
  have hwt : workingText settings prompt =
      (if settings.pii_redaction_enabled then
        (pseudonymize_pii (if settings.sanitization_enabled then
          (sanitize_input prompt).1 else prompt)).1
       else (if settings.sanitization_enabled then (sanitize_input prompt).1 else prompt)) := rfl
  have hcond : ¬ (threatStage settings (workingText settings prompt) ≠ [] ∧
      ¬ Rat.blt (maxConfD (threatStage settings (workingText settings prompt)))
        (mkRat 7 10)) := by
    rcases hnb with h | h
    · intro hc
      exact hc.1 h
    · intro hc
      exact hc.2 ((rat_blt_iff _ _).mpr h)
  rw [hwt] at hcond
  unfold security_check
  simp only [Option.getD_some, if_neg hne, if_neg hcond]
  exact ⟨trivial, trivial, trivial⟩

def c4SettingsAllOn : SentinelSettings := ⟨true, true, true, true, true, mkRat 85 100⟩

theorem c4_fail_safe_block_witness :
    (strChars "hello" ≠ [] ∧
      (threatStage c4SettingsAllOn (workingText c4SettingsAllOn (strChars "hello")) = [] ∨
        maxConfD (threatStage c4SettingsAllOn (workingText c4SettingsAllOn (strChars "hello"))) <
          mkRat 7 10)) ∧
    (security_check c4SettingsAllOn (some (strChars "hello")) (.error ())).is_blocked = true ∧
    (security_check c4SettingsAllOn (some (strChars "hello")) (.error ())).security_score = 1 ∧
    (security_check c4SettingsAllOn (some (strChars "hello")) (.error ())).block_reason =
      some "Security verification failed" :=
  ⟨⟨by decide, Or.inl (by decide)⟩,
    c4_fail_safe_block c4SettingsAllOn (strChars "hello") (by decide) (Or.inl (by decide))⟩

/-- C3: a blocked Sentinel verdict makes the Gateway respond 400 with body
`{error, reason}` and headers `X-Security-Decision: blocked: <reason>` and
`X-Security-Score` at three decimals, and leaves the api-key usage counters
(`request_count`, `usage_data`, `last_used_at`) untouched. -/
theorem c3_blocked_request_translation (bodyModel : String) (key : ApiKeyRow)
    (now : Nat) (r : SentinelReply) (hb : r.is_blocked = true) :
    chat_request bodyModel key now (.ok r) =
      (⟨400, some ("Request blocked", r.block_reason.getD ""), none,
        [("X-Security-Score", formatQFixed 3 r.security_score),
         ("X-Security-Decision", "blocked: " ++ r.block_reason.getD "")]⟩, key) := by
  simp [chat_request, hb]

def c3Reply : SentinelReply :=
  { is_blocked := true, block_reason := some "Security threats detected: xss",
    security_score := mkRat 9 10, llm_response := none, llm_tokens := none,
    model_used := none }

def c3Key : ApiKeyRow :=
  { request_count := 7, usage_data := [("gemini-3-flash-preview", 10, 20)],
    last_used_at := some 5 }

theorem c3_blocked_request_translation_witness :
    c3Reply.is_blocked = true ∧
    chat_request "gemini-3-flash-preview" c3Key 99 (.ok c3Reply) =
      (⟨400, some ("Request blocked", "Security threats detected: xss"), none,
        [("X-Security-Score", "0.900"),
         ("X-Security-Decision", "blocked: Security threats detected: xss")]⟩,
       c3Key) := by
  refine ⟨by decide, ?_⟩
  have h := c3_blocked_request_translation "gemini-3-flash-preview" c3Key 99 c3Reply (by decide)
  rw [h]
  decide

/-- C6: the Guardian graph wires the hallucination, citation and tone judge
nodes in a sequential chain and never adds the parallel validator node, so
the three judge checks are not dispatched concurrently. -/
theorem c6_judges_wired_sequentially :
    ("hallucination_detector", "citation_verifier") ∈ create_guardian_graph.edges ∧
    ("citation_verifier", "tone_checker") ∈ create_guardian_graph.edges ∧
    "parallel_llm_validator" ∉ create_guardian_graph.nodes ∧
    ∀ e ∈ create_guardian_graph.edges, e.1 ≠ "parallel_llm_validator" := by
  decide

/-- Every branch of `security_check` reports the threat stage's list. -/
theorem security_check_threats (settings : SentinelSettings) (prompt : Chars)
    (llm : Except Unit LlmSecVerdict) (hne : prompt ≠ []) :
    (security_check settings (some prompt) llm).detected_threats =
      threatStage settings (workingText settings prompt) := by
  unfold security_check workingText
  simp only [Option.getD_some, if_neg hne]
  cases hs : settings.sanitization_enabled <;>
    cases hp : settings.pii_redaction_enabled <;>
      simp only [hs, hp, if_true, if_false, Bool.false_eq_true, ite_true, ite_false] <;>
      (split
       · rfl
       · cases llm <;> rfl)

theorem memIteSingleton {α : Type} {c : Prop} [Decidable c] {t d : α}
    (h : t ∈ if c then [d] else ([] : List α)) : t = d := by
  split at h
  · simpa using h
  · simp at h

theorem memIteIteSingleton {α : Type} {c₁ c₂ : Prop} [Decidable c₁]
    [Decidable c₂] {t d : α}
    (h : t ∈ if c₁ then (if c₂ then [d] else []) else ([] : List α)) :
    t = d := by
  split at h
  · exact memIteSingleton h
  · simp at h

def allOffSettings : SentinelSettings :=
  ⟨false, false, false, false, false, mkRat 85 100⟩

theorem c8_counterexample :
    (security_check allOffSettings (some (strChars "../../")) (.error ())).is_blocked
        = true ∧
    (security_check allOffSettings (some (strChars "../../")) (.error ())).block_reason
        = some "Security threats detected: path_traversal" ∧
    (security_check allOffSettings (some (strChars "../../"))
        (.error ())).detected_threats ≠ [] := by
  decide

/-- C8 (amended): path-traversal detection always runs — its detection is
reported (and can block) regardless of every detector flag, while
SQL-injection detection (like XSS and command injection) runs only when its
flag is enabled. -/
theorem c8_path_traversal_ungated (settings : SentinelSettings) (prompt : Chars)
    (llm : Except Unit LlmSecVerdict) (hne : prompt ≠ [])
    (hdet : (detect_path_traversal (workingText settings prompt)).detected = true) :
    detect_path_traversal (workingText settings prompt) ∈
      (security_check settings (some prompt) llm).detected_threats ∧
    (settings.sql_injection_detection_enabled = false →
      ∀ t ∈ (security_check settings (some prompt) llm).detected_threats,
        t.threat_type ≠ "sql_injection") := by
  rw [security_check_threats settings prompt llm hne]
  unfold threatStage
  constructor
  · apply List.mem_append_right
    rw [if_pos hdet]
    exact List.mem_singleton.mpr rfl
  · intro hoff t ht hty
    rw [hoff, if_neg (by simp)] at ht
    simp only [List.nil_append, List.mem_append] at ht
    have hxss : (detect_xss (workingText settings prompt)).threat_type = "xss" := rfl
    have hcmd : (detect_command_injection (workingText settings prompt)).threat_type =
      "command_injection" := rfl
    have hpath : (detect_path_traversal (workingText settings prompt)).threat_type =
      "path_traversal" := rfl
    rcases ht with (h | h) | h
    · rw [memIteIteSingleton h] at hty
      simp [hxss] at hty
    · rw [memIteIteSingleton h] at hty
      simp [hcmd] at hty
    · rw [memIteSingleton h] at hty
      simp [hpath] at hty

theorem c8_path_traversal_ungated_witness :
    (strChars "../x" ≠ [] ∧
      (detect_path_traversal (workingText allOffSettings (strChars "../x"))).detected = true) ∧
    detect_path_traversal (workingText allOffSettings (strChars "../x")) ∈
      (security_check allOffSettings (some (strChars "../x")) (.error ())).detected_threats ∧
    (allOffSettings.sql_injection_detection_enabled = false →
      ∀ t ∈ (security_check allOffSettings (some (strChars "../x"))
          (.error ())).detected_threats,
        t.threat_type ≠ "sql_injection") :=
  ⟨⟨by decide, by decide⟩,
    c8_path_traversal_ungated allOffSettings (strChars "../x") (.error ())
      (by decide) (by decide)⟩

theorem c9_counterexample :
    (convert_with_metrics (.strIn (strChars "abcdefg "))).2.2.original_chars = 8 ∧
    (convert_with_metrics (.strIn (strChars "abcdefg "))).2.2.toon_chars = 7 ∧
    (convert_with_metrics (.strIn (strChars "abcdefg "))).2.1 = 1 ∧
    max (0 : ℤ) ((8 - 7) / 4) = 0 := by
  refine ⟨by decide, by decide, by decide, ?_⟩
  norm_num

/-- C9 (amended): `tokens_saved` is the per-term floored difference
`max(0, original_chars / 4 - encoded_chars / 4)` (not the clamped quotient of
the character difference), and is therefore non-negative for every input. -/
theorem c9_tokens_saved (data : ToonInput) :
    (convert_with_metrics data).2.1 =
      max 0 ((((convert_with_metrics data).2.2.original_chars / 4 : ℕ) : ℤ) -
        (((convert_with_metrics data).2.2.toon_chars / 4 : ℕ) : ℤ)) ∧
    0 ≤ (convert_with_metrics data).2.1 ∧
    (convert_with_metrics data).2.2.original_chars =
      (match data with | .strIn s => s | .jsIn v => dumpsValue v).length ∧
    (convert_with_metrics data).2.2.toon_chars = (to_toon data).length := by
  refine ⟨?_, ?_, rfl, rfl⟩
  · show imax 0 _ = _
    rw [imax_eq_max]
    rfl
  · show 0 ≤ imax 0 _
    rw [imax_eq_max]
    exact le_max_left 0 _

def fourDetections (t : Chars) : List Detection :=
  [detect_sql_injection t, detect_xss t, detect_command_injection t,
   detect_path_traversal t]

theorem runDetect_spec (ps : List RE) (ty : String) (f : ℚ) (text : Chars)
    (hf : 0 ≤ f) :
    ((runDetect ps ty f text).detected = true ↔
      (ps.flatMap fun p => findAll p text) ≠ []) ∧
    (runDetect ps ty f text).confidence =
      min (f * (ps.flatMap fun p => findAll p text).length) 1 ∧
    0 ≤ (runDetect ps ty f text).confidence ∧
    (runDetect ps ty f text).confidence ≤ 1 ∧
    (runDetect ps ty f text).threat_type = ty := by
  have hconf : (runDetect ps ty f text).confidence =
      min (f * (ps.flatMap fun p => findAll p text).length) 1 := by
    show qmin (qmulNat (ps.flatMap fun p => findAll p text).length f) 1 = _
    rw [qmin_eq_min, qmulNat_eq, mul_comm]
  refine ⟨?_, hconf, ?_, ?_, rfl⟩
  · show decide (0 < (ps.flatMap fun p => findAll p text).length) = true ↔ _
    rw [decide_eq_true_iff]
    exact List.length_pos
  · rw [hconf]
    exact le_min (mul_nonneg hf (Nat.cast_nonneg _)) zero_le_one
  · rw [hconf]
    exact min_le_right _ _

theorem detection_conf_zero_of_not_detected (ps : List RE) (ty : String)
    (f : ℚ) (text : Chars)
    (h : (runDetect ps ty f text).detected = false) :
    (runDetect ps ty f text).confidence = 0 := by
  have hlen : (ps.flatMap fun p => findAll p text).length = 0 := by
    by_contra hne
    have : (runDetect ps ty f text).detected = true := by
      show decide (0 < (ps.flatMap fun p => findAll p text).length) = true
      simpa [Nat.pos_iff_ne_zero] using hne
    rw [h] at this
    exact Bool.false_ne_true this
  show qmin (qmulNat (ps.flatMap fun p => findAll p text).length f) 1 = 0
  rw [qmin_eq_min, qmulNat_eq, hlen]
  simp

theorem foldl_qmax_ge_init (l : List Detection) (a : ℚ) :
    a ≤ l.foldl (fun x d => qmax x d.confidence) a := by
  induction l generalizing a with
  | nil => exact le_refl a
  | cons d ds ih =>
    refine le_trans ?_ (ih (qmax a d.confidence))
    rw [qmax_eq_max]
    exact le_max_left _ _

theorem foldl_qmax_ge_mem (l : List Detection) (a : ℚ) (t : Detection)
    (ht : t ∈ l) :
    t.confidence ≤ l.foldl (fun x d => qmax x d.confidence) a := by
  induction l generalizing a with
  | nil => cases ht
  | cons d ds ih =>
    rcases List.mem_cons.mp ht with rfl | hmem
    · refine le_trans ?_ (foldl_qmax_ge_init ds (qmax a t.confidence))
      rw [qmax_eq_max]
      exact le_max_right _ _
    · exact ih (qmax a d.confidence) hmem

theorem maxConfD_ge_mem (l : List Detection) (t : Detection) (ht : t ∈ l) :
    t.confidence ≤ maxConfD l := by
  cases l with
  | nil => cases ht
  | cons d ds =>
    rcases List.mem_cons.mp ht with rfl | hmem
    · exact foldl_qmax_ge_init ds t.confidence
    · exact foldl_qmax_ge_mem ds d.confidence t hmem

/-- With the three gated detectors enabled, the threat stage reports exactly
the detectors that fired, in catalog order. -/
theorem threatStage_all_enabled (settings : SentinelSettings) (t : Chars)
    (hsql : settings.sql_injection_detection_enabled = true)
    (hxss : settings.xss_protection_enabled = true)
    (hcmd : settings.command_injection_detection_enabled = true) :
    threatStage settings t = (fourDetections t).filter (·.detected) := by
  unfold threatStage fourDetections
  rw [hsql, hxss, hcmd]
  cases h1 : (detect_sql_injection t).detected <;>
    cases h2 : (detect_xss t).detected <;>
      cases h3 : (detect_command_injection t).detected <;>
        cases h4 : (detect_path_traversal t).detected <;>
          simp [List.filter, h1, h2, h3, h4]

/-- C2: each of the four detectors returns `{detected, confidence ∈ [0,1],
matches}` with confidence `min(0.3·matches, 1.0)` (path traversal:
`min(0.4·matches, 1.0)`); and whenever some detector reports confidence
≥ 0.7 on the working text (with the gated detectors enabled), the request is
blocked with `block_reason = "Security threats detected: <comma-list of
detected types>"` and `security_score` equal to the maximum detector
confidence. -/
theorem c2_detectors_and_blocking (text : Chars) (settings : SentinelSettings)
    (prompt : Chars) (llm : Except Unit LlmSecVerdict)
    (hsql : settings.sql_injection_detection_enabled = true)
    (hxss : settings.xss_protection_enabled = true)
    (hcmd : settings.command_injection_detection_enabled = true)
    (hne : prompt ≠ [])
    (hconf : ∃ d ∈ fourDetections (workingText settings prompt),
      mkRat 7 10 ≤ d.confidence) :
    (((detect_sql_injection text).detected = true ↔
        (SQL_PATTERNS.flatMap fun p => findAll p text) ≠ []) ∧
      (detect_sql_injection text).confidence =
        min ((3 : ℚ) / 10 * (SQL_PATTERNS.flatMap fun p => findAll p text).length) 1 ∧
      0 ≤ (detect_sql_injection text).confidence ∧
      (detect_sql_injection text).confidence ≤ 1) ∧
    (((detect_xss text).detected = true ↔
        (XSS_PATTERNS.flatMap fun p => findAll p text) ≠ []) ∧
      (detect_xss text).confidence =
        min ((3 : ℚ) / 10 * (XSS_PATTERNS.flatMap fun p => findAll p text).length) 1 ∧
      0 ≤ (detect_xss text).confidence ∧ (detect_xss text).confidence ≤ 1) ∧
    (((detect_command_injection text).detected = true ↔
        (COMMAND_INJECTION_PATTERNS.flatMap fun p => findAll p text) ≠ []) ∧
      (detect_command_injection text).confidence =
        min ((3 : ℚ) / 10 *
          (COMMAND_INJECTION_PATTERNS.flatMap fun p => findAll p text).length) 1 ∧
      0 ≤ (detect_command_injection text).confidence ∧
      (detect_command_injection text).confidence ≤ 1) ∧
    (((detect_path_traversal text).detected = true ↔
        (PATH_TRAVERSAL_PATTERNS.flatMap fun p => findAll p text) ≠ []) ∧
      (detect_path_traversal text).confidence =
        min ((4 : ℚ) / 10 *
          (PATH_TRAVERSAL_PATTERNS.flatMap fun p => findAll p text).length) 1 ∧
      0 ≤ (detect_path_traversal text).confidence ∧
      (detect_path_traversal text).confidence ≤ 1) ∧
    (security_check settings (some prompt) llm).is_blocked = true ∧
    (security_check settings (some prompt) llm).block_reason =
      some ("Security threats detected: " ++
        joinCommaSp (((fourDetections (workingText settings prompt)).filter
          (·.detected)).map (·.threat_type))) ∧
    (security_check settings (some prompt) llm).security_score =
      maxConfD ((fourDetections (workingText settings prompt)).filter
        (·.detected)) ∧
    ∀ d ∈ fourDetections (workingText settings prompt),
      d.confidence ≤ (security_check settings (some prompt) llm).security_score := by
  obtain ⟨d0, hd0mem, hd0conf⟩ := hconf
  have hfilter := threatStage_all_enabled settings (workingText settings prompt)
    hsql hxss hcmd
  -- the high-confidence detector fired, so the threat list is nonempty and
  -- its maximum is at least 0.7
  have hd0det : d0.detected = true := by
    have hzero : d0.detected = false → d0.confidence = 0 := by
      intro hfalse
      simp only [fourDetections, List.mem_cons, List.mem_singleton] at hd0mem
      rcases hd0mem with rfl | rfl | rfl | rfl | h
      · exact detection_conf_zero_of_not_detected _ _ _ _ hfalse
      · exact detection_conf_zero_of_not_detected _ _ _ _ hfalse
      · exact detection_conf_zero_of_not_detected _ _ _ _ hfalse
      · exact detection_conf_zero_of_not_detected _ _ _ _ hfalse
      · cases h
    by_contra hcon
    have h0 := hzero (Bool.not_eq_true _ ▸ Bool.eq_false_iff.mpr hcon)
    rw [h0] at hd0conf
    have hpos : (0 : ℚ) < mkRat 7 10 := by
      rw [mkRat_seven_tenths]
      norm_num
    exact absurd hd0conf (not_le.mpr hpos)
  have hd0threat : d0 ∈ threatStage settings (workingText settings prompt) := by
    rw [hfilter]
    exact List.mem_filter.mpr ⟨hd0mem, by simpa using hd0det⟩
  have hthreats_ne : threatStage settings (workingText settings prompt) ≠ [] :=
    fun hnil => by simp [hnil] at hd0threat
  have hmaxge : mkRat 7 10 ≤
      maxConfD (threatStage settings (workingText settings prompt)) :=
    le_trans hd0conf (maxConfD_ge_mem _ _ hd0threat)
  have hcond : (threatStage settings (workingText settings prompt) ≠ [] ∧
      ¬ Rat.blt (maxConfD (threatStage settings (workingText settings prompt)))
        (mkRat 7 10)) := by
    refine ⟨hthreats_ne, fun hblt => ?_⟩
    exact absurd ((rat_blt_iff _ _).mp hblt) (not_lt.mpr hmaxge)
  have hres : security_check settings (some prompt) llm =
      { security_score := maxConfD (threatStage settings (workingText settings prompt)),
        is_blocked := true,
        block_reason := some ("Security threats detected: " ++
          joinCommaSp ((threatStage settings (workingText settings prompt)).map
            (·.threat_type))),
        sanitized_input :=
          if settings.sanitization_enabled then some (sanitize_input prompt).1 else none,
        sanitization_warnings :=
          if settings.sanitization_enabled then (sanitize_input prompt).2 else [],
        pii_detections :=
          if settings.pii_redaction_enabled then
            (pseudonymize_pii (if settings.sanitization_enabled then
              (sanitize_input prompt).1 else prompt)).2.1 else [],
        redacted_input :=
          if settings.pii_redaction_enabled then
            some (pseudonymize_pii (if settings.sanitization_enabled then
              (sanitize_input prompt).1 else prompt)).1 else none,
        pii_mapping :=
          if settings.pii_redaction_enabled then
            some (pseudonymize_pii (if settings.sanitization_enabled then
              (sanitize_input prompt).1 else prompt)).2.2 else none,
        detected_threats := threatStage settings (workingText settings prompt) } := by
    unfold security_check
    simp only [Option.getD_some, if_neg hne]
    have hcond2 : (threatStage settings
        (if settings.pii_redaction_enabled = true then
          (pseudonymize_pii (if settings.sanitization_enabled = true then
            (sanitize_input prompt).1 else prompt)).1
         else if settings.sanitization_enabled = true then
           (sanitize_input prompt).1 else prompt) ≠ [] ∧
      ¬ Rat.blt (maxConfD (threatStage settings
        (if settings.pii_redaction_enabled = true then
          (pseudonymize_pii (if settings.sanitization_enabled = true then
            (sanitize_input prompt).1 else prompt)).1
         else if settings.sanitization_enabled = true then
           (sanitize_input prompt).1 else prompt))) (mkRat 7 10)) := hcond
    rw [if_pos hcond2]
    rfl
  refine ⟨?_, ?_, ?_, ?_, ?_, ?_, ?_, ?_⟩
  · obtain ⟨a, b, c, d, _⟩ := runDetect_spec SQL_PATTERNS "sql_injection"
      (mkRat 3 10) text (by rw [mkRat_three_tenths]; norm_num)
    exact ⟨a, by rw [← mkRat_three_tenths]; exact b, c, d⟩
  · obtain ⟨a, b, c, d, _⟩ := runDetect_spec XSS_PATTERNS "xss"
      (mkRat 3 10) text (by rw [mkRat_three_tenths]; norm_num)
    exact ⟨a, by rw [← mkRat_three_tenths]; exact b, c, d⟩
  · obtain ⟨a, b, c, d, _⟩ := runDetect_spec COMMAND_INJECTION_PATTERNS
      "command_injection" (mkRat 3 10) text (by rw [mkRat_three_tenths]; norm_num)
    exact ⟨a, by rw [← mkRat_three_tenths]; exact b, c, d⟩
  · obtain ⟨a, b, c, d, _⟩ := runDetect_spec PATH_TRAVERSAL_PATTERNS
      "path_traversal" (mkRat 4 10) text (by rw [mkRat_four_tenths]; norm_num)
    exact ⟨a, by rw [← mkRat_four_tenths]; exact b, c, d⟩
  · rw [hres]
  · rw [hres]
    simp only [hfilter]
  · rw [hres]
    simp only [hfilter]
  · intro d hd
    rw [hres]
    simp only
    rcases hdet : d.detected with hfalse | htrue
    · have : d.confidence = 0 := by
        simp only [fourDetections, List.mem_cons, List.mem_singleton] at hd
        rcases hd with rfl | rfl | rfl | rfl | h
        · exact detection_conf_zero_of_not_detected _ _ _ _ hdet
        · exact detection_conf_zero_of_not_detected _ _ _ _ hdet
        · exact detection_conf_zero_of_not_detected _ _ _ _ hdet
        · exact detection_conf_zero_of_not_detected _ _ _ _ hdet
        · cases h
      rw [this]
      exact le_trans (by rw [mkRat_seven_tenths]; norm_num) hmaxge
    · refine maxConfD_ge_mem _ _ ?_
      rw [hfilter]
      exact List.mem_filter.mpr ⟨hd, by simpa using hdet⟩

def c2Settings : SentinelSettings := ⟨false, false, true, true, true, mkRat 85 100⟩

theorem c2_detectors_and_blocking_witness :
    (c2Settings.sql_injection_detection_enabled = true ∧
      c2Settings.xss_protection_enabled = true ∧
      c2Settings.command_injection_detection_enabled = true ∧
      strChars "1=1 OR 2=2 -- x" ≠ [] ∧
      (∃ d ∈ fourDetections (workingText c2Settings (strChars "1=1 OR 2=2 -- x")),
        mkRat 7 10 ≤ d.confidence)) ∧
    (security_check c2Settings (some (strChars "1=1 OR 2=2 -- x"))
        (.error ())).is_blocked = true ∧
    (security_check c2Settings (some (strChars "1=1 OR 2=2 -- x"))
        (.error ())).security_score =
      maxConfD ((fourDetections (workingText c2Settings
        (strChars "1=1 OR 2=2 -- x"))).filter (·.detected)) :=
  ⟨⟨rfl, rfl, rfl, by decide, by decide⟩,
    (c2_detectors_and_blocking (strChars "1=1 OR 2=2 -- x") c2Settings
      (strChars "1=1 OR 2=2 -- x") (.error ()) rfl rfl rfl (by decide)
      (by decide)).2.2.2.2.1,
    (c2_detectors_and_blocking (strChars "1=1 OR 2=2 -- x") c2Settings
      (strChars "1=1 OR 2=2 -- x") (.error ()) rfl rfl rfl (by decide)
      (by decide)).2.2.2.2.2.2.1⟩

theorem c7_counterexample :
    (⟨"EMAIL", some 1, "medium"⟩ : PiiLeak) ∈
      (pii_scanner_node (strChars "id 123-45-6789 a@b.xy")).output_pii_leaks ∧
    (pii_scanner_node (strChars "id 123-45-6789 a@b.xy")).llm_response =
      strChars "id [SSN_REDACTED] [EMAIL_REDACTED]" ∧
    containsSub (pii_scanner_node (strChars "id 123-45-6789 a@b.xy")).llm_response
      (strChars "a@b.xy") = false := by
  decide

/-- C7 (amended): the output is redacted exactly when a high-severity PII
type (SSN, credit card, API key — the only types scan labels "high") is
found, and the redaction pass then rewrites all five redactable patterns —
including the medium-severity email and phone matches; with no high-severity
finding nothing is redacted and medium/low findings are only reported. -/
theorem c7_output_pii_redaction (resp : Chars) :
    ((pii_scanner_node resp).output_redacted = true ↔
      resp ≠ [] ∧ ∃ l ∈ outputScan resp, l.severity = "high") ∧
    ((pii_scanner_node resp).output_redacted = true →
      (pii_scanner_node resp).llm_response = outputRedact resp) ∧
    ((pii_scanner_node resp).output_redacted = false →
      (pii_scanner_node resp).llm_response = resp) ∧
    (pii_scanner_node resp).output_pii_leaks = outputScan resp ∧
    (∀ l ∈ outputScan resp, (l.severity = "high" ↔
      l.ltype = "SSN" ∨ l.ltype = "CREDIT_CARD" ∨ l.ltype = "API_KEY")) := by
  have hsev : ∀ l ∈ outputScan resp, (l.severity = "high" ↔
      l.ltype = "SSN" ∨ l.ltype = "CREDIT_CARD" ∨ l.ltype = "API_KEY") := by
    intro l hl
    unfold outputScan at hl
    by_cases hresp : resp = []
    · rw [if_pos hresp] at hl
      cases hl
    · rw [if_neg hresp] at hl
      simp only [List.mem_append] at hl
      rcases hl with ((((h | h) | h) | h) | h) | h <;>
        rw [memIteSingleton h] <;> simp
  refine ⟨?_, ?_, ?_, ?_, hsev⟩
  · unfold pii_scanner_node
    by_cases hresp : resp = []
    · rw [if_pos hresp]
      simp [hresp, outputScan]
    · rw [if_neg hresp]
      by_cases hhigh : (outputScan resp).any fun l => l.severity = "high"
      · simp only [hhigh, if_true]
        simp only [List.any_eq_true, decide_eq_true_eq] at hhigh
        simp [hresp, hhigh]
      · simp only [hhigh, Bool.false_eq_true, if_false]
        simp only [List.any_eq_true, decide_eq_true_eq] at hhigh
        simp [hresp, hhigh]
  · unfold pii_scanner_node
    by_cases hresp : resp = []
    · rw [if_pos hresp]
      intro h
      cases h
    · rw [if_neg hresp]
      by_cases hhigh : (outputScan resp).any fun l => l.severity = "high"
      · simp [hhigh]
      · simp [hhigh]
  · unfold pii_scanner_node
    by_cases hresp : resp = []
    · rw [if_pos hresp]
      intro
      rfl
    · rw [if_neg hresp]
      by_cases hhigh : (outputScan resp).any fun l => l.severity = "high"
      · simp [hhigh]
      · simp [hhigh]
  · unfold pii_scanner_node
    by_cases hresp : resp = []
    · rw [if_pos hresp]
      simp [hresp, outputScan]
    · rw [if_neg hresp]
      by_cases hhigh : (outputScan resp).any fun l => l.severity = "high"
      · simp [hhigh]
      · simp [hhigh]

theorem c7_output_pii_redaction_witness :
    (pii_scanner_node (strChars "ok 1.2.3.4 x@y.zz")).output_redacted = false ∧
    (pii_scanner_node (strChars "ok 1.2.3.4 x@y.zz")).llm_response =
      strChars "ok 1.2.3.4 x@y.zz" :=
  ⟨by decide,
    (c7_output_pii_redaction (strChars "ok 1.2.3.4 x@y.zz")).2.2.1 (by decide)⟩

/-! ## Round-trip theory for pseudonymization (claim C1)

The key structural facts: detected PII literals never contain a square
bracket, inserted tokens are bracket-delimited with bracket-free cores, so
the `str.replace` scan of de-pseudonymization walks the segment structure
exactly. -/

def brFree (cs : Chars) : Prop := '[' ∉ cs ∧ ']' ∉ cs

def wfTok (t : Chars) : Prop :=
  ∃ core, t = '[' :: (core ++ [']']) ∧ '[' ∉ core ∧ ']' ∉ core

def segWf : Seg → Prop
  | .s cs => brFree cs
  | .tk t => wfTok t

theorem pfx_append (pat rest : Chars) : pfx pat (pat ++ rest) = true := by
  induction pat with
  | nil => rfl
  | cons c cs ih => simp [pfx, ih]

theorem pfx_length_le {pat s : Chars} (h : pfx pat s = true) :
    pat.length ≤ s.length := by
  induction pat generalizing s with
  | nil => simp
  | cons c cs ih =>
    cases s with
    | nil => simp [pfx] at h
    | cons d ds =>
      simp only [pfx, Bool.and_eq_true, decide_eq_true_eq] at h
      simpa using ih h.2

theorem pfx_head {c : Char} {cs : Chars} {d : Char} {ds : Chars}
    (h : pfx (c :: cs) (d :: ds) = true) : c = d ∧ pfx cs ds = true := by
  simpa [pfx] using h

/-- A prefix is an initial segment: `pfx pat s` means `s = pat ++ tail`. -/
theorem pfx_iff_exists (pat s : Chars) :
    pfx pat s = true ↔ ∃ tail, s = pat ++ tail := by
  induction pat generalizing s with
  | nil => simp [pfx]
  | cons c cs ih =>
    cases s with
    | nil => simp [pfx]
    | cons d ds =>
      simp only [pfx, Bool.and_eq_true, decide_eq_true_eq, ih]
      constructor
      · rintro ⟨rfl, tail, rfl⟩
        exact ⟨tail, rfl⟩
      · rintro ⟨tail, h⟩
        rw [List.cons_append] at h
        cases h
        exact ⟨rfl, tail, rfl⟩

theorem patlen_pos {pat : Chars} (hpat : pat ≠ []) : 1 ≤ pat.length := by
  cases pat with
  | nil => exact absurd rfl hpat
  | cons p ps => simp

theorem replaceAllF_fuel (pat rep : Chars) (hpat : pat ≠ []) :
    ∀ f₁ f₂ s, s.length ≤ f₁ → s.length ≤ f₂ →
      replaceAllF f₁ s pat rep = replaceAllF f₂ s pat rep := by
  intro f₁
  induction f₁ with
  | zero =>
    intro f₂ s hs _
    have hnil : s = [] := List.length_eq_zero.mp (Nat.le_zero.mp hs)
    subst hnil
    cases f₂ <;> rfl
  | succ n ih =>
    intro f₂ s hs hs2
    cases s with
    | nil => cases f₂ <;> rfl
    | cons c cs =>
      cases f₂ with
      | zero => simp at hs2
      | succ m =>
        rw [replaceAllF, replaceAllF]
        by_cases hp : (pfx pat (c :: cs) && decide (pat ≠ [])) = true
        · rw [if_pos hp, if_pos hp]
          have h1 := patlen_pos hpat
          have hlen : ((c :: cs).drop pat.length).length ≤ n := by
            simp only [List.length_drop, List.length_cons]
            simp only [List.length_cons] at hs
            omega
          have hlen2 : ((c :: cs).drop pat.length).length ≤ m := by
            simp only [List.length_drop, List.length_cons]
            simp only [List.length_cons] at hs2
            omega
          rw [ih m _ hlen hlen2]
        · rw [if_neg hp, if_neg hp]
          have hcs : cs.length ≤ n := by
            simp only [List.length_cons] at hs
            omega
          have hcs2 : cs.length ≤ m := by
            simp only [List.length_cons] at hs2
            omega
          rw [ih m cs hcs hcs2]

theorem replaceAllF_congr (pat rep : Chars) (hpat : pat ≠ []) :
    ∀ fuel s, s.length ≤ fuel →
      replaceAllF fuel s pat rep = replaceAll s pat rep := by
  intro fuel s hs
  exact replaceAllF_fuel pat rep hpat fuel s.length s hs (le_refl _)

theorem replaceAll_nil (pat rep : Chars) : replaceAll [] pat rep = [] := rfl

theorem replaceAll_cons_skip {pat : Chars} (c : Char) (cs rep : Chars)
    (h : pfx pat (c :: cs) = false) :
    replaceAll (c :: cs) pat rep = c :: replaceAll cs pat rep := by
  show replaceAllF (cs.length + 1) (c :: cs) pat rep = _
  rw [replaceAllF]
  rw [if_neg (by simp [h])]
  rfl

theorem replaceAll_cons_hit {pat : Chars} (hne : pat ≠ []) (c : Char)
    (cs rep : Chars) (h : pfx pat (c :: cs) = true) :
    replaceAll (c :: cs) pat rep =
      rep ++ replaceAll ((c :: cs).drop pat.length) pat rep := by
  show replaceAllF (cs.length + 1) (c :: cs) pat rep = _
  rw [replaceAllF]
  rw [if_pos (by simp [h, hne])]
  congr 1
  apply replaceAllF_congr pat rep hne
  have h1 : 1 ≤ pat.length := by
    cases pat with
    | nil => exact absurd rfl hne
    | cons p ps => simp
  simp only [List.length_drop, List.length_cons]
  omega

/-- The scan passes over a bracket-free run without matching a
bracket-opened pattern. -/
theorem replaceAll_skip_run {p' : Chars} (rep : Chars) :
    ∀ s₁ rest, '[' ∉ s₁ →
      replaceAll (s₁ ++ rest) ('[' :: p') rep =
        s₁ ++ replaceAll rest ('[' :: p') rep := by
  intro s₁
  induction s₁ with
  | nil => intro rest _; rfl
  | cons c cs ih =>
    intro rest hnb
    have hc : c ≠ '[' := fun h => hnb (h ▸ List.mem_cons_self c cs)
    have hskip : pfx ('[' :: p') (c :: (cs ++ rest)) = false := by
      simp [pfx, Ne.symm hc]
    rw [List.cons_append, replaceAll_cons_skip c (cs ++ rest) rep hskip,
      ih rest (fun h => hnb (List.mem_cons_of_mem c h))]
    rfl

/-- The scan replaces an exact occurrence of the pattern. -/
theorem replaceAll_hit (pat rest rep : Chars) (hne : pat ≠ []) :
    replaceAll (pat ++ rest) pat rep = rep ++ replaceAll rest pat rep := by
  cases pat with
  | nil => exact absurd rfl hne
  | cons p ps =>
    rw [List.cons_append,
      replaceAll_cons_hit hne p (ps ++ rest) rep
        (by rw [← List.cons_append]; exact pfx_append _ _)]
    congr 1
    rw [← List.cons_append, List.drop_append_of_le_length (le_refl _)]
    simp

theorem core_pfx_eq : ∀ core core' rest : Chars, ']' ∉ core → ']' ∉ core' →
    pfx (core ++ [']']) (core' ++ ']' :: rest) = true → core = core' := by
  intro core
  induction core with
  | nil =>
    intro core' rest _ hcb' hp
    cases core' with
    | nil => rfl
    | cons d ds =>
      rw [List.nil_append, List.cons_append] at hp
      obtain ⟨hd, -⟩ := pfx_head hp
      exact absurd (hd ▸ List.mem_cons_self d ds) (by rw [← hd] at hcb'; exact hcb')
  | cons c cs ih =>
    intro core' rest hcb hcb' hp
    cases core' with
    | nil =>
      rw [List.cons_append, List.nil_append] at hp
      obtain ⟨hd, -⟩ := pfx_head hp
      exact absurd (List.mem_cons_self c cs) (hd ▸ hcb)
    | cons d ds =>
      rw [List.cons_append, List.cons_append] at hp
      obtain ⟨hd, htl⟩ := pfx_head hp
      have := ih ds rest (fun h => hcb (List.mem_cons_of_mem c h))
        (fun h => hcb' (List.mem_cons_of_mem d h)) htl
      rw [hd, this]

/-- A well-formed token never begins at the start of a different well-formed
token: the single closing bracket pins the length. -/
theorem wfTok_not_pfx {t t' : Chars} (ht : wfTok t) (ht' : wfTok t')
    (hne : t ≠ t') (rest : Chars) : pfx t (t' ++ rest) = false := by
  obtain ⟨core, rfl, _, hcb⟩ := ht
  obtain ⟨core', rfl, _, hcb'⟩ := ht'
  by_contra hcon
  have hpf : pfx ('[' :: (core ++ [']']))
      (('[' :: (core' ++ [']'])) ++ rest) = true := Bool.not_eq_false _ ▸ hcon
  rw [List.cons_append] at hpf
  obtain ⟨-, hpf2⟩ := pfx_head hpf
  rw [List.append_assoc, List.singleton_append] at hpf2
  exact hne (by rw [core_pfx_eq core core' rest hcb hcb' hpf2])

def substTok (segs : List Seg) (t l : Chars) : List Seg :=
  segs.map fun sg =>
    match sg with
    | .tk u => if u = t then .s l else .tk u
    | .s cs => .s cs

def restoreSeg (m : List (Chars × Chars)) : Seg → Chars
  | .s cs => cs
  | .tk t => (lookupAssoc m t).getD t

/-- What the segments flatten to once every token is replaced by its mapped
literal. -/
def restore (m : List (Chars × Chars)) (segs : List Seg) : Chars :=
  segs.flatMap (restoreSeg m)

theorem wfTok_ne_nil {t : Chars} (ht : wfTok t) : t ≠ [] := by
  obtain ⟨core, rfl, -, -⟩ := ht
  simp

def segChars : Seg → Chars
  | .s cs => cs
  | .tk t => t

theorem flattenSegs_cons (sg : Seg) (rest : List Seg) :
    flattenSegs (sg :: rest) = segChars sg ++ flattenSegs rest := by
  cases sg <;> rfl

theorem substTok_cons (sg : Seg) (rest : List Seg) (t l : Chars) :
    substTok (sg :: rest) t l =
      (match sg with
        | .tk u => if u = t then Seg.s l else Seg.tk u
        | .s cs => Seg.s cs) :: substTok rest t l := rfl

theorem restore_cons (m : List (Chars × Chars)) (sg : Seg) (rest : List Seg) :
    restore m (sg :: rest) = restoreSeg m sg ++ restore m rest := by
  cases sg <;> rfl

theorem replaceAll_flatten_substTok (t l : Chars) (ht : wfTok t) :
    ∀ segs, (∀ sg ∈ segs, segWf sg) →
      replaceAll (flattenSegs segs) t l = flattenSegs (substTok segs t l) := by
  intro segs
  induction segs with
  | nil => intro _; rfl
  | cons sg rest ih =>
    intro hw
    have hwsg := hw sg (List.mem_cons_self _ _)
    have hwrest : ∀ s ∈ rest, segWf s :=
      fun s hs => hw s (List.mem_cons_of_mem sg hs)
    rw [flattenSegs_cons, substTok_cons]
    cases sg with
    | s cs =>
      rw [flattenSegs_cons]
      show replaceAll (cs ++ flattenSegs rest) t l = cs ++ _
      obtain ⟨core, htEq, -, -⟩ := ht
      rw [htEq, replaceAll_skip_run _ cs (flattenSegs rest) hwsg.1, ← htEq,
        ih hwrest]
    | tk u =>
      show replaceAll (u ++ flattenSegs rest) t l = _
      by_cases hu : u = t
      · subst hu
        show replaceAll (u ++ flattenSegs rest) u l =
          flattenSegs ((if u = u then Seg.s l else Seg.tk u) :: substTok rest u l)
        rw [if_pos rfl, flattenSegs_cons,
          replaceAll_hit u (flattenSegs rest) l (wfTok_ne_nil ht), ih hwrest]
        rfl
      · show replaceAll (u ++ flattenSegs rest) t l =
          flattenSegs ((if u = t then Seg.s l else Seg.tk u) :: substTok rest t l)
        rw [if_neg hu, flattenSegs_cons]
        have hwu : wfTok u := hwsg
        have hskip0 : pfx t (u ++ flattenSegs rest) = false :=
          wfTok_not_pfx ht hwu (fun h => hu h.symm) _
        obtain ⟨core, huEq, hob, hcb⟩ := hwu
        show _ = u ++ _
        obtain ⟨tc, htEq, -, -⟩ := ht
        rw [huEq] at hskip0 ⊢
        rw [List.cons_append, htEq,
          replaceAll_cons_skip _ _ _
            (by rw [← htEq, ← List.cons_append]; exact hskip0)]
        have hnb : '[' ∉ core ++ [']'] := by
          intro hmem
          rcases List.mem_append.mp hmem with h | h
          · exact hob h
          · simp at h
        rw [replaceAll_skip_run _ (core ++ [']']) (flattenSegs rest) hnb, ← htEq,
          ih hwrest]
        rfl

theorem restore_nil (segs : List Seg) : restore [] segs = flattenSegs segs := by
  induction segs with
  | nil => rfl
  | cons sg rest ih =>
    rw [restore_cons, flattenSegs_cons, ih]
    cases sg <;> rfl

theorem substTok_wf {segs : List Seg} {t l : Chars}
    (hw : ∀ sg ∈ segs, segWf sg) (hl : brFree l) :
    ∀ sg ∈ substTok segs t l, segWf sg := by
  intro sg hsg
  obtain ⟨sg0, hsg0, rfl⟩ := List.mem_map.mp hsg
  have := hw sg0 hsg0
  cases sg0 with
  | s cs => exact this
  | tk u =>
    by_cases hu : u = t
    · simpa [hu] using hl
    · simpa [hu] using this

theorem substTok_tk_mem {segs : List Seg} {t l u : Chars}
    (h : Seg.tk u ∈ substTok segs t l) : u ≠ t ∧ Seg.tk u ∈ segs := by
  obtain ⟨sg0, hsg0, heq⟩ := List.mem_map.mp h
  cases sg0 with
  | s cs => cases heq
  | tk v =>
    have heq2 : (if v = t then Seg.s l else Seg.tk v) = Seg.tk u := heq
    by_cases hv : v = t
    · rw [if_pos hv] at heq2
      cases heq2
    · rw [if_neg hv] at heq2
      cases heq2
      exact ⟨hv, hsg0⟩

theorem restore_substTok (m' : List (Chars × Chars)) (t₀ l₀ : Chars)
    (segs : List Seg) :
    restore m' (substTok segs t₀ l₀) = restore ((t₀, l₀) :: m') segs := by
  induction segs with
  | nil => rfl
  | cons sg rest ih =>
    rw [substTok_cons, restore_cons, restore_cons, ih]
    congr 1
    cases sg with
    | s cs => rfl
    | tk u =>
      by_cases hu : u = t₀
      · subst hu
        show restoreSeg m' (if u = u then Seg.s l₀ else Seg.tk u) = _
        rw [if_pos rfl]
        show l₀ = (lookupAssoc ((u, l₀) :: m') u).getD u
        rw [lookupAssoc, if_pos rfl]
        rfl
      · show restoreSeg m' (if u = t₀ then Seg.s l₀ else Seg.tk u) = _
        rw [if_neg hu]
        show (lookupAssoc m' u).getD u = (lookupAssoc ((t₀, l₀) :: m') u).getD u
        rw [lookupAssoc, if_neg (fun h => hu h.symm)]

/-- De-pseudonymization walks the segment structure: replacing each token of
the map in insertion order restores every token slot to its mapped value. -/
theorem depseudo_restore :
    ∀ (m : List (Chars × Chars)) (segs : List Seg),
      (∀ sg ∈ segs, segWf sg) →
      (∀ p ∈ m, wfTok p.1 ∧ brFree p.2) →
      depseudonymize (flattenSegs segs) m = restore m segs := by
  intro m
  induction m with
  | nil =>
    intro segs _ _
    exact (restore_nil segs).symm
  | cons p m' ih =>
    intro segs hw hm
    have hwt : wfTok p.1 := (hm p (List.mem_cons_self _ _)).1
    have hbl : brFree p.2 := (hm p (List.mem_cons_self _ _)).2
    show depseudonymize (replaceAll (flattenSegs segs) p.1 p.2) m' = _
    rw [replaceAll_flatten_substTok p.1 p.2 hwt segs hw,
      ih (substTok segs p.1 p.2) (substTok_wf hw hbl)
        (fun q hq => hm q (List.mem_cons_of_mem p hq)),
      restore_substTok]

/-! ### Decimal printer correctness -/

theorem natToCharsF_fuel :
    ∀ f₁ f₂ n, n < f₁ → n < f₂ → natToCharsF f₁ n = natToCharsF f₂ n := by
  intro f₁
  induction f₁ with
  | zero => intro f₂ n h _; omega
  | succ a ih =>
    intro f₂ n h1 h2
    cases f₂ with
    | zero => omega
    | succ b =>
      rw [natToCharsF, natToCharsF]
      by_cases hn : n < 10
      · rw [if_pos hn, if_pos hn]
      · rw [if_neg hn, if_neg hn]
        have hd : n / 10 < n := Nat.div_lt_self (by omega) (by omega)
        rw [ih b (n / 10) (by omega) (by omega)]

theorem natToChars_eq (n : Nat) :
    natToChars n = if n < 10 then [digitChar n]
      else natToChars (n / 10) ++ [digitChar (n % 10)] := by
  show natToCharsF (n + 1) n = _
  rw [natToCharsF]
  by_cases hn : n < 10
  · rw [if_pos hn, if_pos hn]
  · rw [if_neg hn, if_neg hn]
    have hd : n / 10 < n := Nat.div_lt_self (by omega) (by omega)
    rw [natToCharsF_fuel n (n / 10 + 1) (n / 10) (by omega) (by omega)]
    rfl

theorem digitChar_toNat (d : Nat) (hd : d < 10) :
    (digitChar d).toNat = 48 + d := by
  interval_cases d <;> decide

theorem charsToNat_append (a b : Chars) :
    charsToNat (a ++ b) =
      b.foldl (fun x c => 10 * x + (c.toNat - 48)) (charsToNat a) := by
  unfold charsToNat
  rw [List.foldl_append]

theorem charsToNat_natToChars (n : Nat) : charsToNat (natToChars n) = n := by
  induction n using Nat.strong_induction_on with
  | _ n ih =>
    rw [natToChars_eq]
    by_cases hn : n < 10
    · rw [if_pos hn]
      show 10 * 0 + ((digitChar n).toNat - 48) = n
      rw [digitChar_toNat n hn]
      omega
    · rw [if_neg hn]
      rw [charsToNat_append]
      have hd : n / 10 < n := Nat.div_lt_self (by omega) (by omega)
      show 10 * charsToNat (natToChars (n / 10)) + ((digitChar (n % 10)).toNat - 48) = n
      rw [ih (n / 10) hd, digitChar_toNat (n % 10) (by omega)]
      omega

theorem natToChars_injective : Function.Injective natToChars := by
  intro a b h
  have := charsToNat_natToChars a
  rw [h, charsToNat_natToChars] at this
  exact this.symm

theorem natToChars_shape (n : Nat) :
    ∀ c ∈ natToChars n, ∃ d, d < 10 ∧ c = digitChar d := by
  induction n using Nat.strong_induction_on with
  | _ n ih =>
    intro c hc
    rw [natToChars_eq] at hc
    by_cases hn : n < 10
    · rw [if_pos hn] at hc
      exact ⟨n, hn, (List.mem_singleton.mp hc).symm ▸ rfl⟩
    · rw [if_neg hn] at hc
      rcases List.mem_append.mp hc with h | h
      · exact ih (n / 10) (Nat.div_lt_self (by omega) (by omega)) c h
      · exact ⟨n % 10, by omega, (List.mem_singleton.mp h).symm ▸ rfl⟩

theorem digitChar_not_bracket (d : Nat) (hd : d < 10) :
    digitChar d ≠ '[' ∧ digitChar d ≠ ']' := by
  interval_cases d <;> exact ⟨by decide, by decide⟩

/-! ### Token structure -/

theorem tokenChars_wf (tname : Chars) (n : Nat) (hb : brFree tname)
    (hu1 : '_' ≠ '[') (hu2 : '_' ≠ (']' : Char)) :
    wfTok (tokenChars tname n) := by
  refine ⟨tname ++ '_' :: natToChars n, rfl, ?_, ?_⟩
  · intro hmem
    rcases List.mem_append.mp hmem with h | h
    · exact hb.1 h
    · rcases List.mem_cons.mp h with h | h
      · exact hu1 h.symm
      · obtain ⟨d, hd, hEq⟩ := natToChars_shape n _ h
        exact (digitChar_not_bracket d hd).1 hEq.symm
  · intro hmem
    rcases List.mem_append.mp hmem with h | h
    · exact hb.2 h
    · rcases List.mem_cons.mp h with h | h
      · exact hu2 h.symm
      · obtain ⟨d, hd, hEq⟩ := natToChars_shape n _ h
        exact (digitChar_not_bracket d hd).2 hEq.symm

theorem tokenChars_inj_num {tname : Chars} {n m : Nat}
    (h : tokenChars tname n = tokenChars tname m) : n = m := by
  unfold tokenChars at h
  have h1 : (tname ++ '_' :: natToChars n) ++ [']'] =
      (tname ++ '_' :: natToChars m) ++ [']'] :=
    (List.cons.injEq _ _ _ _).mp h |>.2
  rw [List.append_assoc, List.append_assoc, List.cons_append, List.cons_append]
    at h1
  have h2 := List.append_cancel_left h1
  have h3 := (List.cons.injEq _ _ _ _).mp h2 |>.2
  have hlen : (natToChars n).length = (natToChars m).length := by
    have hl := congrArg List.length h3
    simp only [List.length_append, List.length_singleton] at hl
    omega
  exact natToChars_injective (List.append_inj_left h3 hlen)

theorem tokenChars_ne_head {c₁ c₂ : Char} {r₁ r₂ : Chars} (hc : c₁ ≠ c₂)
    (n m : Nat) : tokenChars (c₁ :: r₁) n ≠ tokenChars (c₂ :: r₂) m := by
  unfold tokenChars
  intro h
  have h1 : ((c₁ :: r₁) ++ '_' :: natToChars n) ++ [']'] =
      ((c₂ :: r₂) ++ '_' :: natToChars m) ++ [']'] :=
    (List.cons.injEq _ _ _ _).mp h |>.2
  have h2 := congrArg List.head? h1
  simp only [List.cons_append, List.head?] at h2
  exact hc (Option.some.injEq _ _ ▸ h2)

/-! ### Forward substitution: the splitter -/

theorem splitTokF_fuel (l t : Chars) (hl : l ≠ []) :
    ∀ f₁ f₂ s, s.length ≤ f₁ → s.length ≤ f₂ →
      splitTokF f₁ s l t = splitTokF f₂ s l t := by
  intro f₁
  induction f₁ with
  | zero =>
    intro f₂ s hs _
    have hnil : s = [] := List.length_eq_zero.mp (Nat.le_zero.mp hs)
    subst hnil
    cases f₂ <;> rfl
  | succ a ih =>
    intro f₂ s hs hs2
    cases s with
    | nil => cases f₂ <;> rfl
    | cons c cs =>
      cases f₂ with
      | zero => simp at hs2
      | succ b =>
        rw [splitTokF, splitTokF]
        by_cases hp : (pfx l (c :: cs) && decide (l ≠ [])) = true
        · rw [if_pos hp, if_pos hp]
          have h1 := patlen_pos hl
          have hlen : ((c :: cs).drop l.length).length ≤ a := by
            simp only [List.length_drop, List.length_cons]
            simp only [List.length_cons] at hs
            omega
          have hlen2 : ((c :: cs).drop l.length).length ≤ b := by
            simp only [List.length_drop, List.length_cons]
            simp only [List.length_cons] at hs2
            omega
          rw [ih b _ hlen hlen2]
        · rw [if_neg hp, if_neg hp]
          have hcs : cs.length ≤ a := by
            simp only [List.length_cons] at hs
            omega
          have hcs2 : cs.length ≤ b := by
            simp only [List.length_cons] at hs2
            omega
          rw [ih b cs hcs hcs2]

theorem splitTok_cons_skip {l : Chars} (t : Chars) (c : Char) (cs : Chars)
    (h : pfx l (c :: cs) = false) :
    splitTok (c :: cs) l t = consCh c (splitTok cs l t) := by
  show splitTokF (cs.length + 1) (c :: cs) l t = _
  rw [splitTokF, if_neg (by simp [h])]
  rfl

theorem splitTok_cons_hit {l : Chars} (hne : l ≠ []) (t : Chars) (c : Char)
    (cs : Chars) (h : pfx l (c :: cs) = true) :
    splitTok (c :: cs) l t =
      Seg.tk t :: splitTok ((c :: cs).drop l.length) l t := by
  show splitTokF (cs.length + 1) (c :: cs) l t = _
  rw [splitTokF, if_pos (by simp [h, hne])]
  congr 1
  apply splitTokF_fuel l t hne
  · have := patlen_pos hne
    simp only [List.length_drop, List.length_cons]
    omega
  · exact le_refl _

theorem restore_consCh (m : List (Chars × Chars)) (c : Char)
    (segs : List Seg) :
    restore m (consCh c segs) = c :: restore m segs := by
  cases segs with
  | nil => rfl
  | cons sg rest =>
    cases sg with
    | s cs => rfl
    | tk u => rfl

/-- Replacing the token back by the literal undoes the split. -/
theorem restore_splitTok (m : List (Chars × Chars)) (l t : Chars)
    (hlk : lookupAssoc m t = some l) (hl : l ≠ []) :
    ∀ n cs, cs.length ≤ n → restore m (splitTok cs l t) = cs := by
  intro n
  induction n with
  | zero =>
    intro cs hcs
    have hnil : cs = [] := List.length_eq_zero.mp (Nat.le_zero.mp hcs)
    subst hnil
    rfl
  | succ a ih =>
    intro cs hcs
    cases cs with
    | nil => rfl
    | cons c cs0 =>
      by_cases hp : pfx l (c :: cs0) = true
      · rw [splitTok_cons_hit hl t c cs0 hp, restore_cons]
        obtain ⟨tail, htail⟩ := (pfx_iff_exists l (c :: cs0)).mp hp
        have hdrop : (c :: cs0).drop l.length = tail := by
          rw [htail, List.drop_append_of_le_length (le_refl _)]
          simp
        rw [hdrop, ih tail ?htl]
        · show (lookupAssoc m t).getD t ++ tail = _
          rw [hlk]
          exact htail.symm ▸ rfl
        · have h1 := patlen_pos hl
          have := congrArg List.length htail
          simp only [List.length_cons, List.length_append] at this
          simp only [List.length_cons] at hcs
          omega
      · rw [splitTok_cons_skip t c cs0 (Bool.not_eq_true _ ▸ hp),
          restore_consCh, ih cs0 (by simp only [List.length_cons] at hcs; omega)]

/-- Every segment the splitter produces is the token or a run of characters
of the input. -/
theorem splitTok_shape (l t : Chars) (hl : l ≠ []) :
    ∀ n cs, cs.length ≤ n → ∀ sg ∈ splitTok cs l t,
      sg = Seg.tk t ∨ ∃ ds, sg = Seg.s ds ∧ ∀ x ∈ ds, x ∈ cs := by
  intro n
  induction n with
  | zero =>
    intro cs hcs sg hsg
    have hnil : cs = [] := List.length_eq_zero.mp (Nat.le_zero.mp hcs)
    subst hnil
    cases hsg
  | succ a ih =>
    intro cs hcs sg hsg
    cases cs with
    | nil => cases hsg
    | cons c cs0 =>
      by_cases hp : pfx l (c :: cs0) = true
      · rw [splitTok_cons_hit hl t c cs0 hp] at hsg
        rcases List.mem_cons.mp hsg with rfl | hmem
        · exact Or.inl rfl
        · obtain ⟨tail, htail⟩ := (pfx_iff_exists l (c :: cs0)).mp hp
          have hdrop : (c :: cs0).drop l.length = tail := by
            rw [htail, List.drop_append_of_le_length (le_refl _)]
            simp
          rw [hdrop] at hmem
          have hlen : tail.length ≤ a := by
            have h1 := patlen_pos hl
            have := congrArg List.length htail
            simp only [List.length_cons, List.length_append] at this
            simp only [List.length_cons] at hcs
            omega
          rcases ih tail hlen sg hmem with h | ⟨ds, rfl, hds⟩
          · exact Or.inl h
          · refine Or.inr ⟨ds, rfl, fun x hx => ?_⟩
            rw [htail]
            exact List.mem_append_right l (hds x hx)
      · rw [splitTok_cons_skip t c cs0 (Bool.not_eq_true _ ▸ hp)] at hsg
        have hrec := ih cs0 (by simp only [List.length_cons] at hcs; omega)
        cases hsplit : splitTok cs0 l t with
        | nil =>
          rw [hsplit] at hsg
          rcases List.mem_singleton.mp hsg with rfl
          refine Or.inr ⟨[c], rfl, fun x hx => ?_⟩
          rw [List.mem_singleton.mp hx]
          exact List.mem_cons_self c cs0
        | cons sg0 rest =>
          rw [hsplit] at hsg hrec
          cases sg0 with
          | s ds =>
            rcases List.mem_cons.mp hsg with rfl | hmem
            · refine Or.inr ⟨c :: ds, rfl, fun x hx => ?_⟩
              rcases List.mem_cons.mp hx with rfl | hx2
              · exact List.mem_cons_self _ _
              · rcases hrec (Seg.s ds) (List.mem_cons_self _ _) with h | ⟨ds', hds', hsub⟩
                · cases h
                · cases hds'
                  exact List.mem_cons_of_mem c (hsub x hx2)
            · rcases hrec sg (List.mem_cons_of_mem _ hmem) with h | ⟨ds', rfl, hsub⟩
              · exact Or.inl h
              · exact Or.inr ⟨ds', rfl, fun x hx =>
                  List.mem_cons_of_mem c (hsub x hx)⟩
          | tk u =>
            rcases List.mem_cons.mp hsg with rfl | hmem
            · refine Or.inr ⟨[c], rfl, fun x hx => ?_⟩
              rw [List.mem_singleton.mp hx]
              exact List.mem_cons_self c cs0
            · rcases hrec sg hmem with h | ⟨ds', rfl, hsub⟩
              · exact Or.inl h
              · exact Or.inr ⟨ds', rfl, fun x hx =>
                  List.mem_cons_of_mem c (hsub x hx)⟩

theorem restore_append (m : List (Chars × Chars)) (a b : List Seg) :
    restore m (a ++ b) = restore m a ++ restore m b := by
  unfold restore
  rw [List.flatMap_append]

theorem restore_substSegs (m : List (Chars × Chars)) (segs : List Seg)
    (l t : Chars) (hlk : lookupAssoc m t = some l) (hl : l ≠ []) :
    restore m (substSegs segs l t) = restore m segs := by
  induction segs with
  | nil => rfl
  | cons sg rest ih =>
    show restore m ((match sg with
      | .s cs => splitTok cs l t
      | .tk u => [.tk u]) ++ substSegs rest l t) = _
    rw [restore_append, ih, restore_cons]
    congr 1
    cases sg with
    | s cs => exact restore_splitTok m l t hlk hl cs.length cs (le_refl _)
    | tk u =>
      show restore m [Seg.tk u] = restoreSeg m (Seg.tk u)
      simp [restore]

theorem substSegs_wf {segs : List Seg} {l t : Chars} (hl : l ≠ [])
    (hw : ∀ sg ∈ segs, segWf sg) (ht : wfTok t) :
    ∀ sg ∈ substSegs segs l t, segWf sg := by
  intro sg hsg
  obtain ⟨sg0, hsg0, hmem⟩ := List.mem_flatMap.mp hsg
  have hwsg0 := hw sg0 hsg0
  cases sg0 with
  | s cs =>
    rcases splitTok_shape l t hl cs.length cs (le_refl _) sg hmem with
      rfl | ⟨ds, rfl, hsub⟩
    · exact ht
    · exact ⟨fun h => hwsg0.1 (hsub _ h), fun h => hwsg0.2 (hsub _ h)⟩
  | tk u =>
    rw [List.mem_singleton.mp hmem]
    exact hwsg0

theorem substSegs_tk {segs : List Seg} {l t u : Chars} (hl : l ≠ [])
    (h : Seg.tk u ∈ substSegs segs l t) : u = t ∨ Seg.tk u ∈ segs := by
  obtain ⟨sg0, hsg0, hmem⟩ := List.mem_flatMap.mp h
  cases sg0 with
  | s cs =>
    rcases splitTok_shape l t hl cs.length cs (le_refl _) _ hmem with
      heq | ⟨ds, heq, -⟩
    · exact Or.inl (Seg.tk.injEq u t ▸ heq ▸ rfl)
    · cases heq
  | tk v =>
    rw [List.mem_singleton.mp hmem]
    exact Or.inr hsg0

theorem findAllFrom_succ (fuel : Nat) (r : RE) (prev : Option Char)
    (s : Chars) :
    findAllFrom (fuel + 1) r prev s =
      match matchHere r prev s with
      | some k =>
        if k = 0 then
          match s with
          | [] => [[]]
          | c :: cs => [] :: findAllFrom fuel r (some c) cs
        else s.take k :: findAllFrom fuel r (s.take k).getLast? (s.drop k)
      | none =>
        match s with
        | [] => []
        | c :: cs => findAllFrom fuel r (some c) cs := rfl

theorem findAllFrom_sub (r : RE) :
    ∀ fuel prev s, ∀ mtch ∈ findAllFrom fuel r prev s, ∀ c ∈ mtch, c ∈ s := by
  intro fuel
  induction fuel with
  | zero => intro prev s mtch hm; cases hm
  | succ a ih =>
    intro prev s mtch hm c hc
    rw [findAllFrom_succ] at hm
    cases s with
    | nil =>
      split at hm
      · rename_i k hk
        by_cases hk0 : k = 0
        · rw [if_pos hk0] at hm
          rcases List.mem_singleton.mp hm with rfl
          cases hc
        · rw [if_neg hk0, List.take_nil, List.drop_nil] at hm
          rcases List.mem_cons.mp hm with rfl | hmem
          · cases hc
          · exact ih _ _ mtch hmem c hc
      · cases hm
    | cons d ds =>
      split at hm
      · rename_i k hk
        by_cases hk0 : k = 0
        · rw [if_pos hk0] at hm
          rcases List.mem_cons.mp hm with rfl | hmem
          · cases hc
          · exact List.mem_cons_of_mem d (ih (some d) ds mtch hmem c hc)
        · rw [if_neg hk0] at hm
          rcases List.mem_cons.mp hm with rfl | hmem
          · exact List.take_subset k (d :: ds) hc
          · exact List.drop_subset k (d :: ds) (ih _ _ mtch hmem c hc)
      · exact List.mem_cons_of_mem d (ih (some d) ds mtch hm c hc)

theorem findAll_sub (r : RE) (s : Chars) :
    ∀ mtch ∈ findAll r s, ∀ c ∈ mtch, c ∈ s :=
  findAllFrom_sub r (s.length + 1) none s

theorem dedupGo_sub {α : Type} [DecidableEq α] :
    ∀ (seen xs : List α), ∀ y ∈ dedupGo seen xs, y ∈ xs := by
  intro seen xs
  induction xs generalizing seen with
  | nil => intro y hy; cases hy
  | cons x xs0 ih =>
    intro y hy
    rw [dedupGo] at hy
    by_cases hx : seen.contains x
    · rw [if_pos hx] at hy
      exact List.mem_cons_of_mem x (ih seen y hy)
    · rw [if_neg hx] at hy
      rcases List.mem_cons.mp hy with rfl | hmem
      · exact List.mem_cons_self _ _
      · exact List.mem_cons_of_mem x (ih (x :: seen) y hmem)

theorem dedupFirst_sub {α : Type} [DecidableEq α] (xs : List α) :
    ∀ y ∈ dedupFirst xs, y ∈ xs :=
  dedupGo_sub [] xs

theorem lookupAssoc_append_left {m m₂ : List (Chars × Chars)} {t : Chars}
    (h : t ∈ m.map Prod.fst) :
    lookupAssoc (m ++ m₂) t = lookupAssoc m t := by
  induction m with
  | nil => cases h
  | cons p rest ih =>
    rw [List.cons_append, lookupAssoc, lookupAssoc]
    by_cases hp : p.1 = t
    · rw [if_pos hp, if_pos hp]
    · rw [if_neg hp, if_neg hp]
      rcases List.mem_map.mp h with ⟨q, hq, hqt⟩
      rcases List.mem_cons.mp hq with rfl | hq2
      · exact absurd hqt hp
      · exact ih (List.mem_map.mpr ⟨q, hq2, hqt⟩)

theorem restore_extend (m m₂ : List (Chars × Chars)) (segs : List Seg)
    (hcov : ∀ t, Seg.tk t ∈ segs → t ∈ m.map Prod.fst) :
    restore (m ++ m₂) segs = restore m segs := by
  induction segs with
  | nil => rfl
  | cons sg rest ih =>
    rw [restore_cons, restore_cons,
      ih fun t ht => hcov t (List.mem_cons_of_mem sg ht)]
    congr 1
    cases sg with
    | s cs => rfl
    | tk u =>
      show (lookupAssoc (m ++ m₂) u).getD u = (lookupAssoc m u).getD u
      rw [lookupAssoc_append_left (hcov u (List.mem_cons_self _ _))]

theorem splitTok_nil_lit (t : Chars) :
    ∀ cs, splitTok cs [] t = if cs = [] then [] else [Seg.s cs] := by
  intro cs
  induction cs with
  | nil => rfl
  | cons c cs0 ih =>
    rw [if_neg (by simp)]
    show splitTokF (cs0.length + 1) (c :: cs0) [] t = _
    rw [splitTokF, if_neg (by simp)]
    show consCh c (splitTok cs0 [] t) = _
    rw [ih]
    by_cases h0 : cs0 = []
    · rw [if_pos h0, h0]
      rfl
    · rw [if_neg h0]
      rfl

theorem restore_substSegs2 (m : List (Chars × Chars)) (segs : List Seg)
    (l t : Chars) (h : lookupAssoc m t = some l ∨ l = []) :
    restore m (substSegs segs l t) = restore m segs := by
  rcases h with h | rfl
  · by_cases hl : l = []
    · subst hl
      induction segs with
      | nil => rfl
      | cons sg rest ih =>
        show restore m ((match sg with
          | .s cs => splitTok cs [] t
          | .tk u => [.tk u]) ++ substSegs rest [] t) = _
        rw [restore_append, ih, restore_cons]
        congr 1
        cases sg with
        | s cs =>
          show restore m (splitTok cs [] t) = restoreSeg m (Seg.s cs)
          rw [splitTok_nil_lit]
          by_cases h0 : cs = []
          · rw [if_pos h0, h0]
            rfl
          · rw [if_neg h0]
            show cs ++ [] = cs
            simp
        | tk u =>
          show restore m [Seg.tk u] = restoreSeg m (Seg.tk u)
          simp [restore]
    · exact restore_substSegs m segs l t h hl
  · induction segs with
    | nil => rfl
    | cons sg rest ih =>
      show restore m ((match sg with
        | .s cs => splitTok cs [] t
        | .tk u => [.tk u]) ++ substSegs rest [] t) = _
      rw [restore_append, ih, restore_cons]
      congr 1
      cases sg with
      | s cs =>
        show restore m (splitTok cs [] t) = restoreSeg m (Seg.s cs)
        rw [splitTok_nil_lit]
        by_cases h0 : cs = []
        · rw [if_pos h0, h0]
          rfl
        · rw [if_neg h0]
          show cs ++ [] = cs
          simp
      | tk u =>
        show restore m [Seg.tk u] = restoreSeg m (Seg.tk u)
        simp [restore]

theorem substSegs_wf2 {segs : List Seg} {l t : Chars}
    (hw : ∀ sg ∈ segs, segWf sg) (ht : wfTok t) :
    ∀ sg ∈ substSegs segs l t, segWf sg := by
  by_cases hl : l = []
  · subst hl
    intro sg hsg
    obtain ⟨sg0, hsg0, hmem⟩ := List.mem_flatMap.mp hsg
    have hwsg0 := hw sg0 hsg0
    cases sg0 with
    | s cs =>
      have hmem2 : sg ∈ splitTok cs [] t := hmem
      rw [splitTok_nil_lit] at hmem2
      by_cases h0 : cs = []
      · rw [if_pos h0] at hmem2
        cases hmem2
      · rw [if_neg h0] at hmem2
        rw [List.mem_singleton.mp hmem2]
        exact hwsg0
    | tk u =>
      rw [List.mem_singleton.mp hmem]
      exact hwsg0
  · exact substSegs_wf hl hw ht

theorem substSegs_tk2 {segs : List Seg} {l t u : Chars}
    (h : Seg.tk u ∈ substSegs segs l t) : u = t ∨ Seg.tk u ∈ segs := by
  by_cases hl : l = []
  · subst hl
    obtain ⟨sg0, hsg0, hmem⟩ := List.mem_flatMap.mp h
    cases sg0 with
    | s cs =>
      have hmem2 : Seg.tk u ∈ splitTok cs [] t := hmem
      rw [splitTok_nil_lit] at hmem2
      by_cases h0 : cs = []
      · rw [if_pos h0] at hmem2
        cases hmem2
      · rw [if_neg h0] at hmem2
        cases List.mem_singleton.mp hmem2
    | tk v =>
      rw [List.mem_singleton.mp hmem]
      exact Or.inr hsg0
  · exact substSegs_tk hl h

theorem lookupAssoc_append_not (m : List (Chars × Chars)) (t : Chars)
    (h : ∀ k ∈ m.map Prod.fst, k ≠ t) (m₂ : List (Chars × Chars)) :
    lookupAssoc (m ++ m₂) t = lookupAssoc m₂ t := by
  induction m with
  | nil => rfl
  | cons p rest ih =>
    rw [List.cons_append, lookupAssoc,
      if_neg (h p.1 (List.mem_map.mpr ⟨p, List.mem_cons_self _ _, rfl⟩)),
      ih fun k hk => h k (List.map_cons _ p rest ▸ List.mem_cons_of_mem _ hk)]

theorem substLits_inv (tname x : Chars) (hname : brFree tname) :
    ∀ (lits : List Chars) (n : Nat) (segs : List Seg)
      (m : List (Chars × Chars)),
      (∀ sg ∈ segs, segWf sg) →
      (∀ p ∈ m, wfTok p.1 ∧ brFree p.2) →
      (∀ t, Seg.tk t ∈ segs → t ∈ m.map Prod.fst) →
      restore m segs = x →
      (∀ k ∈ m.map Prod.fst, ∀ j : Nat, n ≤ j → k ≠ tokenChars tname j) →
      (∀ l ∈ lits, brFree l) →
      (∀ sg ∈ (substLits tname n lits segs).1, segWf sg) ∧
      (∀ p ∈ (substLits tname n lits segs).2, wfTok p.1 ∧ brFree p.2 ∧
        ∃ j, n ≤ j ∧ p.1 = tokenChars tname j) ∧
      (∀ t, Seg.tk t ∈ (substLits tname n lits segs).1 →
        t ∈ (m ++ (substLits tname n lits segs).2).map Prod.fst) ∧
      restore (m ++ (substLits tname n lits segs).2)
        (substLits tname n lits segs).1 = x := by
  intro lits
  induction lits with
  | nil =>
    intro n segs m hw hm hcov hres hfr hlits
    refine ⟨hw, fun p hp => absurd hp (List.not_mem_nil p), ?_, ?_⟩
    · intro t ht
      show t ∈ (m ++ ([] : List (Chars × Chars))).map Prod.fst
      rw [List.append_nil]
      exact hcov t ht
    · show restore (m ++ ([] : List (Chars × Chars))) segs = x
      rw [List.append_nil]
      exact hres
  | cons l ls ih =>
    intro n segs m hw hm hcov hres hfr hlits
    have hwt : wfTok (tokenChars tname n) :=
      tokenChars_wf tname n hname (by decide) (by decide)
    have hl : brFree l := hlits l (List.mem_cons_self _ _)
    have hfr_n : ∀ k ∈ m.map Prod.fst, k ≠ tokenChars tname n :=
      fun k hk => hfr k hk n (le_refl n)
    have hw1 : ∀ sg ∈ substSegs segs l (tokenChars tname n), segWf sg :=
      substSegs_wf2 hw hwt
    have hm1 : ∀ p ∈ m ++ [(tokenChars tname n, l)], wfTok p.1 ∧ brFree p.2 := by
      intro p hp
      rcases List.mem_append.mp hp with h | h
      · exact hm p h
      · rw [List.mem_singleton.mp h]
        exact ⟨hwt, hl⟩
    have hcov1 : ∀ t, Seg.tk t ∈ substSegs segs l (tokenChars tname n) →
        t ∈ (m ++ [(tokenChars tname n, l)]).map Prod.fst := by
      intro t ht
      rcases substSegs_tk2 ht with rfl | hmem
      · rw [List.map_append]
        exact List.mem_append_right _ (List.mem_singleton.mpr rfl)
      · rw [List.map_append]
        exact List.mem_append_left _ (hcov t hmem)
    have hlook : lookupAssoc (m ++ [(tokenChars tname n, l)])
        (tokenChars tname n) = some l := by
      rw [lookupAssoc_append_not m _ hfr_n, lookupAssoc, if_pos rfl]
    have hres1 : restore (m ++ [(tokenChars tname n, l)])
        (substSegs segs l (tokenChars tname n)) = x := by
      rw [restore_substSegs2 _ _ _ _ (Or.inl hlook),
        restore_extend m _ segs hcov, hres]
    have hfr1 : ∀ k ∈ (m ++ [(tokenChars tname n, l)]).map Prod.fst,
        ∀ j : Nat, n + 1 ≤ j → k ≠ tokenChars tname j := by
      intro k hk j hj
      rw [List.map_append] at hk
      rcases List.mem_append.mp hk with h | h
      · exact hfr k h j (by omega)
      · rw [List.mem_singleton.mp h]
        intro hEq
        have := tokenChars_inj_num hEq
        omega
    have hls : ∀ q ∈ ls, brFree q :=
      fun q hq => hlits q (List.mem_cons_of_mem l hq)
    obtain ⟨A, B, C, D⟩ := ih (n + 1) (substSegs segs l (tokenChars tname n))
      (m ++ [(tokenChars tname n, l)]) hw1 hm1 hcov1 hres1 hfr1 hls
    have hassoc : (m ++ [(tokenChars tname n, l)]) ++
        (substLits tname (n + 1) ls (substSegs segs l (tokenChars tname n))).2 =
        m ++ (tokenChars tname n, l) ::
          (substLits tname (n + 1) ls (substSegs segs l (tokenChars tname n))).2 := by
      rw [List.append_assoc]
      rfl
    refine ⟨A, ?_, ?_, ?_⟩
    · intro p hp
      rcases List.mem_cons.mp hp with rfl | hmem
      · exact ⟨hwt, hl, n, le_refl n, rfl⟩
      · obtain ⟨w1, w2, j, hj, hEq⟩ := B p hmem
        exact ⟨w1, w2, j, by omega, hEq⟩
    · intro t ht
      have := C t ht
      rw [hassoc] at this
      exact this
    · have := D
      rw [hassoc] at this
      exact this

theorem segFind_brFree {pat : RE} {segs : List Seg}
    (hw : ∀ sg ∈ segs, segWf sg) :
    ∀ l ∈ segFind pat segs, brFree l := by
  intro l hl
  obtain ⟨sg, hsg, hmem⟩ := List.mem_flatMap.mp hl
  cases sg with
  | tk t => cases hmem
  | s cs =>
    have hb : brFree cs := hw _ hsg
    have hsub := findAll_sub pat cs l hmem
    exact ⟨fun h => hb.1 (hsub _ h), fun h => hb.2 (hsub _ h)⟩

/-- One PII-type pass of `pseudonymize_pii` preserves the scan invariant:
well-formed segments, well-formed map pairs covering every token slot,
`restore` recovering the original text, and every new map key being a
fresh token of this type. -/
theorem pseudoStep_inv (pat : RE) (tname : String) (x : Chars)
    (hname : brFree (strChars tname))
    (st : List Seg × List PiiDetection × List (Chars × Chars))
    (hw : ∀ sg ∈ st.1, segWf sg)
    (hm : ∀ p ∈ st.2.2, wfTok p.1 ∧ brFree p.2)
    (hcov : ∀ t, Seg.tk t ∈ st.1 → t ∈ st.2.2.map Prod.fst)
    (hres : restore st.2.2 st.1 = x)
    (hfr : ∀ k ∈ st.2.2.map Prod.fst, ∀ j : Nat,
      k ≠ tokenChars (strChars tname) j) :
    (∀ sg ∈ (pseudoStep st (pat, tname)).1, segWf sg) ∧
    (∀ p ∈ (pseudoStep st (pat, tname)).2.2, wfTok p.1 ∧ brFree p.2) ∧
    (∀ t, Seg.tk t ∈ (pseudoStep st (pat, tname)).1 →
      t ∈ (pseudoStep st (pat, tname)).2.2.map Prod.fst) ∧
    restore (pseudoStep st (pat, tname)).2.2 (pseudoStep st (pat, tname)).1
      = x ∧
    (∀ k ∈ (pseudoStep st (pat, tname)).2.2.map Prod.fst,
      (∃ j : Nat, k = tokenChars (strChars tname) j) ∨
        k ∈ st.2.2.map Prod.fst) := by
  have hlits : ∀ l ∈ dedupFirst (segFind pat st.1), brFree l :=
    fun l hl => segFind_brFree hw l (dedupFirst_sub _ l hl)
  have hfr1 : ∀ k ∈ st.2.2.map Prod.fst, ∀ j : Nat, 1 ≤ j →
      k ≠ tokenChars (strChars tname) j :=
    fun k hk j _ => hfr k hk j
  obtain ⟨A, B, C, D⟩ := substLits_inv (strChars tname) x hname
    (dedupFirst (segFind pat st.1)) 1 st.1 st.2.2 hw hm hcov hres hfr1 hlits
  refine ⟨A, ?_, ?_, D, ?_⟩
  · intro p hp
    rcases List.mem_append.mp hp with h | h
    · exact hm p h
    · obtain ⟨w1, w2, -⟩ := B p h
      exact ⟨w1, w2⟩
  · intro t ht
    have h2 := C t ht
    show t ∈ List.map Prod.fst (st.2.2 ++
      (substLits (strChars tname) 1 (dedupFirst (segFind pat st.1)) st.1).2)
    exact h2
  · intro k hk
    have hk2 : k ∈ List.map Prod.fst (st.2.2 ++
        (substLits (strChars tname) 1 (dedupFirst (segFind pat st.1)) st.1).2) :=
      hk
    rw [List.map_append] at hk2
    rcases List.mem_append.mp hk2 with h | h
    · exact Or.inr h
    · obtain ⟨p, hp, rfl⟩ := List.mem_map.mp h
      obtain ⟨-, -, j, -, hEq⟩ := B p hp
      exact Or.inl ⟨j, hEq⟩

theorem tokenChars_ne_of_head {a b : Chars} (h1 : a.head?.isSome = true)
    (h2 : b.head?.isSome = true) (h : a.head? ≠ b.head?) (n m : Nat) :
    tokenChars a n ≠ tokenChars b m := by
  cases a with
  | nil => simp at h1
  | cons c₁ r₁ =>
    cases b with
    | nil => simp at h2
    | cons c₂ r₂ =>
      refine tokenChars_ne_head (fun hc => h ?_) n m
      simp [hc]

/-- Folding the per-type pass over a list of PII specs with pairwise-fresh
token names keeps the invariant; in particular `restore` of the final map
over the final segments still yields the original text. -/
theorem foldSpecs_inv (x : Chars) :
    ∀ (specs : List (RE × String))
      (st : List Seg × List PiiDetection × List (Chars × Chars)),
      (∀ s ∈ specs, brFree (strChars s.2)) →
      List.Pairwise (fun a b : RE × String => ∀ j j' : Nat,
        tokenChars (strChars a.2) j ≠ tokenChars (strChars b.2) j') specs →
      (∀ sg ∈ st.1, segWf sg) →
      (∀ p ∈ st.2.2, wfTok p.1 ∧ brFree p.2) →
      (∀ t, Seg.tk t ∈ st.1 → t ∈ st.2.2.map Prod.fst) →
      restore st.2.2 st.1 = x →
      (∀ k ∈ st.2.2.map Prod.fst, ∀ s ∈ specs, ∀ j : Nat,
        k ≠ tokenChars (strChars s.2) j) →
      (∀ sg ∈ (specs.foldl pseudoStep st).1, segWf sg) ∧
      (∀ p ∈ (specs.foldl pseudoStep st).2.2, wfTok p.1 ∧ brFree p.2) ∧
      restore (specs.foldl pseudoStep st).2.2 (specs.foldl pseudoStep st).1
        = x := by
  intro specs
  induction specs with
  | nil =>
    intro st _ _ hw hm _ hres _
    exact ⟨hw, hm, hres⟩
  | cons sp rest ih =>
    intro st hb hP hw hm hcov hres hfr
    obtain ⟨pat, tname⟩ := sp
    obtain ⟨hPhd, hPtl⟩ := List.pairwise_cons.mp hP
    obtain ⟨A, B, C, D, E⟩ := pseudoStep_inv pat tname x
      (hb (pat, tname) (List.mem_cons_self _ _)) st hw hm hcov hres
      (fun k hk j => hfr k hk (pat, tname) (List.mem_cons_self _ _) j)
    have hfr1 : ∀ k ∈ (pseudoStep st (pat, tname)).2.2.map Prod.fst,
        ∀ s ∈ rest, ∀ j : Nat, k ≠ tokenChars (strChars s.2) j := by
      intro k hk s hs j
      rcases E k hk with ⟨j₀, rfl⟩ | hold
      · exact hPhd s hs j₀ j
      · exact hfr k hold s (List.mem_cons_of_mem _ hs) j
    have hb1 : ∀ s ∈ rest, brFree (strChars s.2) :=
      fun s hs => hb s (List.mem_cons_of_mem _ hs)
    have := ih (pseudoStep st (pat, tname)) hb1 hPtl A B C D hfr1
    rw [List.foldl_cons]
    exact this

/-- C1.  Counterexample to the unconditional claim
`depseudo(pseudo(x).text, pseudo(x).map) = x`: an input that already
contains token-shaped text `[SSN_1]` collides with the freshly allocated
token for its SSN literal, so de-pseudonymization rewrites both
occurrences and the round trip is not the identity. -/
theorem c1_counterexample :
    depseudonymize (pseudonymize_pii (strChars "[SSN_1] 123-45-6789")).1
        (pseudonymize_pii (strChars "[SSN_1] 123-45-6789")).2.2 ≠
      strChars "[SSN_1] 123-45-6789" := by
  decide

theorem pseudonymize_pii_fst (x : Chars) :
    (pseudonymize_pii x).1 =
      flattenSegs (PII_TYPE_SPECS.foldl pseudoStep ([Seg.s x], [], [])).1 := by
  simp only [pseudonymize_pii]

theorem pseudonymize_pii_map (x : Chars) :
    (pseudonymize_pii x).2.2 =
      (PII_TYPE_SPECS.foldl pseudoStep ([Seg.s x], [], [])).2.2 := by
  simp only [pseudonymize_pii]

/-- C1 (amended).  For every input free of the token delimiters `[` and
`]`, Sentinel pseudonymization followed by de-pseudonymization is the
identity: every distinct PII literal is replaced by a fresh opaque token
`[<TYPE>_<n>]` recorded in `pii_map`, and replacing each token of the
returned map by its literal (in insertion order, as `parallel_llm.py`
does) restores the original text exactly. -/
theorem c1_pseudonymize_roundtrip (x : Chars)
    (hx1 : '[' ∉ x) (hx2 : ']' ∉ x) :
    depseudonymize (pseudonymize_pii x).1 (pseudonymize_pii x).2.2 = x := by
  have hb : ∀ s ∈ PII_TYPE_SPECS, brFree (strChars s.2) := by
    intro s hs
    simp only [PII_TYPE_SPECS, List.mem_cons, List.not_mem_nil, or_false]
      at hs
    rcases hs with rfl | rfl | rfl | rfl | rfl | rfl <;>
      exact ⟨by decide, by decide⟩
  have hP : List.Pairwise (fun a b : RE × String => ∀ j j' : Nat,
      tokenChars (strChars a.2) j ≠ tokenChars (strChars b.2) j')
      PII_TYPE_SPECS := by
    refine List.Pairwise.cons ?_ (List.Pairwise.cons ?_ (List.Pairwise.cons ?_
      (List.Pairwise.cons ?_ (List.Pairwise.cons ?_ (List.Pairwise.cons
        (fun b hb => absurd hb (List.not_mem_nil b)) List.Pairwise.nil)))))
    · intro b hmem
      simp only [List.mem_cons, List.not_mem_nil, or_false] at hmem
      rcases hmem with rfl | rfl | rfl | rfl | rfl <;>
        exact fun j j' =>
          tokenChars_ne_of_head (by decide) (by decide) (by decide) j j'
    · intro b hmem
      simp only [List.mem_cons, List.not_mem_nil, or_false] at hmem
      rcases hmem with rfl | rfl | rfl | rfl <;>
        exact fun j j' =>
          tokenChars_ne_of_head (by decide) (by decide) (by decide) j j'
    · intro b hmem
      simp only [List.mem_cons, List.not_mem_nil, or_false] at hmem
      rcases hmem with rfl | rfl | rfl <;>
        exact fun j j' =>
          tokenChars_ne_of_head (by decide) (by decide) (by decide) j j'
    · intro b hmem
      simp only [List.mem_cons, List.not_mem_nil, or_false] at hmem
      rcases hmem with rfl | rfl <;>
        exact fun j j' =>
          tokenChars_ne_of_head (by decide) (by decide) (by decide) j j'
    · intro b hmem
      simp only [List.mem_cons, List.not_mem_nil, or_false] at hmem
      rcases hmem with rfl
      exact fun j j' =>
        tokenChars_ne_of_head (by decide) (by decide) (by decide) j j'
  have hw0 : ∀ sg ∈ [Seg.s x], segWf sg := by
    intro sg hsg
    rw [List.mem_singleton.mp hsg]
    exact ⟨hx1, hx2⟩
  have hm0 : ∀ p ∈ ([] : List (Chars × Chars)), wfTok p.1 ∧ brFree p.2 :=
    fun p hp => absurd hp (List.not_mem_nil p)
  have hcov0 : ∀ t, Seg.tk t ∈ [Seg.s x] →
      t ∈ ([] : List (Chars × Chars)).map Prod.fst :=
    fun t ht => Seg.noConfusion (List.mem_singleton.mp ht)
  have hres0 : restore [] [Seg.s x] = x := by
    show x ++ [] = x
    exact List.append_nil x
  have hfr0 : ∀ k ∈ ([] : List (Chars × Chars)).map Prod.fst,
      ∀ s ∈ PII_TYPE_SPECS, ∀ j : Nat, k ≠ tokenChars (strChars s.2) j :=
    fun k hk => absurd hk (List.not_mem_nil k)
  obtain ⟨A, B, D⟩ := foldSpecs_inv x PII_TYPE_SPECS ([Seg.s x], [], [])
    hb hP hw0 hm0 hcov0 hres0 hfr0
  rw [pseudonymize_pii_fst, pseudonymize_pii_map,
    depseudo_restore _ _ A B, D]

theorem c1_pseudonymize_roundtrip_witness :
    '[' ∉ strChars "My SSN is 123-45-6789 and my email is jo@acme.io" ∧
    ']' ∉ strChars "My SSN is 123-45-6789 and my email is jo@acme.io" ∧
    depseudonymize
        (pseudonymize_pii
          (strChars "My SSN is 123-45-6789 and my email is jo@acme.io")).1
        (pseudonymize_pii
          (strChars "My SSN is 123-45-6789 and my email is jo@acme.io")).2.2 =
      strChars "My SSN is 123-45-6789 and my email is jo@acme.io" :=
  ⟨by decide, by decide,
    c1_pseudonymize_roundtrip _ (by decide) (by decide)⟩

/-- C5.  Counterexample to the unconditional claim that decode inverts
encode: a dict whose key is already one of the short codes (here `p`) is
left alone by `to_toon` but expanded to `prompt` by `from_toon`, so the
round trip is not the identity. -/
theorem c5_counterexample :
    from_toon (to_toon (.jsIn (.obj [(strChars "p", .num 1)]))) ≠
      .js (.obj [(strChars "p", .num 1)]) := by
  decide

/-! ## A safe class for the TOON round trip

The decoder's three textual passes and the unquoted-key encoding are not
injective on arbitrary values: `~`, lone `T`/`F`, `{`/`,` inside strings,
non-word or short-code keys all collide with the transport encoding.  The
predicate below carves out the values on which the round trip is exact. -/

def safeChar (c : Char) : Bool :=
  32 ≤ c.toNat && c.toNat ≤ 126 && c ≠ '~' && c ≠ 'T' && c ≠ 'F' &&
  c ≠ dqC && c ≠ bslC && c ≠ lbrC && c ≠ ','

def safeKeyChar (c : Char) : Bool := isWordChar c && c ≠ 'T' && c ≠ 'F'

def safeKey (k : Chars) : Bool :=
  !k.isEmpty && k.all safeKeyChar && (lookupAssoc KEY_EXPANSIONS k).isNone

def nodupKeys : List (Chars × Json) → Bool
  | [] => true
  | kv :: fs => !((fs.map Prod.fst).contains kv.1) && nodupKeys fs

mutual

def safeJson : Json → Bool
  | .null => true
  | .bool _ => true
  | .num _ => true
  | .str s => s.all safeChar
  | .arr xs => safeJsonList xs
  | .obj fs => nodupKeys fs && safeJsonFields fs

def safeJsonList : List Json → Bool
  | [] => true
  | x :: xs => safeJson x && safeJsonList xs

def safeJsonFields : List (Chars × Json) → Bool
  | [] => true
  | kv :: fs => safeKey kv.1 && safeJson kv.2 && safeJsonFields fs

end

mutual

/-- The value with every dict key abbreviated, as the compact text encodes
it. -/
def abbrevJson : Json → Json
  | .null => .null
  | .bool b => .bool b
  | .num n => .num n
  | .str s => .str s
  | .arr xs => .arr (abbrevJsonList xs)
  | .obj fs => .obj (abbrevJsonFields fs)

def abbrevJsonList : List Json → List Json
  | [] => []
  | x :: xs => abbrevJson x :: abbrevJsonList xs

def abbrevJsonFields : List (Chars × Json) → List (Chars × Json)
  | [] => []
  | kv :: fs => (abbrevKey kv.1, abbrevJson kv.2) :: abbrevJsonFields fs

end

mutual

/-- The compact text after the `~ -> null` pass. -/
def cv1 : Json → Chars
  | .null => strChars "null"
  | .bool true => ['T']
  | .bool false => ['F']
  | .num n => intToChars n
  | .str s => dqC :: toonEscape s ++ [dqC]
  | .arr xs => '[' :: joinComma (cv1List xs) ++ [']']
  | .obj fs => lbrC :: joinComma (cv1Fields fs) ++ [rbrC]

def cv1List : List Json → List Chars
  | [] => []
  | x :: xs => cv1 x :: cv1List xs

def cv1Fields : List (Chars × Json) → List Chars
  | [] => []
  | kv :: fs => (abbrevKey kv.1 ++ ':' :: cv1 kv.2) :: cv1Fields fs

end

mutual

/-- The compact text after the `~`, `T` and `F` passes. -/
def cv2 : Json → Chars
  | .null => strChars "null"
  | .bool true => strChars "true"
  | .bool false => strChars "false"
  | .num n => intToChars n
  | .str s => dqC :: toonEscape s ++ [dqC]
  | .arr xs => '[' :: joinComma (cv2List xs) ++ [']']
  | .obj fs => lbrC :: joinComma (cv2Fields fs) ++ [rbrC]

def cv2List : List Json → List Chars
  | [] => []
  | x :: xs => cv2 x :: cv2List xs

def cv2Fields : List (Chars × Json) → List Chars
  | [] => []
  | kv :: fs => (abbrevKey kv.1 ++ ':' :: cv2 kv.2) :: cv2Fields fs

end

/-! ### Character facts for the safe class -/

theorem safeChar_spec {c : Char} (h : safeChar c = true) :
    c ≠ '~' ∧ c ≠ 'T' ∧ c ≠ 'F' ∧ c ≠ dqC ∧ c ≠ bslC ∧ c ≠ lbrC ∧ c ≠ ',' := by
  unfold safeChar at h
  simp only [Bool.and_eq_true, decide_eq_true_eq] at h
  exact ⟨h.1.1.1.1.1.1.2, h.1.1.1.1.1.2, h.1.1.1.1.2, h.1.1.1.2, h.1.1.2,
    h.1.2, h.2⟩

theorem safeKeyChar_spec {c : Char} (h : safeKeyChar c = true) :
    isWordChar c = true ∧ c ≠ 'T' ∧ c ≠ 'F' := by
  unfold safeKeyChar at h
  simp only [Bool.and_eq_true, decide_eq_true_eq] at h
  exact ⟨h.1.1, h.1.2, h.2⟩

theorem word_ne_tilde {c : Char} (h : isWordChar c = true) : c ≠ '~' :=
  fun hc => by subst hc; exact absurd h (by decide)

theorem word_ne_bsl {c : Char} (h : isWordChar c = true) : c ≠ bslC :=
  fun hc => by subst hc; exact absurd h (by decide)

theorem word_ne_dq {c : Char} (h : isWordChar c = true) : c ≠ dqC :=
  fun hc => by subst hc; exact absurd h (by decide)

theorem word_ne_lbr {c : Char} (h : isWordChar c = true) : c ≠ lbrC :=
  fun hc => by subst hc; exact absurd h (by decide)

theorem word_ne_comma {c : Char} (h : isWordChar c = true) : c ≠ ',' :=
  fun hc => by subst hc; exact absurd h (by decide)

theorem word_ne_colon {c : Char} (h : isWordChar c = true) : c ≠ ':' :=
  fun hc => by subst hc; exact absurd h (by decide)

theorem digit_isWord {c : Char} (h : isDigitChar c = true) :
    isWordChar c = true := by
  unfold isDigitChar at h
  unfold isWordChar
  rw [h]
  simp

theorem digitChar_isDigit (d : Nat) (hd : d < 10) :
    isDigitChar (digitChar d) = true := by
  interval_cases d <;> decide

theorem intToChars_shape (i : ℤ) :
    ∀ c ∈ intToChars i, c = '-' ∨ isDigitChar c = true := by
  intro c hc
  unfold intToChars at hc
  have digits : ∀ n : Nat, c ∈ natToChars n → c = '-' ∨ isDigitChar c = true := by
    intro n hn
    obtain ⟨d, hd, rfl⟩ := natToChars_shape n c hn
    exact Or.inr (digitChar_isDigit d hd)
  by_cases hneg : i < 0
  · rw [if_pos hneg] at hc
    rcases List.mem_cons.mp hc with rfl | h
    · exact Or.inl rfl
    · exact digits _ h
  · rw [if_neg hneg] at hc
    exact digits _ hc

theorem toonEscape_id {s : Chars} (h : ∀ c ∈ s, c ≠ dqC ∧ c ≠ bslC) :
    toonEscape s = s := by
  induction s with
  | nil => rfl
  | cons c rest ih =>
    obtain ⟨h1, h2⟩ := h c (List.mem_cons_self _ _)
    show (if c = bslC then [bslC, bslC]
      else if c = dqC then [bslC, dqC] else [c]) ++ toonEscape rest = c :: rest
    rw [if_neg h2, if_neg h1, ih fun d hd => h d (List.mem_cons_of_mem c hd)]
    rfl

theorem not_isEmpty_ne_nil {l : Chars} (h : l.isEmpty = false) : l ≠ [] := by
  cases l with
  | nil => simp at h
  | cons c r => simp

theorem lookupAssoc_mem : ∀ {t : List (Chars × Chars)} {k s : Chars},
    lookupAssoc t k = some s → (k, s) ∈ t := by
  intro t
  induction t with
  | nil => intro k s h; cases h
  | cons kv rest ih =>
    intro k s h
    rw [lookupAssoc] at h
    by_cases hk : kv.1 = k
    · rw [if_pos hk] at h
      have hs : kv.2 = s := Option.some.inj h
      have : kv = (k, s) := Prod.ext hk hs
      rw [← this]
      exact List.mem_cons_self _ _
    · exact List.mem_cons_of_mem _ (ih (by rwa [if_neg hk] at h))

theorem abbrevKey_safe {k : Chars} (hk : safeKey k = true) :
    abbrevKey k ≠ [] ∧ ∀ c ∈ abbrevKey k, safeKeyChar c = true := by
  unfold safeKey at hk
  simp only [Bool.and_eq_true, Bool.not_eq_true', List.all_eq_true,
    Option.isNone_iff_eq_none] at hk
  unfold abbrevKey
  cases h : lookupAssoc KEY_ABBREVIATIONS k with
  | none =>
    exact ⟨not_isEmpty_ne_nil hk.1.1, hk.1.2⟩
  | some s =>
    have hmem := lookupAssoc_mem h
    have hall : ∀ p ∈ KEY_ABBREVIATIONS, p.2 ≠ [] ∧
        ∀ c ∈ p.2, safeKeyChar c = true := by decide
    have hs := hall (k, s) hmem
    exact ⟨hs.1, hs.2⟩

/-! ### The `~ -> null` pass on the compact text -/

/-- The previous-character state after scanning `a`, starting from `p`. -/
def lastP (a : Chars) (p : Option Char) : Option Char :=
  match a.getLast? with
  | some d => some d
  | none => p

theorem lastP_cons (c : Char) (a : Chars) (p : Option Char) :
    lastP (c :: a) p = lastP a (some c) := by
  cases a with
  | nil => rfl
  | cons d t =>
    unfold lastP
    rw [List.getLast?_cons_cons]
    cases h : (d :: t).getLast? with
    | none => exact absurd h (by simp)
    | some e => rfl

theorem lastP_append (a b : Chars) (p : Option Char) :
    lastP (a ++ b) p = lastP b (lastP a p) := by
  induction a generalizing p with
  | nil => rfl
  | cons c t ih => rw [List.cons_append, lastP_cons, lastP_cons, ih]

theorem lastP_concat (a : Chars) (x : Char) (p : Option Char) :
    lastP (a ++ [x]) p = some x := by
  rw [lastP_append]
  rfl

theorem fixNull_cons_skip (p : Option Char) (c : Char) (rest : Chars)
    (hc : c ≠ '~') :
    fixNull p (c :: rest) = c :: fixNull (some c) rest := by
  rw [fixNull, if_neg]
  simp [hc]

theorem fixNull_cons_tilde (p : Option Char) (rest : Chars)
    (hp : p ≠ some bslC) :
    fixNull p ('~' :: rest) = strChars "null" ++ fixNull (some '~') rest := by
  rw [fixNull, if_pos]
  simp [hp]

theorem fixNull_clean :
    ∀ (a : Chars), (∀ c ∈ a, c ≠ '~') → ∀ (p : Option Char) (b : Chars),
      fixNull p (a ++ b) = a ++ fixNull (lastP a p) b := by
  intro a
  induction a with
  | nil => intro _ p b; rfl
  | cons c t ih =>
    intro h p b
    rw [List.cons_append, fixNull_cons_skip p c _ (h c (List.mem_cons_self _ _)),
      ih (fun d hd => h d (List.mem_cons_of_mem c hd)) (some c) b, lastP_cons]
    rfl


theorem lastP_nil (p : Option Char) : lastP [] p = p := rfl

theorem band_left {a b : Bool} (h : (a && b) = true) : a = true := by
  cases a with
  | true => rfl
  | false => exact absurd h (by simp)

theorem band_right {a b : Bool} (h : (a && b) = true) : b = true := by
  cases b with
  | true => rfl
  | false => exact absurd h (by simp)

mutual

theorem fixNull_val : ∀ (v : Json), safeJson v = true →
    ∀ (p : Option Char), p ≠ some bslC → ∀ b : Chars,
      fixNull p (compactValue v ++ b) =
        cv1 v ++ fixNull (lastP (compactValue v) p) b
  | .null, _ => by
    intro p hp b
    show fixNull p ('~' :: b) = strChars "null" ++ fixNull (lastP ['~'] p) b
    rw [fixNull_cons_tilde p b hp]
    rfl
  | .bool true, _ => by
    intro p hp b
    exact fixNull_clean ['T'] (by decide) p b
  | .bool false, _ => by
    intro p hp b
    exact fixNull_clean ['F'] (by decide) p b
  | .num n, _ => by
    intro p hp b
    refine fixNull_clean (intToChars n) (fun c hc => ?_) p b
    rcases intToChars_shape n c hc with rfl | hd
    · decide
    · exact word_ne_tilde (digit_isWord hd)
  | .str s, h => by
    intro p hp b
    have hs : s.all safeChar = true := h
    rw [List.all_eq_true] at hs
    have hesc : toonEscape s = s := toonEscape_id fun c hc =>
      ⟨(safeChar_spec (hs c hc)).2.2.2.1, (safeChar_spec (hs c hc)).2.2.2.2.1⟩
    show fixNull p ((dqC :: toonEscape s ++ [dqC]) ++ b) =
      dqC :: toonEscape s ++ [dqC] ++
        fixNull (lastP (dqC :: toonEscape s ++ [dqC]) p) b
    rw [hesc]
    refine fixNull_clean (dqC :: s ++ [dqC]) (fun c hc => ?_) p b
    rcases List.mem_cons.mp hc with rfl | hc2
    · decide
    · rcases List.mem_append.mp hc2 with hc3 | hc3
      · exact (safeChar_spec (hs c hc3)).1
      · rw [List.mem_singleton.mp hc3]; decide
  | .arr xs, h => by
    intro p hp b
    have hl : safeJsonList xs = true := h
    show fixNull p ('[' :: joinComma (compactList xs) ++ [']'] ++ b) =
      '[' :: joinComma (cv1List xs) ++ [']'] ++
        fixNull (lastP ('[' :: joinComma (compactList xs) ++ [']']) p) b
    simp only [List.append_assoc, List.cons_append, List.singleton_append,
      List.nil_append, lastP_append, lastP_cons, lastP_nil]
    rw [fixNull_cons_skip p '[' _ (by decide),
      fixNull_items xs hl (some '[') (by decide) (']' :: b),
      fixNull_cons_skip _ ']' _ (by decide)]
  | .obj fs, h => by
    intro p hp b
    have hf : safeJsonFields fs = true := band_right h
    show fixNull p (lbrC :: joinComma (compactFields fs) ++ [rbrC] ++ b) =
      lbrC :: joinComma (cv1Fields fs) ++ [rbrC] ++
        fixNull (lastP (lbrC :: joinComma (compactFields fs) ++ [rbrC]) p) b
    simp only [List.append_assoc, List.cons_append, List.singleton_append,
      List.nil_append, lastP_append, lastP_cons, lastP_nil]
    rw [fixNull_cons_skip p lbrC _ (by decide),
      fixNull_fields fs hf (some lbrC) (by decide) (rbrC :: b),
      fixNull_cons_skip _ rbrC _ (by decide)]

theorem fixNull_items : ∀ (xs : List Json), safeJsonList xs = true →
    ∀ (p : Option Char), p ≠ some bslC → ∀ b : Chars,
      fixNull p (joinComma (compactList xs) ++ b) =
        joinComma (cv1List xs) ++
          fixNull (lastP (joinComma (compactList xs)) p) b
  | [], _ => by intro p hp b; rfl
  | [x], h => by
    intro p hp b
    have hx : safeJson x = true := band_left h
    show fixNull p (compactValue x ++ b) =
      cv1 x ++ fixNull (lastP (compactValue x) p) b
    exact fixNull_val x hx p hp b
  | x :: y :: rest, h => by
    intro p hp b
    have hx : safeJson x = true := band_left h
    have hr : safeJsonList (y :: rest) = true := band_right h
    show fixNull p
        ((compactValue x ++ ',' :: joinComma (compactList (y :: rest))) ++ b) =
      (cv1 x ++ ',' :: joinComma (cv1List (y :: rest))) ++
        fixNull
          (lastP (compactValue x ++ ',' :: joinComma (compactList (y :: rest)))
            p) b
    simp only [List.append_assoc, List.cons_append, List.singleton_append,
      List.nil_append, lastP_append, lastP_cons, lastP_nil]
    rw [fixNull_val x hx p hp _,
      fixNull_cons_skip _ ',' _ (by decide),
      fixNull_items (y :: rest) hr (some ',') (by decide) b]

theorem fixNull_fields : ∀ (fs : List (Chars × Json)),
    safeJsonFields fs = true →
    ∀ (p : Option Char), p ≠ some bslC → ∀ b : Chars,
      fixNull p (joinComma (compactFields fs) ++ b) =
        joinComma (cv1Fields fs) ++
          fixNull (lastP (joinComma (compactFields fs)) p) b
  | [], _ => by intro p hp b; rfl
  | [kv], h => by
    intro p hp b
    have hk : safeKey kv.1 = true := band_left (band_left h)
    have hv : safeJson kv.2 = true := band_right (band_left h)
    have hkc : ∀ c ∈ abbrevKey kv.1, c ≠ '~' := fun c hc =>
      word_ne_tilde (safeKeyChar_spec ((abbrevKey_safe hk).2 c hc)).1
    show fixNull p ((abbrevKey kv.1 ++ ':' :: compactValue kv.2) ++ b) =
      (abbrevKey kv.1 ++ ':' :: cv1 kv.2) ++
        fixNull (lastP (abbrevKey kv.1 ++ ':' :: compactValue kv.2) p) b
    simp only [List.append_assoc, List.cons_append, List.singleton_append,
      List.nil_append, lastP_append, lastP_cons, lastP_nil]
    rw [fixNull_clean (abbrevKey kv.1) hkc p _,
      fixNull_cons_skip _ ':' _ (by decide),
      fixNull_val kv.2 hv (some ':') (by decide) b]
  | kv :: kw :: rest, h => by
    intro p hp b
    have hk : safeKey kv.1 = true := band_left (band_left h)
    have hv : safeJson kv.2 = true := band_right (band_left h)
    have hr : safeJsonFields (kw :: rest) = true := band_right h
    have hkc : ∀ c ∈ abbrevKey kv.1, c ≠ '~' := fun c hc =>
      word_ne_tilde (safeKeyChar_spec ((abbrevKey_safe hk).2 c hc)).1
    show fixNull p
        (((abbrevKey kv.1 ++ ':' :: compactValue kv.2) ++
          ',' :: joinComma (compactFields (kw :: rest))) ++ b) =
      ((abbrevKey kv.1 ++ ':' :: cv1 kv.2) ++
        ',' :: joinComma (cv1Fields (kw :: rest))) ++
        fixNull
          (lastP ((abbrevKey kv.1 ++ ':' :: compactValue kv.2) ++
            ',' :: joinComma (compactFields (kw :: rest))) p) b
    simp only [List.append_assoc, List.cons_append, List.singleton_append,
      List.nil_append, lastP_append, lastP_cons, lastP_nil]
    rw [fixNull_clean (abbrevKey kv.1) hkc p _,
      fixNull_cons_skip _ ':' _ (by decide),
      fixNull_val kv.2 hv (some ':') (by decide) _,
      fixNull_cons_skip _ ',' _ (by decide),
      fixNull_fields (kw :: rest) hr (some ',') (by decide) b]

end

/-! ### The `T`/`F` pass on the text after the null pass -/

def noLet : Option Char → Prop
  | some q => isAsciiLetter q = false
  | none => True

def headNoLet : Chars → Prop
  | r :: _ => isAsciiLetter r = false
  | [] => True

theorem fixTF_cons_skip (p : Option Char) (c : Char) (rest : Chars)
    (h1 : c ≠ 'T') (h2 : c ≠ 'F') :
    fixTF p (c :: rest) = c :: fixTF (some c) rest := by
  rw [fixTF.eq_def]
  simp only [h1, h2]
  simp

theorem fixTF_cons_T (p : Option Char) (rest : Chars) (hp : noLet p)
    (hr : headNoLet rest) :
    fixTF p ('T' :: rest) = strChars "true" ++ fixTF (some 'T') rest := by
  rw [fixTF.eq_def]
  cases p with
  | none => cases rest with
    | nil => simp
    | cons r t =>
      have hr2 : isAsciiLetter r = false := hr
      simp [hr2]
  | some q =>
    have hp2 : isAsciiLetter q = false := hp
    cases rest with
    | nil => simp [hp2]
    | cons r t =>
      have hr2 : isAsciiLetter r = false := hr
      simp [hp2, hr2]

theorem fixTF_cons_F (p : Option Char) (rest : Chars) (hp : noLet p)
    (hr : headNoLet rest) :
    fixTF p ('F' :: rest) = strChars "false" ++ fixTF (some 'F') rest := by
  rw [fixTF.eq_def]
  cases p with
  | none =>
    cases rest with
    | nil => simp
    | cons r t =>
      have hr2 : isAsciiLetter r = false := hr
      simp [hr2]
  | some q =>
    have hp2 : isAsciiLetter q = false := hp
    cases rest with
    | nil => simp [hp2]
    | cons r t =>
      have hr2 : isAsciiLetter r = false := hr
      simp [hp2, hr2]

theorem fixTF_clean :
    ∀ (a : Chars), (∀ c ∈ a, c ≠ 'T' ∧ c ≠ 'F') →
      ∀ (p : Option Char) (b : Chars),
        fixTF p (a ++ b) = a ++ fixTF (lastP a p) b := by
  intro a
  induction a with
  | nil => intro _ p b; rfl
  | cons c t ih =>
    intro h p b
    obtain ⟨h1, h2⟩ := h c (List.mem_cons_self _ _)
    rw [List.cons_append, fixTF_cons_skip p c _ h1 h2,
      ih (fun d hd => h d (List.mem_cons_of_mem c hd)) (some c) b, lastP_cons]
    rfl

mutual

theorem fixTF_val : ∀ (v : Json), safeJson v = true →
    ∀ (p : Option Char), noLet p → ∀ b : Chars, headNoLet b →
      fixTF p (cv1 v ++ b) = cv2 v ++ fixTF (lastP (cv1 v) p) b
  | .null, _ => by
    intro p hp b hb
    exact fixTF_clean (strChars "null") (by decide) p b
  | .bool true, _ => by
    intro p hp b hb
    show fixTF p ('T' :: b) = strChars "true" ++ fixTF (lastP ['T'] p) b
    rw [fixTF_cons_T p b hp hb]
    rfl
  | .bool false, _ => by
    intro p hp b hb
    show fixTF p ('F' :: b) = strChars "false" ++ fixTF (lastP ['F'] p) b
    rw [fixTF_cons_F p b hp hb]
    rfl
  | .num n, _ => by
    intro p hp b hb
    refine fixTF_clean (intToChars n) (fun c hc => ?_) p b
    rcases intToChars_shape n c hc with rfl | hd
    · exact ⟨by decide, by decide⟩
    · exact ⟨fun hc2 => by subst hc2; exact absurd hd (by decide),
        fun hc2 => by subst hc2; exact absurd hd (by decide)⟩
  | .str s, h => by
    intro p hp b hb
    have hs : s.all safeChar = true := h
    rw [List.all_eq_true] at hs
    have hesc : toonEscape s = s := toonEscape_id fun c hc =>
      ⟨(safeChar_spec (hs c hc)).2.2.2.1, (safeChar_spec (hs c hc)).2.2.2.2.1⟩
    show fixTF p ((dqC :: toonEscape s ++ [dqC]) ++ b) =
      dqC :: toonEscape s ++ [dqC] ++
        fixTF (lastP (dqC :: toonEscape s ++ [dqC]) p) b
    rw [hesc]
    refine fixTF_clean (dqC :: s ++ [dqC]) (fun c hc => ?_) p b
    rcases List.mem_cons.mp hc with rfl | hc2
    · exact ⟨by decide, by decide⟩
    · rcases List.mem_append.mp hc2 with hc3 | hc3
      · exact ⟨(safeChar_spec (hs c hc3)).2.1, (safeChar_spec (hs c hc3)).2.2.1⟩
      · rw [List.mem_singleton.mp hc3]
        exact ⟨by decide, by decide⟩
  | .arr xs, h => by
    intro p hp b hb
    have hl : safeJsonList xs = true := h
    show fixTF p ('[' :: joinComma (cv1List xs) ++ [']'] ++ b) =
      '[' :: joinComma (cv2List xs) ++ [']'] ++
        fixTF (lastP ('[' :: joinComma (cv1List xs) ++ [']']) p) b
    simp only [List.append_assoc, List.cons_append, List.singleton_append,
      List.nil_append, lastP_append, lastP_cons, lastP_nil]
    rw [fixTF_cons_skip p '[' _ (by decide) (by decide),
      fixTF_items xs hl (some '[') (by exact rfl) (']' :: b) (by exact rfl),
      fixTF_cons_skip _ ']' _ (by decide) (by decide)]
  | .obj fs, h => by
    intro p hp b hb
    have hf : safeJsonFields fs = true := band_right h
    show fixTF p (lbrC :: joinComma (cv1Fields fs) ++ [rbrC] ++ b) =
      lbrC :: joinComma (cv2Fields fs) ++ [rbrC] ++
        fixTF (lastP (lbrC :: joinComma (cv1Fields fs) ++ [rbrC]) p) b
    simp only [List.append_assoc, List.cons_append, List.singleton_append,
      List.nil_append, lastP_append, lastP_cons, lastP_nil]
    rw [fixTF_cons_skip p lbrC _ (by decide) (by decide),
      fixTF_fields fs hf (some lbrC) (by exact rfl) (rbrC :: b) (by exact rfl),
      fixTF_cons_skip _ rbrC _ (by decide) (by decide)]

theorem fixTF_items : ∀ (xs : List Json), safeJsonList xs = true →
    ∀ (p : Option Char), noLet p → ∀ b : Chars, headNoLet b →
      fixTF p (joinComma (cv1List xs) ++ b) =
        joinComma (cv2List xs) ++ fixTF (lastP (joinComma (cv1List xs)) p) b
  | [], _ => by intro p hp b hb; rfl
  | [x], h => by
    intro p hp b hb
    have hx : safeJson x = true := band_left h
    show fixTF p (cv1 x ++ b) = cv2 x ++ fixTF (lastP (cv1 x) p) b
    exact fixTF_val x hx p hp b hb
  | x :: y :: rest, h => by
    intro p hp b hb
    have hx : safeJson x = true := band_left h
    have hr : safeJsonList (y :: rest) = true := band_right h
    show fixTF p ((cv1 x ++ ',' :: joinComma (cv1List (y :: rest))) ++ b) =
      (cv2 x ++ ',' :: joinComma (cv2List (y :: rest))) ++
        fixTF (lastP (cv1 x ++ ',' :: joinComma (cv1List (y :: rest))) p) b
    simp only [List.append_assoc, List.cons_append, List.singleton_append,
      List.nil_append, lastP_append, lastP_cons, lastP_nil]
    rw [fixTF_val x hx p hp _ (by exact rfl),
      fixTF_cons_skip _ ',' _ (by decide) (by decide),
      fixTF_items (y :: rest) hr (some ',') (by exact rfl) b hb]

theorem fixTF_fields : ∀ (fs : List (Chars × Json)),
    safeJsonFields fs = true →
    ∀ (p : Option Char), noLet p → ∀ b : Chars, headNoLet b →
      fixTF p (joinComma (cv1Fields fs) ++ b) =
        joinComma (cv2Fields fs) ++
          fixTF (lastP (joinComma (cv1Fields fs)) p) b
  | [], _ => by intro p hp b hb; rfl
  | [kv], h => by
    intro p hp b hb
    have hk : safeKey kv.1 = true := band_left (band_left h)
    have hv : safeJson kv.2 = true := band_right (band_left h)
    have hkc : ∀ c ∈ abbrevKey kv.1, c ≠ 'T' ∧ c ≠ 'F' := fun c hc =>
      ⟨(safeKeyChar_spec ((abbrevKey_safe hk).2 c hc)).2.1,
       (safeKeyChar_spec ((abbrevKey_safe hk).2 c hc)).2.2⟩
    show fixTF p ((abbrevKey kv.1 ++ ':' :: cv1 kv.2) ++ b) =
      (abbrevKey kv.1 ++ ':' :: cv2 kv.2) ++
        fixTF (lastP (abbrevKey kv.1 ++ ':' :: cv1 kv.2) p) b
    simp only [List.append_assoc, List.cons_append, List.singleton_append,
      List.nil_append, lastP_append, lastP_cons, lastP_nil]
    rw [fixTF_clean (abbrevKey kv.1) hkc p _,
      fixTF_cons_skip _ ':' _ (by decide) (by decide),
      fixTF_val kv.2 hv (some ':') (by exact rfl) b hb]
  | kv :: kw :: rest, h => by
    intro p hp b hb
    have hk : safeKey kv.1 = true := band_left (band_left h)
    have hv : safeJson kv.2 = true := band_right (band_left h)
    have hr : safeJsonFields (kw :: rest) = true := band_right h
    have hkc : ∀ c ∈ abbrevKey kv.1, c ≠ 'T' ∧ c ≠ 'F' := fun c hc =>
      ⟨(safeKeyChar_spec ((abbrevKey_safe hk).2 c hc)).2.1,
       (safeKeyChar_spec ((abbrevKey_safe hk).2 c hc)).2.2⟩
    show fixTF p
        (((abbrevKey kv.1 ++ ':' :: cv1 kv.2) ++
          ',' :: joinComma (cv1Fields (kw :: rest))) ++ b) =
      ((abbrevKey kv.1 ++ ':' :: cv2 kv.2) ++
        ',' :: joinComma (cv2Fields (kw :: rest))) ++
        fixTF
          (lastP ((abbrevKey kv.1 ++ ':' :: cv1 kv.2) ++
            ',' :: joinComma (cv1Fields (kw :: rest))) p) b
    simp only [List.append_assoc, List.cons_append, List.singleton_append,
      List.nil_append, lastP_append, lastP_cons, lastP_nil]
    rw [fixTF_clean (abbrevKey kv.1) hkc p _,
      fixTF_cons_skip _ ':' _ (by decide) (by decide),
      fixTF_val kv.2 hv (some ':') (by exact rfl) _ (by exact rfl),
      fixTF_cons_skip _ ',' _ (by decide) (by decide),
      fixTF_fields (kw :: rest) hr (some ',') (by exact rfl) b hb]

end

/-! ### The key-quoting pass -/

theorem requoteF_fuel : ∀ (f1 f2 : Nat) (s : Chars), s.length ≤ f1 →
    s.length ≤ f2 → requoteF f1 s = requoteF f2 s := by
  intro f1
  induction f1 with
  | zero =>
    intro f2 s hs _
    have hnil : s = [] := List.length_eq_zero.mp (Nat.le_zero.mp hs)
    subst hnil
    cases f2 <;> rfl
  | succ a ih =>
    intro f2 s h1 h2
    cases s with
    | nil => cases f2 <;> rfl
    | cons c t =>
      cases f2 with
      | zero => simp at h2
      | succ b =>
        rw [requoteF, requoteF]
        by_cases hc : (c = lbrC || c = ',') = true
        · rw [if_pos hc, if_pos hc]
          by_cases hw : ((t.takeWhile isWordChar ≠ []) &&
              ((t.drop (t.takeWhile isWordChar).length).head? = some ':')) = true
          · rw [if_pos hw, if_pos hw,
              ih b (t.drop ((t.takeWhile isWordChar).length + 1)) (by
                have := List.length_drop ((t.takeWhile isWordChar).length + 1) t
                simp at h1
                omega) (by
                have := List.length_drop ((t.takeWhile isWordChar).length + 1) t
                simp at h2
                omega)]
          · rw [if_neg hw, if_neg hw,
              ih b t (by simp at h1; omega) (by simp at h2; omega)]
        · rw [if_neg hc, if_neg hc,
            ih b t (by simp at h1; omega) (by simp at h2; omega)]

theorem requote_step_skip (f : Nat) (c : Char) (t : Chars)
    (h1 : c ≠ lbrC) (h2 : c ≠ ',') :
    requoteF (f + 1) (c :: t) = c :: requoteF f t := by
  rw [requoteF, if_neg]
  simp [h1, h2]

def headNotWord : Chars → Prop
  | c :: _ => isWordChar c = false
  | [] => True

theorem requote_step_nofire (f : Nat) (c : Char) (t : Chars)
    (h : t.takeWhile isWordChar = [] ∨
      (t.drop (t.takeWhile isWordChar).length).head? ≠ some ':') :
    requoteF (f + 1) (c :: t) = c :: requoteF f t := by
  rw [requoteF]
  by_cases hc : (c = lbrC || c = ',') = true
  · rw [if_pos hc, if_neg]
    intro hcontra
    rcases h with h | h
    · have h2 := band_left hcontra
      rw [h] at h2
      exact absurd h2 (by decide)
    · exact h (of_decide_eq_true (band_right hcontra))
  · rw [if_neg hc]

theorem takeWhile_word_key (k : Chars) (hall : ∀ c ∈ k, isWordChar c = true)
    (t : Chars) (ht : headNotWord t) :
    (k ++ t).takeWhile isWordChar = k := by
  induction k with
  | nil =>
    cases t with
    | nil => rfl
    | cons c r =>
      have hc : isWordChar c = false := ht
      show (c :: r).takeWhile isWordChar = []
      rw [List.takeWhile_cons, hc]
      rfl
  | cons c k0 ih =>
    rw [List.cons_append, List.takeWhile_cons, hall c (List.mem_cons_self _ _),
      ih fun d hd => hall d (List.mem_cons_of_mem c hd)]
    rfl

theorem drop_key_colon (k t : Chars) :
    (k ++ ':' :: t).drop (k.length + 1) = t := by
  have h2 := List.drop_left (k ++ [':']) t
  rwa [List.append_assoc, List.singleton_append, List.length_append,
    List.length_singleton] at h2

theorem requote_step_fire (f : Nat) (c : Char) (k t : Chars)
    (hc : c = lbrC ∨ c = ',') (hk1 : k ≠ [])
    (hk2 : ∀ d ∈ k, isWordChar d = true) :
    requoteF (f + 1) (c :: (k ++ ':' :: t)) =
      c :: dqC :: (k ++ dqC :: ':' :: requoteF f t) := by
  have hw : (k ++ ':' :: t).takeWhile isWordChar = k :=
    takeWhile_word_key k hk2 (':' :: t) (by exact rfl)
  have hd : (k ++ ':' :: t).drop k.length = ':' :: t := List.drop_left k _
  rw [requoteF, if_pos (by rcases hc with rfl | rfl <;> simp), if_pos]
  · rw [hw, drop_key_colon]
  · rw [hw, hd]
    simp [hk1]

theorem requote_clean :
    ∀ (a : Chars), (∀ c ∈ a, c ≠ lbrC ∧ c ≠ ',') → ∀ (f : Nat) (b : Chars),
      (a ++ b).length ≤ f →
      requoteF f (a ++ b) = a ++ requoteF b.length b := by
  intro a
  induction a with
  | nil =>
    intro _ f b hf
    exact requoteF_fuel f b.length b (by simpa using hf) (le_refl _)
  | cons c t ih =>
    intro h f b hf
    obtain ⟨h1, h2⟩ := h c (List.mem_cons_self _ _)
    cases f with
    | zero => simp at hf
    | succ f0 =>
      rw [List.cons_append, requote_step_skip f0 c _ h1 h2,
        ih (fun d hd => h d (List.mem_cons_of_mem c hd)) f0 b
          (by simp at hf ⊢; omega)]
      rfl

def sepHead : Chars → Prop
  | [] => True
  | c :: _ => isWordChar c = false ∧ c ≠ ':'

theorem cv2_class (v : Json) :
    (∀ c ∈ cv2 v, isWordChar c = true) ∨
    (∃ hd tl, cv2 v = hd :: tl ∧ isWordChar hd = false) := by
  cases v with
  | null => exact Or.inl (by decide)
  | bool b => cases b with
    | true => exact Or.inl (by decide)
    | false => exact Or.inl (by decide)
  | num n =>
    show (∀ c ∈ intToChars n, isWordChar c = true) ∨ _
    by_cases hneg : n < 0
    · refine Or.inr ⟨'-', natToChars n.natAbs, ?_, by decide⟩
      show intToChars n = '-' :: natToChars n.natAbs
      unfold intToChars
      rw [if_pos hneg]
    · refine Or.inl fun c hc => ?_
      have hc2 : c ∈ intToChars n := hc
      unfold intToChars at hc2
      rw [if_neg hneg] at hc2
      obtain ⟨d, hd, rfl⟩ := natToChars_shape n.natAbs c hc2
      exact digit_isWord (digitChar_isDigit d hd)
  | str s => exact Or.inr ⟨dqC, toonEscape s ++ [dqC], rfl, by decide⟩
  | arr xs =>
    refine Or.inr ⟨'[', joinComma (cv2List xs) ++ [']'], ?_, by decide⟩
    rw [show cv2 (.arr xs) = '[' :: joinComma (cv2List xs) ++ [']'] from rfl,
      List.cons_append]
  | obj fs =>
    refine Or.inr ⟨lbrC, joinComma (cv2Fields fs) ++ [rbrC], ?_, by decide⟩
    rw [show cv2 (.obj fs) = lbrC :: joinComma (cv2Fields fs) ++ [rbrC]
      from rfl, List.cons_append]

theorem sepHead_notWord {b : Chars} (h : sepHead b) : headNotWord b := by
  cases b with
  | nil => exact trivial
  | cons c r => exact (h : isWordChar c = false ∧ c ≠ ':').1

theorem sepHead_colon {b : Chars} (h : sepHead b) : b.head? ≠ some ':' := by
  cases b with
  | nil => simp
  | cons c r =>
    have h2 : isWordChar c = false ∧ c ≠ ':' := h
    simp [h2.2]

mutual

theorem requote_val : ∀ (v : Json), safeJson v = true →
    ∀ (f : Nat) (b : Chars), (cv2 v ++ b).length ≤ f →
      requoteF f (cv2 v ++ b) =
        dumpsValue (abbrevJson v) ++ requoteF b.length b
  | .null, _ => by
    intro f b hf
    exact requote_clean (strChars "null") (by decide) f b hf
  | .bool true, _ => by
    intro f b hf
    exact requote_clean (strChars "true") (by decide) f b hf
  | .bool false, _ => by
    intro f b hf
    exact requote_clean (strChars "false") (by decide) f b hf
  | .num n, _ => by
    intro f b hf
    refine requote_clean (intToChars n) (fun c hc => ?_) f b hf
    rcases intToChars_shape n c hc with rfl | hd
    · exact ⟨by decide, by decide⟩
    · exact ⟨word_ne_lbr (digit_isWord hd), word_ne_comma (digit_isWord hd)⟩
  | .str s, h => by
    intro f b hf
    have hs : s.all safeChar = true := h
    rw [List.all_eq_true] at hs
    have hesc : toonEscape s = s := toonEscape_id fun c hc =>
      ⟨(safeChar_spec (hs c hc)).2.2.2.1, (safeChar_spec (hs c hc)).2.2.2.2.1⟩
    have hf2 : ((dqC :: toonEscape s ++ [dqC]) ++ b).length ≤ f := hf
    show requoteF f ((dqC :: toonEscape s ++ [dqC]) ++ b) =
      (dqC :: toonEscape s ++ [dqC]) ++ requoteF b.length b
    rw [hesc]
    rw [hesc] at hf2
    refine requote_clean (dqC :: s ++ [dqC]) (fun c hc => ?_) f b hf2
    rcases List.mem_cons.mp hc with rfl | hc2
    · exact ⟨by decide, by decide⟩
    · rcases List.mem_append.mp hc2 with hc3 | hc3
      · exact ⟨(safeChar_spec (hs c hc3)).2.2.2.2.2.1,
          (safeChar_spec (hs c hc3)).2.2.2.2.2.2⟩
      · rw [List.mem_singleton.mp hc3]
        exact ⟨by decide, by decide⟩
  | .arr xs, h => by
    intro f b hf
    have hl : safeJsonList xs = true := h
    have hf2 : (('[' :: joinComma (cv2List xs) ++ [']']) ++ b).length ≤ f := hf
    simp only [List.length_append, List.length_cons, List.cons_append,
      List.append_assoc, List.singleton_append, List.length_nil] at hf2
    show requoteF f (('[' :: joinComma (cv2List xs) ++ [']']) ++ b) =
      ('[' :: joinComma (dumpsList (abbrevJsonList xs)) ++ [']']) ++
        requoteF b.length b
    simp only [List.append_assoc, List.cons_append, List.singleton_append,
      List.nil_append]
    cases f with
    | zero => omega
    | succ f0 =>
      rw [requote_step_skip f0 '[' _ (by decide) (by decide),
        requote_items xs hl f0 (']' :: b)
          (by simp only [List.length_append, List.length_cons]; omega)
          ⟨by decide, by decide⟩,
        List.length_cons,
        requote_step_skip b.length ']' b (by decide) (by decide)]
  | .obj fs, h => by
    intro f b hf
    have hff : safeJsonFields fs = true := band_right h
    have hf2 : ((lbrC :: joinComma (cv2Fields fs) ++ [rbrC]) ++ b).length ≤
        f := hf
    simp only [List.length_append, List.length_cons, List.cons_append,
      List.append_assoc, List.singleton_append, List.length_nil] at hf2
    show requoteF f ((lbrC :: joinComma (cv2Fields fs) ++ [rbrC]) ++ b) =
      (lbrC :: joinComma (dumpsFields (abbrevJsonFields fs)) ++ [rbrC]) ++
        requoteF b.length b
    simp only [List.append_assoc, List.cons_append, List.singleton_append,
      List.nil_append]
    cases fs with
    | nil =>
      cases f with
      | zero => omega
      | succ f0 =>
        rw [show joinComma (cv2Fields []) = ([] : Chars) from rfl,
          show joinComma (dumpsFields (abbrevJsonFields [])) = ([] : Chars)
            from rfl,
          List.nil_append, List.nil_append,
          requote_step_nofire f0 lbrC (rbrC :: b)
            (Or.inl (by rw [List.takeWhile_cons]; rfl))]
        cases f0 with
        | zero => simp at hf2
        | succ f1 =>
          rw [requote_step_skip f1 rbrC b (by decide) (by decide),
            requoteF_fuel f1 b.length b (by simp at hf2; omega) (le_refl _)]
    | cons kv fs0 =>
      cases f with
      | zero => omega
      | succ f0 =>
        have := requote_fields (kv :: fs0) (by simp) hff lbrC (Or.inl rfl)
          (f0 + 1) (rbrC :: b)
          (by simp only [List.length_append, List.length_cons]
              omega)
        rw [this, List.length_cons,
          requote_step_skip b.length rbrC b (by decide) (by decide)]

theorem requote_items : ∀ (xs : List Json), safeJsonList xs = true →
    ∀ (f : Nat) (b : Chars), (joinComma (cv2List xs) ++ b).length ≤ f →
      sepHead b →
      requoteF f (joinComma (cv2List xs) ++ b) =
        joinComma (dumpsList (abbrevJsonList xs)) ++ requoteF b.length b
  | [], _ => by
    intro f b hf _
    show requoteF f ([] ++ b) = [] ++ requoteF b.length b
    simp only [List.nil_append]
    exact requoteF_fuel f b.length b hf (le_refl _)
  | [x], h => by
    intro f b hf _
    have hx : safeJson x = true := band_left h
    show requoteF f (cv2 x ++ b) =
      dumpsValue (abbrevJson x) ++ requoteF b.length b
    exact requote_val x hx f b hf
  | x :: y :: rest, h => by
    intro f b hf hsep
    have hx : safeJson x = true := band_left h
    have hr : safeJsonList (y :: rest) = true := band_right h
    have hf2 : ((cv2 x ++ ',' :: joinComma (cv2List (y :: rest))) ++ b).length
        ≤ f := hf
    show requoteF f ((cv2 x ++ ',' :: joinComma (cv2List (y :: rest))) ++ b) =
      (dumpsValue (abbrevJson x) ++
        ',' :: joinComma (dumpsList (abbrevJsonList (y :: rest)))) ++
        requoteF b.length b
    simp only [List.append_assoc, List.cons_append, List.singleton_append,
      List.nil_append]
    rw [requote_val x hx f (',' :: (joinComma (cv2List (y :: rest)) ++ b))
        (by simp only [List.length_append, List.length_cons] at hf2 ⊢; omega),
      List.length_cons]
    have hnf : (joinComma (cv2List (y :: rest)) ++ b).takeWhile isWordChar
          = [] ∨
        (((joinComma (cv2List (y :: rest)) ++ b).drop
          ((joinComma (cv2List (y :: rest)) ++ b).takeWhile
            isWordChar).length).head? ≠ some ':') := by
      rcases cv2_class y with hcl | ⟨hd, tl, heq, hw⟩
      · cases rest with
        | nil =>
          refine Or.inr ?_
          have htw : ((cv2 y : Chars) ++ b).takeWhile isWordChar = cv2 y :=
            takeWhile_word_key (cv2 y) hcl b (sepHead_notWord hsep)
          have hdr : ((cv2 y : Chars) ++ b).drop (cv2 y).length = b :=
            List.drop_left _ _
          show (((cv2 y : Chars) ++ b).drop
            (((cv2 y : Chars) ++ b).takeWhile isWordChar).length).head? ≠
              some ':'
          rw [htw, hdr]
          exact sepHead_colon hsep
        | cons z r2 =>
          refine Or.inr ?_
          have htw : ((cv2 y ++ ',' :: joinComma (cv2List (z :: r2))) ++
              b).takeWhile isWordChar = cv2 y := by
            rw [List.append_assoc, List.cons_append]
            exact takeWhile_word_key (cv2 y) hcl _ (by exact rfl)
          have hdr : ((cv2 y ++ ',' :: joinComma (cv2List (z :: r2))) ++
              b).drop (cv2 y).length =
                ',' :: (joinComma (cv2List (z :: r2)) ++ b) := by
            rw [List.append_assoc, List.cons_append]
            exact List.drop_left _ _
          show (((cv2 y ++ ',' :: joinComma (cv2List (z :: r2))) ++ b).drop
            (((cv2 y ++ ',' :: joinComma (cv2List (z :: r2))) ++
              b).takeWhile isWordChar).length).head? ≠ some ':'
          rw [htw, hdr]
          simp
      · cases rest with
        | nil =>
          refine Or.inl ?_
          show ((cv2 y : Chars) ++ b).takeWhile isWordChar = []
          rw [heq, List.cons_append, List.takeWhile_cons, hw]
          rfl
        | cons z r2 =>
          refine Or.inl ?_
          show ((cv2 y ++ ',' :: joinComma (cv2List (z :: r2))) ++
            b).takeWhile isWordChar = []
          rw [heq, List.cons_append, List.cons_append, List.takeWhile_cons,
            hw]
          rfl
    rw [requote_step_nofire _ ',' _ hnf,
      requote_items (y :: rest) hr _ b (le_refl _) hsep]

theorem requote_fields : ∀ (fs : List (Chars × Json)), fs ≠ [] →
    safeJsonFields fs = true →
    ∀ (c : Char), c = lbrC ∨ c = ',' →
    ∀ (f : Nat) (b : Chars),
      (c :: (joinComma (cv2Fields fs) ++ b)).length ≤ f →
      requoteF f (c :: (joinComma (cv2Fields fs) ++ b)) =
        c :: (joinComma (dumpsFields (abbrevJsonFields fs)) ++
          requoteF b.length b)
  | [], hne => absurd rfl hne
  | [kv], _ => by
    intro h c hc f b hf
    have hk : safeKey kv.1 = true := band_left (band_left h)
    have hv : safeJson kv.2 = true := band_right (band_left h)
    have hkw : ∀ d ∈ abbrevKey kv.1, isWordChar d = true := fun d hd =>
      (safeKeyChar_spec ((abbrevKey_safe hk).2 d hd)).1
    have hesc : toonEscape (abbrevKey kv.1) = abbrevKey kv.1 :=
      toonEscape_id fun d hd => ⟨word_ne_dq (hkw d hd), word_ne_bsl (hkw d hd)⟩
    have hf2 : (c :: ((abbrevKey kv.1 ++ ':' :: cv2 kv.2) ++ b)).length ≤ f :=
      hf
    show requoteF f (c :: ((abbrevKey kv.1 ++ ':' :: cv2 kv.2) ++ b)) =
      c :: ((dqC :: toonEscape (abbrevKey kv.1) ++
        dqC :: ':' :: dumpsValue (abbrevJson kv.2)) ++ requoteF b.length b)
    rw [hesc]
    simp only [List.append_assoc, List.cons_append, List.singleton_append,
      List.nil_append]
    cases f with
    | zero => simp at hf2
    | succ f0 =>
      rw [requote_step_fire f0 c (abbrevKey kv.1) (cv2 kv.2 ++ b) hc
          (abbrevKey_safe hk).1 hkw,
        requote_val kv.2 hv f0 b
          (by simp only [List.length_cons, List.length_append] at hf2 ⊢
              omega)]
  | kv :: kw :: rest, _ => by
    intro h c hc f b hf
    have hk : safeKey kv.1 = true := band_left (band_left h)
    have hv : safeJson kv.2 = true := band_right (band_left h)
    have hr : safeJsonFields (kw :: rest) = true := band_right h
    have hkw : ∀ d ∈ abbrevKey kv.1, isWordChar d = true := fun d hd =>
      (safeKeyChar_spec ((abbrevKey_safe hk).2 d hd)).1
    have hesc : toonEscape (abbrevKey kv.1) = abbrevKey kv.1 :=
      toonEscape_id fun d hd => ⟨word_ne_dq (hkw d hd), word_ne_bsl (hkw d hd)⟩
    have hf2 : (c :: (((abbrevKey kv.1 ++ ':' :: cv2 kv.2) ++
        ',' :: joinComma (cv2Fields (kw :: rest))) ++ b)).length ≤ f := hf
    show requoteF f (c :: (((abbrevKey kv.1 ++ ':' :: cv2 kv.2) ++
        ',' :: joinComma (cv2Fields (kw :: rest))) ++ b)) =
      c :: (((dqC :: toonEscape (abbrevKey kv.1) ++
        dqC :: ':' :: dumpsValue (abbrevJson kv.2)) ++
        ',' :: joinComma (dumpsFields (abbrevJsonFields (kw :: rest)))) ++
        requoteF b.length b)
    rw [hesc]
    simp only [List.append_assoc, List.cons_append, List.singleton_append,
      List.nil_append]
    cases f with
    | zero => simp at hf2
    | succ f0 =>
      rw [requote_step_fire f0 c (abbrevKey kv.1)
          (cv2 kv.2 ++ (',' :: (joinComma (cv2Fields (kw :: rest)) ++ b))) hc
          (abbrevKey_safe hk).1 hkw,
        requote_val kv.2 hv f0
          (',' :: (joinComma (cv2Fields (kw :: rest)) ++ b))
          (by simp only [List.length_cons, List.length_append] at hf2 ⊢
              omega),
        List.length_cons]
      have hrec := requote_fields (kw :: rest) (by simp) hr ',' (Or.inr rfl)
        ((joinComma (cv2Fields (kw :: rest)) ++ b).length + 1) b
        (by simp only [List.length_cons]; omega)
      rw [hrec]

end

/-! ### `json.loads` on the canonical serialization -/

theorem skipWs_cons {c : Char} (r : Chars) (h : isPySpace c = false) :
    skipWs (c :: r) = c :: r := by
  unfold skipWs
  rw [List.dropWhile_cons, h]
  rfl

theorem digit_not_space {c : Char} (h : isDigitChar c = true) :
    isPySpace c = false := by
  cases hsp : isPySpace c with
  | false => rfl
  | true =>
    unfold isPySpace at hsp
    simp only [Bool.or_eq_true, decide_eq_true_eq] at hsp
    rcases hsp with ((((rfl | rfl) | rfl) | rfl) | rfl) | rfl <;>
      exact absurd h (by decide)

theorem digit_ne_of {c x : Char} (h : isDigitChar c = true)
    (hx : isDigitChar x = false) : c ≠ x := by
  intro hc
  subst hc
  rw [h] at hx
  cases hx

theorem parseStrBody_verbatim :
    ∀ (content : Chars), (∀ c ∈ content, c ≠ dqC ∧ c ≠ bslC) →
      ∀ (fuel : Nat) (rest : Chars), content.length < fuel →
      parseStrBody fuel (content ++ dqC :: rest) = some (content, rest) := by
  intro content
  induction content with
  | nil =>
    intro _ fuel rest hf
    cases fuel with
    | zero => omega
    | succ f0 =>
      show parseStrBody (f0 + 1) (dqC :: rest) = some ([], rest)
      rw [parseStrBody.eq_def]
      simp
  | cons c t ih =>
    intro h fuel rest hf
    obtain ⟨h1, h2⟩ := h c (List.mem_cons_self _ _)
    cases fuel with
    | zero => omega
    | succ f0 =>
      rw [List.cons_append, parseStrBody.eq_def]
      simp only [if_neg h1, if_neg h2]
      rw [ih (fun d hd => h d (List.mem_cons_of_mem c hd)) f0 rest
        (by simp at hf; omega)]

theorem takeWhile_append_not {p : Char → Bool} :
    ∀ (k : Chars), (∀ c ∈ k, p c = true) →
      ∀ (t : Chars), (match t with | c :: _ => p c = false | [] => True) →
      (k ++ t).takeWhile p = k := by
  intro k
  induction k with
  | nil =>
    intro _ t ht
    cases t with
    | nil => rfl
    | cons c r =>
      have hc : p c = false := ht
      show (c :: r).takeWhile p = []
      rw [List.takeWhile_cons, hc]
      rfl
  | cons c k0 ih =>
    intro hall t ht
    rw [List.cons_append, List.takeWhile_cons, hall c (List.mem_cons_self _ _),
      ih (fun d hd => hall d (List.mem_cons_of_mem c hd)) t ht]
    rfl

theorem natToChars_ne_nil (n : Nat) : natToChars n ≠ [] := by
  rw [natToChars_eq]
  by_cases hn : n < 10
  · rw [if_pos hn]
    simp
  · rw [if_neg hn]
    simp

def numOK : Chars → Prop
  | c :: _ => isDigitChar c = false
  | [] => True

theorem parseNatBody_natToChars (m : Nat) (rest : Chars) (hr : numOK rest) :
    parseNatBody (natToChars m ++ rest) = some (m, rest) := by
  have hdig : ∀ c ∈ natToChars m, isDigitChar c = true := fun c hc => by
    obtain ⟨d, hd, rfl⟩ := natToChars_shape m c hc
    exact digitChar_isDigit d hd
  have htw : (natToChars m ++ rest).takeWhile isDigitChar = natToChars m :=
    takeWhile_append_not (natToChars m) hdig rest (by
      cases rest with
      | nil => exact trivial
      | cons c r => exact hr)
  unfold parseNatBody
  rw [htw, if_neg]
  · rw [charsToNat_natToChars, List.drop_left]
  · simp [natToChars_ne_nil m]

mutual

/-- Strings and keys free of the quote and escape characters: what the
parser layer needs of the abbreviated value. -/
def strsClean : Json → Bool
  | .null => true
  | .bool _ => true
  | .num _ => true
  | .str s => s.all fun c => c ≠ dqC && c ≠ bslC
  | .arr xs => strsCleanList xs
  | .obj fs => strsCleanFields fs

def strsCleanList : List Json → Bool
  | [] => true
  | x :: xs => strsClean x && strsCleanList xs

def strsCleanFields : List (Chars × Json) → Bool
  | [] => true
  | kv :: fs =>
    (kv.1.all fun c => c ≠ dqC && c ≠ bslC) && strsClean kv.2 &&
      strsCleanFields fs

end

theorem dumpsValue_shape (w : Json) :
    ∃ hd tl, dumpsValue w = hd :: tl ∧ isPySpace hd = false ∧ hd ≠ ']' ∧
      hd ≠ rbrC ∧ hd ≠ ',' := by
  cases w with
  | null => exact ⟨'n', _, rfl, by decide, by decide, by decide, by decide⟩
  | bool b => cases b with
    | true => exact ⟨'t', _, rfl, by decide, by decide, by decide, by decide⟩
    | false => exact ⟨'f', _, rfl, by decide, by decide, by decide, by decide⟩
  | num n =>
    show ∃ hd tl, intToChars n = hd :: tl ∧ _
    unfold intToChars
    by_cases hneg : n < 0
    · rw [if_pos hneg]
      exact ⟨'-', _, rfl, by decide, by decide, by decide, by decide⟩
    · rw [if_neg hneg]
      cases h : natToChars n.natAbs with
      | nil => exact absurd h (natToChars_ne_nil _)
      | cons d tl =>
        have hd : isDigitChar d = true := by
          obtain ⟨e, he, hEq⟩ := natToChars_shape n.natAbs d
            (h ▸ List.mem_cons_self d tl)
          rw [hEq]
          exact digitChar_isDigit e he
        exact ⟨d, tl, rfl, digit_not_space hd,
          digit_ne_of hd (by decide), digit_ne_of hd (by decide),
          digit_ne_of hd (by decide)⟩
  | str s =>
    exact ⟨dqC, _, rfl, by decide, by decide, by decide, by decide⟩
  | arr xs =>
    refine ⟨'[', joinComma (dumpsList xs) ++ [']'], ?_, by decide, by decide,
      by decide, by decide⟩
    rw [show dumpsValue (.arr xs) = '[' :: joinComma (dumpsList xs) ++ [']']
      from rfl, List.cons_append]
  | obj fs =>
    refine ⟨lbrC, joinComma (dumpsFields fs) ++ [rbrC], ?_, by decide,
      by decide, by decide, by decide⟩
    rw [show dumpsValue (.obj fs) = lbrC :: joinComma (dumpsFields fs) ++
      [rbrC] from rfl, List.cons_append]

theorem pfx_head_false {p c : Char} (h : p ≠ c) (ps cs : Chars) :
    pfx (p :: ps) (c :: cs) = false := by
  rw [pfx]
  simp [h]

mutual

theorem parseVal_dumps : ∀ (w : Json), strsClean w = true →
    ∀ (f : Nat) (rest : Chars), numOK rest →
      (dumpsValue w).length + 1 ≤ f →
      parseVal f (dumpsValue w ++ rest) = some (w, rest)
  | .null, _ => by
    intro f rest hrest hf
    cases f with
    | zero => omega
    | succ f0 =>
      show parseVal (f0 + 1) (strChars "null" ++ rest) = some (.null, rest)
      have e : strChars "null" = 'n' :: 'u' :: 'l' :: 'l' :: [] := rfl
      have hp : pfx (strChars "null") ('n' :: 'u' :: 'l' :: 'l' :: rest) =
          true := pfx_append (strChars "null") rest
      rw [e]
      simp only [List.cons_append, List.nil_append]
      rw [parseVal]
      rw [skipWs_cons _ (by decide)]
      simp only [if_neg (by decide : ¬('n' : Char) = dqC),
        if_neg (by decide : ¬('n' : Char) = '['),
        if_neg (by decide : ¬('n' : Char) = lbrC),
        if_neg (by decide : ¬('n' : Char) = '-'),
        if_neg (by decide : ¬isDigitChar 'n' = true),
        if_pos hp]
      rfl
  | .bool true, _ => by
    intro f rest hrest hf
    cases f with
    | zero => omega
    | succ f0 =>
      show parseVal (f0 + 1) (strChars "true" ++ rest) = some (.bool true, rest)
      have e : strChars "true" = 't' :: 'r' :: 'u' :: 'e' :: [] := rfl
      have hp : pfx (strChars "true") ('t' :: 'r' :: 'u' :: 'e' :: rest) =
          true := pfx_append (strChars "true") rest
      have hnp : pfx (strChars "null") ('t' :: 'r' :: 'u' :: 'e' :: rest) =
          false := pfx_head_false (by decide) _ _
      rw [e]
      simp only [List.cons_append, List.nil_append]
      rw [parseVal]
      rw [skipWs_cons _ (by decide)]
      simp only [if_neg (by decide : ¬('t' : Char) = dqC),
        if_neg (by decide : ¬('t' : Char) = '['),
        if_neg (by decide : ¬('t' : Char) = lbrC),
        if_neg (by decide : ¬('t' : Char) = '-'),
        if_neg (by decide : ¬isDigitChar 't' = true),
        hnp, if_neg (by simp : ¬(false = true)), if_pos hp]
      rfl
  | .bool false, _ => by
    intro f rest hrest hf
    cases f with
    | zero => omega
    | succ f0 =>
      show parseVal (f0 + 1) (strChars "false" ++ rest) =
        some (.bool false, rest)
      have e : strChars "false" = 'f' :: 'a' :: 'l' :: 's' :: 'e' :: [] := rfl
      have hp : pfx (strChars "false")
          ('f' :: 'a' :: 'l' :: 's' :: 'e' :: rest) = true :=
        pfx_append (strChars "false") rest
      have hnp : pfx (strChars "null")
          ('f' :: 'a' :: 'l' :: 's' :: 'e' :: rest) = false :=
        pfx_head_false (by decide) _ _
      have htp : pfx (strChars "true")
          ('f' :: 'a' :: 'l' :: 's' :: 'e' :: rest) = false :=
        pfx_head_false (by decide) _ _
      rw [e]
      simp only [List.cons_append, List.nil_append]
      rw [parseVal]
      rw [skipWs_cons _ (by decide)]
      simp only [if_neg (by decide : ¬('f' : Char) = dqC),
        if_neg (by decide : ¬('f' : Char) = '['),
        if_neg (by decide : ¬('f' : Char) = lbrC),
        if_neg (by decide : ¬('f' : Char) = '-'),
        if_neg (by decide : ¬isDigitChar 'f' = true),
        hnp, htp, if_neg (by simp : ¬(false = true)), if_pos hp]
      rfl
  | .num n, _ => by
    intro f rest hrest hf
    cases f with
    | zero => omega
    | succ f0 =>
      show parseVal (f0 + 1) (intToChars n ++ rest) = some (.num n, rest)
      by_cases hneg : n < 0
      · have e : intToChars n = '-' :: natToChars n.natAbs := by
          unfold intToChars
          rw [if_pos hneg]
        rw [e, List.cons_append, parseVal, skipWs_cons _ (by decide)]
        simp only [if_neg (by decide : ¬('-' : Char) = dqC),
          if_neg (by decide : ¬('-' : Char) = '['),
          if_neg (by decide : ¬('-' : Char) = lbrC),
          if_pos (rfl : ('-' : Char) = '-')]
        rw [parseNatBody_natToChars n.natAbs rest hrest]
        have hcast : -((n.natAbs : ℤ)) = n := by omega
        show some (Json.num (-((n.natAbs : ℤ))), rest) = some (Json.num n, rest)
        rw [hcast]
      · have e : intToChars n = natToChars n.natAbs := by
          unfold intToChars
          rw [if_neg hneg]
        cases hnc : natToChars n.natAbs with
        | nil => exact absurd hnc (natToChars_ne_nil _)
        | cons d tl =>
          have hd : isDigitChar d = true := by
            obtain ⟨e2, he, hEq⟩ := natToChars_shape n.natAbs d
              (hnc ▸ List.mem_cons_self d tl)
            rw [hEq]
            exact digitChar_isDigit e2 he
          rw [e, hnc, List.cons_append, parseVal,
            skipWs_cons _ (digit_not_space hd)]
          simp only [if_neg (digit_ne_of hd (by decide) :
              ¬d = dqC)]
          simp only [if_neg (digit_ne_of hd (by decide) : ¬d = '[')]
          simp only [if_neg (digit_ne_of hd (by decide) : ¬d = lbrC)]
          simp only [if_neg (digit_ne_of hd (by decide) : ¬d = '-')]
          simp only [if_pos hd]
          rw [show d :: (tl ++ rest) = (d :: tl) ++ rest from rfl, ← hnc,
            parseNatBody_natToChars n.natAbs rest hrest]
          have hcast : ((n.natAbs : ℤ)) = n := by omega
          show some (Json.num ((n.natAbs : ℤ)), rest) = some (Json.num n, rest)
          rw [hcast]
  | .str s, h => by
    intro f rest hrest hf
    cases f with
    | zero => omega
    | succ f0 =>
      have hs : (s.all fun c => c ≠ dqC && c ≠ bslC) = true := h
      rw [List.all_eq_true] at hs
      have hcl : ∀ c ∈ s, c ≠ dqC ∧ c ≠ bslC := fun c hc => by
        have := hs c hc
        simp only [Bool.and_eq_true, decide_eq_true_eq] at this
        exact this
      have hesc : toonEscape s = s := toonEscape_id hcl
      show parseVal (f0 + 1) ((dqC :: toonEscape s ++ [dqC]) ++ rest) =
        some (.str s, rest)
      rw [hesc]
      simp only [List.cons_append, List.append_assoc, List.singleton_append,
        List.nil_append]
      rw [parseVal, skipWs_cons _ (by decide)]
      show (match parseStrBody ((s ++ dqC :: rest).length + 1)
          (s ++ dqC :: rest) with
        | none => none
        | some pr => some (Json.str pr.1, pr.2)) = some (Json.str s, rest)
      rw [parseStrBody_verbatim s hcl _ rest (by simp; omega)]
  | .arr xs, h => by
    intro f rest hrest hf
    cases f with
    | zero => omega
    | succ f0 =>
      have hl : strsCleanList xs = true := h
      have hflen : ('[' :: joinComma (dumpsList xs) ++ [']']).length + 1 ≤
          f0 + 1 := hf
      show parseVal (f0 + 1)
        (('[' :: joinComma (dumpsList xs) ++ [']']) ++ rest) =
        some (.arr xs, rest)
      simp only [List.cons_append, List.append_assoc, List.singleton_append,
        List.nil_append]
      rw [parseVal, skipWs_cons _ (by decide)]
      simp only [if_neg (by decide : ¬('[' : Char) = dqC)]
      show (match skipWs (joinComma (dumpsList xs) ++ ']' :: rest) with
        | ']' :: rest2 => some (Json.arr [], rest2)
        | _ =>
          match parseItems f0 (joinComma (dumpsList xs) ++ ']' :: rest) with
          | none => none
          | some pr => some (Json.arr pr.1, pr.2)) = some (Json.arr xs, rest)
      cases xs with
      | nil =>
        rw [show joinComma (dumpsList []) = ([] : Chars) from rfl,
          List.nil_append, skipWs_cons _ (by decide)]
        rfl
      | cons x xs0 =>
        obtain ⟨hd, tl, heq, hsp, hne, -, -⟩ := dumpsValue_shape x
        have hjoin : ∃ tl2, joinComma (dumpsList (x :: xs0)) = hd :: tl2 := by
          cases xs0 with
          | nil => exact ⟨tl, heq⟩
          | cons y ys =>
            refine ⟨tl ++ ',' :: joinComma (dumpsList (y :: ys)), ?_⟩
            show dumpsValue x ++ ',' :: joinComma (dumpsList (y :: ys)) = _
            rw [heq, List.cons_append]
        obtain ⟨tl2, heq2⟩ := hjoin
        rw [heq2, List.cons_append, skipWs_cons _ hsp]
        split
        · next rest2 heqm =>
          exact absurd (List.head_eq_of_cons_eq heqm) hne
        · next x2 hne2 =>
          rw [← List.cons_append, ← heq2,
            parseItems_dumps (x :: xs0) (by simp) hl f0 rest (by
              simp only [List.length_append, List.length_cons] at hflen ⊢
              omega)]
  | .obj fs, h => by
    intro f rest hrest hf
    cases f with
    | zero => omega
    | succ f0 =>
      have hl : strsCleanFields fs = true := h
      have hflen : (lbrC :: joinComma (dumpsFields fs) ++ [rbrC]).length + 1 ≤
          f0 + 1 := hf
      show parseVal (f0 + 1)
        ((lbrC :: joinComma (dumpsFields fs) ++ [rbrC]) ++ rest) =
        some (.obj fs, rest)
      simp only [List.cons_append, List.append_assoc, List.singleton_append,
        List.nil_append]
      rw [parseVal, skipWs_cons _ (by decide)]
      simp only [if_neg (by decide : ¬lbrC = dqC),
        if_neg (by decide : ¬lbrC = '[')]
      show (match skipWs (joinComma (dumpsFields fs) ++ rbrC :: rest) with
        | r :: rest2 =>
          if r = rbrC then some (Json.obj [], rest2)
          else
            match parseMembers f0 (r :: rest2) with
            | none => none
            | some pr => some (Json.obj pr.1, pr.2)
        | [] => none) = some (Json.obj fs, rest)
      cases fs with
      | nil =>
        rw [show joinComma (dumpsFields []) = ([] : Chars) from rfl,
          List.nil_append, skipWs_cons _ (by decide)]
        rfl
      | cons kv fs0 =>
        have hjoin : ∃ tl2, joinComma (dumpsFields (kv :: fs0)) =
            dqC :: tl2 := by
          cases fs0 with
          | nil =>
            refine ⟨toonEscape kv.1 ++ dqC :: ':' :: dumpsValue kv.2, ?_⟩
            show (dqC :: toonEscape kv.1) ++ dqC :: ':' :: dumpsValue kv.2 = _
            rw [List.cons_append]
          | cons kw more =>
            refine ⟨(toonEscape kv.1 ++ dqC :: ':' :: dumpsValue kv.2) ++
              ',' :: joinComma (dumpsFields (kw :: more)), ?_⟩
            show ((dqC :: toonEscape kv.1) ++ dqC :: ':' :: dumpsValue kv.2) ++
              ',' :: joinComma (dumpsFields (kw :: more)) = _
            rw [List.cons_append, List.cons_append]
        obtain ⟨tl2, heq2⟩ := hjoin
        rw [heq2, List.cons_append, skipWs_cons _ (by decide)]
        show (match parseMembers f0 (dqC :: (tl2 ++ rbrC :: rest)) with
          | none => none
          | some pr => some (Json.obj pr.1, pr.2)) =
            some (Json.obj (kv :: fs0), rest)
        rw [← List.cons_append, ← heq2,
          parseMembers_dumps (kv :: fs0) (by simp) hl f0 rest (by
            simp only [List.length_append, List.length_cons] at hflen ⊢
            omega)]

theorem parseItems_dumps : ∀ (xs : List Json), xs ≠ [] →
    strsCleanList xs = true →
    ∀ (f : Nat) (rest : Chars),
      (joinComma (dumpsList xs)).length + 2 ≤ f →
      parseItems f (joinComma (dumpsList xs) ++ ']' :: rest) =
        some (xs, rest)
  | [], hne => absurd rfl hne
  | [x], _ => by
    intro h f rest hf
    have hx : strsClean x = true := band_left h
    cases f with
    | zero => omega
    | succ f0 =>
      show parseItems (f0 + 1) (dumpsValue x ++ ']' :: rest) =
        some ([x], rest)
      rw [parseItems,
        parseVal_dumps x hx f0 (']' :: rest) (by exact rfl)
          (by simp only [show joinComma (dumpsList [x]) = dumpsValue x
                from rfl] at hf
              omega)]
      rfl
  | x :: y :: rest0, h => by
    intro hne f rest hf
    have hx : strsClean x = true := band_left hne
    have hr : strsCleanList (y :: rest0) = true := band_right hne
    obtain ⟨hd, tl, heq, -, -, -, -⟩ := dumpsValue_shape x
    have hxlen : 1 ≤ (dumpsValue x).length := by
      rw [heq]
      simp
    cases f with
    | zero =>
      have : (0 : Nat) + 2 ≤ 0 := le_trans (by omega) hf
      omega
    | succ f0 =>
      have hf2 : (dumpsValue x ++
          ',' :: joinComma (dumpsList (y :: rest0))).length + 2 ≤ f0 + 1 := hf
      show parseItems (f0 + 1)
        ((dumpsValue x ++ ',' :: joinComma (dumpsList (y :: rest0))) ++
          ']' :: rest) = some (x :: y :: rest0, rest)
      simp only [List.append_assoc, List.cons_append]
      rw [parseItems,
        parseVal_dumps x hx f0
          (',' :: (joinComma (dumpsList (y :: rest0)) ++ ']' :: rest))
          (by exact rfl)
          (by simp only [List.length_append, List.length_cons] at hf2
              omega)]
      show (match parseItems f0
          (joinComma (dumpsList (y :: rest0)) ++ ']' :: rest) with
        | none => none
        | some pr => some (x :: pr.1, pr.2)) = some (x :: y :: rest0, rest)
      rw [parseItems_dumps (y :: rest0) (by simp) hr f0 rest
        (by simp only [List.length_append, List.length_cons] at hf2
            omega)]

theorem parseMembers_dumps : ∀ (fs : List (Chars × Json)), fs ≠ [] →
    strsCleanFields fs = true →
    ∀ (f : Nat) (rest : Chars),
      (joinComma (dumpsFields fs)).length + 2 ≤ f →
      parseMembers f (joinComma (dumpsFields fs) ++ rbrC :: rest) =
        some (fs, rest)
  | [], hne => absurd rfl hne
  | [kv], _ => by
    intro h f rest hf
    have hkall : (kv.1.all fun c => c ≠ dqC && c ≠ bslC) = true :=
      band_left (band_left h)
    have hv : strsClean kv.2 = true := band_right (band_left h)
    rw [List.all_eq_true] at hkall
    have hkcl : ∀ c ∈ kv.1, c ≠ dqC ∧ c ≠ bslC := fun c hc => by
      have := hkall c hc
      simp only [Bool.and_eq_true, decide_eq_true_eq] at this
      exact this
    have hesc : toonEscape kv.1 = kv.1 := toonEscape_id hkcl
    cases f with
    | zero =>
      have : (0 : Nat) + 2 ≤ 0 := le_trans (by omega) hf
      omega
    | succ f0 =>
      have hf2 : (dqC :: toonEscape kv.1 ++
          dqC :: ':' :: dumpsValue kv.2).length + 2 ≤ f0 + 1 := hf
      rw [hesc] at hf2
      show parseMembers (f0 + 1)
        ((dqC :: toonEscape kv.1 ++ dqC :: ':' :: dumpsValue kv.2) ++
          rbrC :: rest) = some ([kv], rest)
      rw [hesc]
      simp only [List.cons_append, List.append_assoc, List.nil_append]
      rw [parseMembers, skipWs_cons _ (by decide)]
      show (match parseStrBody
          ((kv.1 ++ dqC :: ':' :: (dumpsValue kv.2 ++ rbrC :: rest)).length + 1)
          (kv.1 ++ dqC :: ':' :: (dumpsValue kv.2 ++ rbrC :: rest)) with
        | none => none
        | some (k, rest2) =>
          match skipWs rest2 with
          | ':' :: rest3 =>
            match parseVal f0 rest3 with
            | none => none
            | some (v, rest4) =>
              match skipWs rest4 with
              | ',' :: rest5 =>
                match parseMembers f0 rest5 with
                | none => none
                | some pr => some ((k, v) :: pr.1, pr.2)
              | r :: rest5 => if r = rbrC then some ([(k, v)], rest5)
                else none
              | [] => none
          | x => none) = some ([kv], rest)
      rw [parseStrBody_verbatim kv.1 hkcl _
          (':' :: (dumpsValue kv.2 ++ rbrC :: rest))
          (by simp only [List.length_append, List.length_cons]
              omega)]
      show (match parseVal f0 (dumpsValue kv.2 ++ rbrC :: rest) with
        | none => none
        | some (v, rest4) =>
          match skipWs rest4 with
          | ',' :: rest5 =>
            match parseMembers f0 rest5 with
            | none => none
            | some pr => some ((kv.1, v) :: pr.1, pr.2)
          | r :: rest5 => if r = rbrC then some ([(kv.1, v)], rest5)
            else none
          | [] => none) = some ([kv], rest)
      rw [parseVal_dumps kv.2 hv f0 (rbrC :: rest) (by exact rfl)
        (by simp only [List.length_append, List.length_cons] at hf2
            omega)]
      rfl
  | kv :: kw :: rest0, h => by
    intro hne f rest hf
    have hkall : (kv.1.all fun c => c ≠ dqC && c ≠ bslC) = true :=
      band_left (band_left hne)
    have hv : strsClean kv.2 = true := band_right (band_left hne)
    have hr : strsCleanFields (kw :: rest0) = true := band_right hne
    rw [List.all_eq_true] at hkall
    have hkcl : ∀ c ∈ kv.1, c ≠ dqC ∧ c ≠ bslC := fun c hc => by
      have := hkall c hc
      simp only [Bool.and_eq_true, decide_eq_true_eq] at this
      exact this
    have hesc : toonEscape kv.1 = kv.1 := toonEscape_id hkcl
    cases f with
    | zero =>
      have : (0 : Nat) + 2 ≤ 0 := le_trans (by omega) hf
      omega
    | succ f0 =>
      have hf2 : ((dqC :: toonEscape kv.1 ++ dqC :: ':' :: dumpsValue kv.2) ++
          ',' :: joinComma (dumpsFields (kw :: rest0))).length + 2 ≤
            f0 + 1 := hf
      rw [hesc] at hf2
      show parseMembers (f0 + 1)
        (((dqC :: toonEscape kv.1 ++ dqC :: ':' :: dumpsValue kv.2) ++
          ',' :: joinComma (dumpsFields (kw :: rest0))) ++ rbrC :: rest) =
        some (kv :: kw :: rest0, rest)
      rw [hesc]
      simp only [List.cons_append, List.append_assoc, List.nil_append]
      rw [parseMembers, skipWs_cons _ (by decide)]
      show (match parseStrBody
          ((kv.1 ++ dqC :: ':' :: (dumpsValue kv.2 ++
            ',' :: (joinComma (dumpsFields (kw :: rest0)) ++
              rbrC :: rest))).length + 1)
          (kv.1 ++ dqC :: ':' :: (dumpsValue kv.2 ++
            ',' :: (joinComma (dumpsFields (kw :: rest0)) ++
              rbrC :: rest))) with
        | none => none
        | some (k, rest2) =>
          match skipWs rest2 with
          | ':' :: rest3 =>
            match parseVal f0 rest3 with
            | none => none
            | some (v, rest4) =>
              match skipWs rest4 with
              | ',' :: rest5 =>
                match parseMembers f0 rest5 with
                | none => none
                | some pr => some ((k, v) :: pr.1, pr.2)
              | r :: rest5 => if r = rbrC then some ([(k, v)], rest5)
                else none
              | [] => none
          | x => none) = some (kv :: kw :: rest0, rest)
      rw [parseStrBody_verbatim kv.1 hkcl _
          (':' :: (dumpsValue kv.2 ++
            ',' :: (joinComma (dumpsFields (kw :: rest0)) ++ rbrC :: rest)))
          (by simp only [List.length_append, List.length_cons]
              omega)]
      show (match parseVal f0 (dumpsValue kv.2 ++
          ',' :: (joinComma (dumpsFields (kw :: rest0)) ++ rbrC :: rest)) with
        | none => none
        | some (v, rest4) =>
          match skipWs rest4 with
          | ',' :: rest5 =>
            match parseMembers f0 rest5 with
            | none => none
            | some pr => some ((kv.1, v) :: pr.1, pr.2)
          | r :: rest5 => if r = rbrC then some ([(kv.1, v)], rest5)
            else none
          | [] => none) = some (kv :: kw :: rest0, rest)
      rw [parseVal_dumps kv.2 hv f0
        (',' :: (joinComma (dumpsFields (kw :: rest0)) ++ rbrC :: rest))
        (by exact rfl)
        (by simp only [List.length_append, List.length_cons] at hf2
            omega)]
      show (match parseMembers f0
          (joinComma (dumpsFields (kw :: rest0)) ++ rbrC :: rest) with
        | none => none
        | some pr => some ((kv.1, kv.2) :: pr.1, pr.2)) =
        some (kv :: kw :: rest0, rest)
      rw [parseMembers_dumps (kw :: rest0) (by simp) hr f0 rest
        (by simp only [List.length_append, List.length_cons] at hf2
            omega)]

end

theorem pyJsonParse_dumps (w : Json) (h : strsClean w = true) :
    pyJsonParse (dumpsValue w) = some w := by
  have happ := parseVal_dumps w h ((dumpsValue w).length + 1) [] trivial
    (le_refl _)
  rw [List.append_nil] at happ
  unfold pyJsonParse
  rw [happ]
  rfl

/-! ### Key expansion inverts abbreviation on safe keys -/

theorem expand_abbrev (k : Chars)
    (hk : lookupAssoc KEY_EXPANSIONS k = none) :
    expandKey (abbrevKey k) = k := by
  unfold abbrevKey
  cases h : lookupAssoc KEY_ABBREVIATIONS k with
  | none =>
    show expandKey k = k
    unfold expandKey
    rw [hk]
    rfl
  | some sh =>
    show expandKey sh = k
    have hmem := lookupAssoc_mem h
    have hall : ∀ p ∈ KEY_ABBREVIATIONS, expandKey p.2 = p.1 := by decide
    exact hall (k, sh) hmem

mutual

theorem expand_abbrev_json : ∀ (v : Json), safeJson v = true →
    expandKeysJson (abbrevJson v) = v
  | .null, _ => rfl
  | .bool b, _ => rfl
  | .num n, _ => rfl
  | .str s, _ => rfl
  | .arr xs, h => by
    show Json.arr (expandKeysList (abbrevJsonList xs)) = Json.arr xs
    rw [expand_abbrev_list xs h]
  | .obj fs, h => by
    show Json.obj (expandKeysFields (abbrevJsonFields fs)) = Json.obj fs
    rw [expand_abbrev_fields fs (band_right h)]

theorem expand_abbrev_list : ∀ (xs : List Json), safeJsonList xs = true →
    expandKeysList (abbrevJsonList xs) = xs
  | [], _ => rfl
  | x :: xs, h => by
    show expandKeysJson (abbrevJson x) :: expandKeysList (abbrevJsonList xs) =
      x :: xs
    rw [expand_abbrev_json x (band_left h), expand_abbrev_list xs (band_right h)]

theorem expand_abbrev_fields : ∀ (fs : List (Chars × Json)),
    safeJsonFields fs = true →
    expandKeysFields (abbrevJsonFields fs) = fs
  | [], _ => rfl
  | kv :: fs, h => by
    have hk : safeKey kv.1 = true := band_left (band_left h)
    have hexp : lookupAssoc KEY_EXPANSIONS kv.1 = none := by
      unfold safeKey at hk
      simp only [Bool.and_eq_true, Option.isNone_iff_eq_none] at hk
      exact hk.2
    show (expandKey (abbrevKey kv.1),
        expandKeysJson (abbrevJson kv.2)) ::
        expandKeysFields (abbrevJsonFields fs) = kv :: fs
    rw [expand_abbrev kv.1 hexp,
      expand_abbrev_json kv.2 (band_right (band_left h)),
      expand_abbrev_fields fs (band_right h)]

end

mutual

theorem abbrev_strsClean : ∀ (v : Json), safeJson v = true →
    strsClean (abbrevJson v) = true
  | .null, _ => rfl
  | .bool b, _ => rfl
  | .num n, _ => rfl
  | .str s, h => by
    show (s.all fun c => c ≠ dqC && c ≠ bslC) = true
    have hs : s.all safeChar = true := h
    rw [List.all_eq_true] at hs ⊢
    intro c hc
    simp only [Bool.and_eq_true, decide_eq_true_eq]
    exact ⟨(safeChar_spec (hs c hc)).2.2.2.1, (safeChar_spec (hs c hc)).2.2.2.2.1⟩
  | .arr xs, h => by
    show strsCleanList (abbrevJsonList xs) = true
    exact abbrev_strsClean_list xs h
  | .obj fs, h => by
    show strsCleanFields (abbrevJsonFields fs) = true
    exact abbrev_strsClean_fields fs (band_right h)

theorem abbrev_strsClean_list : ∀ (xs : List Json), safeJsonList xs = true →
    strsCleanList (abbrevJsonList xs) = true
  | [], _ => rfl
  | x :: xs, h => by
    show (strsClean (abbrevJson x) && strsCleanList (abbrevJsonList xs)) = true
    rw [abbrev_strsClean x (band_left h), abbrev_strsClean_list xs (band_right h)]
    rfl

theorem abbrev_strsClean_fields : ∀ (fs : List (Chars × Json)),
    safeJsonFields fs = true →
    strsCleanFields (abbrevJsonFields fs) = true
  | [], _ => rfl
  | kv :: fs, h => by
    have hk : safeKey kv.1 = true := band_left (band_left h)
    have hkw : ∀ d ∈ abbrevKey kv.1, isWordChar d = true := fun d hd =>
      (safeKeyChar_spec ((abbrevKey_safe hk).2 d hd)).1
    have hclean : ((abbrevKey kv.1).all fun c => c ≠ dqC && c ≠ bslC) = true := by
      rw [List.all_eq_true]
      intro c hc
      simp only [Bool.and_eq_true, decide_eq_true_eq]
      exact ⟨word_ne_dq (hkw c hc), word_ne_bsl (hkw c hc)⟩
    show (((abbrevKey kv.1).all fun c => c ≠ dqC && c ≠ bslC) &&
      strsClean (abbrevJson kv.2) && strsCleanFields (abbrevJsonFields fs)) =
        true
    rw [hclean, abbrev_strsClean kv.2 (band_right (band_left h)),
      abbrev_strsClean_fields fs (band_right h)]
    rfl
end

theorem compactValue_ne_nil (v : Json) : compactValue v ≠ [] := by
  cases v with
  | null => decide
  | bool b => cases b <;> decide
  | num n =>
    show intToChars n ≠ []
    unfold intToChars
    by_cases hneg : n < 0
    · rw [if_pos hneg]
      simp
    · rw [if_neg hneg]
      exact natToChars_ne_nil _
  | str s => simp [compactValue]
  | arr xs => simp [compactValue]
  | obj fs => simp [compactValue]

/-- The three decoder pre-passes turn the compact text of a safe value into
exactly the canonical JSON serialization of its abbreviated form. -/
theorem toon_transforms (v : Json) (h : safeJson v = true) :
    requote (fixTF none (fixNull none (compactValue v))) =
      dumpsValue (abbrevJson v) := by
  have h1 : fixNull none (compactValue v) = cv1 v := by
    have h0 := fixNull_val v h none (fun hc => Option.noConfusion hc) []
    rw [List.append_nil] at h0
    rw [h0]
    show cv1 v ++ [] = cv1 v
    rw [List.append_nil]
  have h2 : fixTF none (cv1 v) = cv2 v := by
    have h0 := fixTF_val v h none trivial [] trivial
    rw [List.append_nil] at h0
    rw [h0]
    show cv2 v ++ [] = cv2 v
    rw [List.append_nil]
  have h3 : requote (cv2 v) = dumpsValue (abbrevJson v) := by
    have h0 := requote_val v h (cv2 v).length [] (by simp)
    rw [List.append_nil] at h0
    show requoteF (cv2 v).length (cv2 v) = _
    rw [h0]
    show dumpsValue (abbrevJson v) ++ [] = _
    rw [List.append_nil]
  rw [h1, h2, h3]

/-- C5 (amended).  On the safe class (printable strings without `~`, lone
`T`/`F` tokens, quotes, backslashes, braces or commas; nonempty word-only
keys that carry no `T`/`F` and are not themselves short codes; no duplicate
keys), compact-encoding followed by decoding is exact: `ToonDecoder.decode`
returns the original value (with success flag), and `ToonConverter.from_toon`
returns it for dict-topped values — its key expansion only runs when the
parsed top level is a dict. -/
theorem c5_toon_roundtrip (v : Json) (hv : safeJson v = true) :
    toonDecode (to_toon (.jsIn v)) = (.js v, true) ∧
    ((∃ fs, v = .obj fs) → from_toon (to_toon (.jsIn v)) = .js v) := by
  have htt : to_toon (.jsIn v) = compactValue v := rfl
  have hchain : pyJsonParse (requote (fixTF none (fixNull none
      (compactValue v)))) = some (abbrevJson v) := by
    rw [toon_transforms v hv, pyJsonParse_dumps _ (abbrev_strsClean v hv)]
  constructor
  · rw [htt]
    unfold toonDecode
    rw [if_neg (compactValue_ne_nil v), hchain]
    show (PyVal.js (expandKeysJson (abbrevJson v)), true) = (PyVal.js v, true)
    rw [expand_abbrev_json v hv]
  · rintro ⟨fs, rfl⟩
    rw [htt]
    unfold from_toon
    rw [hchain]
    show PyVal.js (expandKeysJson (abbrevJson (Json.obj fs))) =
      PyVal.js (Json.obj fs)
    rw [expand_abbrev_json _ hv]

theorem c5_toon_roundtrip_witness :
    safeJson (Json.obj [(strChars "prompt", .str (strChars "hello world")),
      (strChars "max_tokens", .num 256)]) = true ∧
    toonDecode (to_toon (.jsIn (Json.obj
      [(strChars "prompt", .str (strChars "hello world")),
       (strChars "max_tokens", .num 256)]))) =
      (.js (Json.obj [(strChars "prompt", .str (strChars "hello world")),
        (strChars "max_tokens", .num 256)]), true) ∧
    from_toon (to_toon (.jsIn (Json.obj
      [(strChars "prompt", .str (strChars "hello world")),
       (strChars "max_tokens", .num 256)]))) =
      .js (Json.obj [(strChars "prompt", .str (strChars "hello world")),
        (strChars "max_tokens", .num 256)]) :=
  ⟨by decide,
   (c5_toon_roundtrip _ (by decide)).1,
   (c5_toon_roundtrip _ (by decide)).2 ⟨_, rfl⟩⟩
